import Mathlib

/-!
Verification of the in-memory limit order book of the matching engine
(`engine/orderbook.py` together with the event dispatcher in `engine/main.py`).

Modelling conventions:
* Python `dict`s are modelled as association lists with unique keys
  (`alookup` / `aset` / `apop` mirror `d.get`, `d[k] = v`, `d.pop(k, None)`).
* `heapq` heaps are modelled at their priority-queue contract: the heap is a
  sorted list, `heap[0]` is its head, `heappush` is ordered insertion and
  `heappop` drops the head.  The buy heap stores negated prices exactly as the
  source does.
* Python `Decimal` prices are modelled as rationals;
  `Decimal.quantize(Decimal(&quot;0.01&quot;), rounding=ROUND_DOWN)` is truncation toward
  zero after scaling by 100.
* The source mutates a shared `Order` object that is simultaneously referenced
  from a price-level deque and from `orders_by_id`; the model updates both
  structures in the same step, which coincides with the source on every state
  where the two references alias (all reachable states).
* Code that would raise (`KeyError` / `IndexError`) or loop forever is
  modelled by `Option`: `none` marks a run the Python program does not finish.
-/

namespace Engine

/-! ## Dictionary model -/

def alookup {κ α : Type} [DecidableEq κ] (k : κ) : List (κ × α) → Option α
  | [] => none
  | (k', v) :: t => if k' = k then some v else alookup k t

def aset {κ α : Type} [DecidableEq κ] (k : κ) (v : α) : List (κ × α) → List (κ × α)
  | [] => [(k, v)]
  | (k', v') :: t => if k' = k then (k, v) :: t else (k', v') :: aset k v t

def apop {κ α : Type} [DecidableEq κ] (k : κ) : List (κ × α) → List (κ × α)
  | [] => []
  | (k', v') :: t => if k' = k then t else (k', v') :: apop k t

/-! ## Data model (`engine/orderbook.py`) -/

/-- An order; `side` is `1` for buy and `-1` for sell, `price` is the
normalized decimal price.  The arrival timestamp is not modelled (the source
uses it only for observability, never for priority). -/
structure Order where
  id : Nat
  side : Int
  price : ℚ
  orig_qty : Nat
  remaining : Nat
deriving DecidableEq, Repr

/-- A trade; the random trade id and the timestamp are not modelled. -/
structure Trade where
  price : ℚ
  qty : Nat
  bid_order_id : Nat
  ask_order_id : Nat
deriving DecidableEq, Repr

/-- `OrderBook._norm_price`: quantize to two fractional digits rounding
toward zero, i.e. truncate `p * 100` toward zero (`Int.tdiv` is the
toward-zero division and `p * 100 = (p.num * 100) / p.den`), then divide the
resulting integer back by 100. -/
def norm_price (p : ℚ) : ℚ := mkRat (Int.tdiv (p.num * 100) p.den) 100

/-! ## Book state

One `SideBook` gathers the four per-side structures of `OrderBook.__init__`
(`*_levels`, `*_heap`, `*_price_set`, `*_volume`); the whole book is the two
sides plus `orders_by_id`.  The price set is a list with no duplicates.  -/

structure SideBook where
  levels : List (ℚ × List Order)
  heap : List ℚ
  pset : List ℚ
  vol : List (ℚ × Int)
deriving DecidableEq, Repr

structure OrderBook where
  buy : SideBook
  sell : SideBook
  orders_by_id : List (Nat × Order)
deriving DecidableEq, Repr

def OrderBook.empty : OrderBook := ⟨⟨[], [], [], []⟩, ⟨[], [], [], []⟩, []⟩

/-- Key stored in a side's heap for a given price: the buy heap
(`neg = true`) stores `-price`, the sell heap stores the price itself. -/
def keyOf (neg : Bool) (p : ℚ) : ℚ := if neg then -p else p

/-- Price named by a heap key; inverse of `keyOf`. -/
def priceOf (neg : Bool) (k : ℚ) : ℚ := if neg then -k else k

/-- `OrderBook._ensure_buy_price` / `_ensure_sell_price`: push the price onto
the heap unless it is already tracked by the price set. -/
def ensurePrice (neg : Bool) (sb : SideBook) (price : ℚ) : SideBook :=
  if price ∈ sb.pset then sb
  else { sb with heap := List.orderedInsert (· ≤ ·) (keyOf neg price) sb.heap,
                 pset := price :: sb.pset }

/-- Loop body of `OrderBook._clean_buy_heap` / `_clean_sell_heap`: pop stale
heap entries (top prices whose level is absent or empty) together with their
price-set, level and volume entries, stopping at the first live top. -/
def cleanLoop (neg : Bool) :
    List ℚ → List (ℚ × List Order) → List ℚ → List (ℚ × Int) →
    List ℚ × List (ℚ × List Order) × List ℚ × List (ℚ × Int)
  | [], levels, pset, vol => ([], levels, pset, vol)
  | k :: rest, levels, pset, vol =>
    match alookup (priceOf neg k) levels with
    | some (_ :: _) => (k :: rest, levels, pset, vol)
    | _ =>
      cleanLoop neg rest (apop (priceOf neg k) levels)
        (pset.erase (priceOf neg k)) (apop (priceOf neg k) vol)

def cleanHeap (neg : Bool) (sb : SideBook) : SideBook :=
  let r := cleanLoop neg sb.heap sb.levels sb.pset sb.vol
  ⟨r.2.1, r.1, r.2.2.1, r.2.2.2⟩

def clean_buy_heap (b : OrderBook) : OrderBook := { b with buy := cleanHeap true b.buy }

def clean_sell_heap (b : OrderBook) : OrderBook := { b with sell := cleanHeap false b.sell }

/-- `OrderBook._best_buy_price`: clean the buy heap, then report its top
(negated back into a price).  Returns the mutated book alongside. -/
def best_buy_price (b : OrderBook) : OrderBook × Option ℚ :=
  let b' := clean_buy_heap b
  (b', b'.buy.heap.head?.map (priceOf true))

/-- `OrderBook._best_sell_price`. -/
def best_sell_price (b : OrderBook) : OrderBook × Option ℚ :=
  let b' := clean_sell_heap b
  (b', b'.sell.heap.head?.map (priceOf false))

/-! ## Adding, cancelling, modifying -/

/-- Side-local part of `OrderBook._add_to_book`: create the level and the
volume entry on first use of the price, append the order to the level FIFO and
add its remaining quantity to the level volume.  (In the source a present
level always has a present volume entry; `getD 0` covers the same states.) -/
def addToSide (neg : Bool) (sb : SideBook) (o : Order) : SideBook :=
  let sb1 :=
    if (alookup o.price sb.levels).isNone then
      let sb' := ensurePrice neg sb o.price
      { sb' with levels := aset o.price [] sb'.levels, vol := aset o.price 0 sb'.vol }
    else sb
  { sb1 with
    levels := aset o.price ((alookup o.price sb1.levels).getD [] ++ [o]) sb1.levels,
    vol := aset o.price ((alookup o.price sb1.vol).getD 0 + (o.remaining : Int)) sb1.vol }

/-- `OrderBook._add_to_book`: route to the side named by `order.side` and
record the order in `orders_by_id`. -/
def add_to_book (b : OrderBook) (o : Order) : OrderBook :=
  if o.side = 1 then
    { b with buy := addToSide true b.buy o, orders_by_id := aset o.id o b.orders_by_id }
  else
    { b with sell := addToSide false b.sell o, orders_by_id := aset o.id o b.orders_by_id }

/-- Removal block shared verbatim by `cancel` and `modify`: if the order's
level is present and non-empty, remove the order from it (skipping the volume
update when the order is absent, the `except ValueError: pass`), clamp the
volume at zero, and drop the level if it became empty. -/
def cancelSide (sb : SideBook) (o : Order) : SideBook :=
  match alookup o.price sb.levels with
  | none => sb
  | some dq =>
    if dq = [] then sb
    else
      let r : List Order × List (ℚ × Int) :=
        if o ∈ dq then
          (dq.erase o,
            aset o.price (max 0 ((alookup o.price sb.vol).getD 0 - (o.remaining : Int))) sb.vol)
        else (dq, sb.vol)
      if r.1 = [] then { sb with levels := apop o.price sb.levels, vol := r.2 }
      else { sb with levels := aset o.price r.1 sb.levels, vol := r.2 }

/-- `OrderBook.cancel`. -/
def OrderBook.cancel (b : OrderBook) (order_id : Nat) : Bool × OrderBook :=
  match alookup order_id b.orders_by_id with
  | none => (false, b)
  | some o =>
    if o.side = 1 then
      (true, { b with buy := cancelSide b.buy o, orders_by_id := apop order_id b.orders_by_id })
    else
      (true, { b with sell := cancelSide b.sell o, orders_by_id := apop order_id b.orders_by_id })

/-- `OrderBook.modify`: remove as in cancel, then reinsert the same order at
the (re-)normalized new price. -/
def OrderBook.modify (b : OrderBook) (order_id : Nat) (new_price : ℚ) : Bool × OrderBook :=
  match alookup order_id b.orders_by_id with
  | none => (false, b)
  | some o =>
    let b1 :=
      if o.side = 1 then { b with buy := cancelSide b.buy o }
      else { b with sell := cancelSide b.sell o }
    (true, add_to_book b1 { o with price := norm_price new_price })

/-! ## Matching core -/

/-- Trade constructor of the matching loop: a buy incoming is the bid side of
the trade, a sell incoming the ask side; the price is the resting order's. -/
def mkTrade (isBuy : Bool) (price : ℚ) (qty : Nat) (incId restId : Nat) : Trade :=
  if isBuy then ⟨price, qty, incId, restId⟩ else ⟨price, qty, restId, incId⟩

/-- Number of resting orders on a side. -/
def sideSize (sb : SideBook) : Nat := (sb.levels.map (fun e => e.2.length)).sum

/-- Outcome of one iteration of the `while incoming.remaining > 0` loop of
`OrderBook.match`: the loop breaks (with the opposite side's heap cleaned),
the source raises (`KeyError` / `IndexError`, unreachable), or a trade is
produced and the loop continues. -/
inductive StepRes where
  | stop : SideBook → StepRes
  | err : StepRes
  | cont : Trade → Nat → SideBook → List (Nat × Order) → StepRes

/-- Break condition of the matching loop: a buy stops when the best ask is
above its price (`best_ask > incoming.price`), a sell when the best bid is
below its price (`best_bid < incoming.price`). -/
def noCross (isBuy : Bool) (incPrice best : ℚ) : Bool :=
  if isBuy then decide (incPrice < best) else decide (best < incPrice)

/-- One iteration of the matching loop (entered with `rem > 0`), parametric
in the incoming side (`isBuy`); `opp` is the opposite side's book and `idx`
is `orders_by_id`.  As in the source: clean the opposite heap and read its
top; break if there is none or it does not cross; trade against the head of
the best level; decrement the incoming and resting remaining quantities and
the level volume; pop the resting order (and its index entry) if exhausted;
drop the level if empty.  The resting order is decremented both in its level
and in the index, reflecting that the source mutates one shared object. -/
def matchStep (isBuy : Bool) (incId : Nat) (incPrice : ℚ) (rem : Nat)
    (opp : SideBook) (idx : List (Nat × Order)) : StepRes :=
  let opp1 := cleanHeap (!isBuy) opp
  match opp1.heap with
  | [] => .stop opp1
  | k :: _ =>
    let best := priceOf (!isBuy) k
    if noCross isBuy incPrice best then .stop opp1
    else
      match alookup best opp1.levels with
      | none => .err
      | some [] => .err
      | some (resting :: dqrest) =>
        let traded := min rem resting.remaining
        let restRem := resting.remaining - traded
        let opp2 :=
          { opp1 with vol := aset best ((alookup best opp1.vol).getD 0 - (traded : Int)) opp1.vol }
        let dq2 := if restRem = 0 then dqrest else { resting with remaining := restRem } :: dqrest
        let idx2 :=
          if restRem = 0 then apop resting.id idx
          else aset resting.id { resting with remaining := restRem } idx
        let opp3 :=
          if dq2 = [] then { opp2 with levels := apop best opp2.levels }
          else { opp2 with levels := aset best dq2 opp2.levels }
        .cont (mkTrade isBuy resting.price traded incId resting.id) (rem - traded) opp3 idx2

/-- The matching loop: iterate `matchStep` while quantity remains.  Fuel
counts loop iterations; `none` models a run the Python loop does not
complete (it cannot, see `match_terminates`). -/
def matchLoop (isBuy : Bool) (incId : Nat) (incPrice : ℚ) :
    Nat → Nat → SideBook → List (Nat × Order) →
    Option (List Trade × Nat × SideBook × List (Nat × Order))
  | 0, _, _, _ => none
  | _ + 1, 0, opp, idx => some ([], 0, opp, idx)
  | fuel + 1, rem, opp, idx =>
    match matchStep isBuy incId incPrice rem opp idx with
    | .stop opp1 => some ([], rem, opp1, idx)
    | .err => none
    | .cont tr rem2 opp3 idx2 =>
      match matchLoop isBuy incId incPrice fuel rem2 opp3 idx2 with
      | none => none
      | some (ts, remF, oppF, idxF) => some (tr :: ts, remF, oppF, idxF)

/-- `OrderBook.match`: run the loop against the opposite side, then add any
leftover incoming quantity to the book. -/
def matchOrder (b : OrderBook) (incoming : Order) : Option (List Trade × OrderBook) :=
  if incoming.side = 1 then
    match matchLoop true incoming.id incoming.price
        (incoming.remaining + sideSize b.sell + 1) incoming.remaining b.sell b.orders_by_id with
    | none => none
    | some (ts, rem', sell', idx') =>
      let b' : OrderBook := { b with sell := sell', orders_by_id := idx' }
      some (ts, if 0 < rem' then add_to_book b' { incoming with remaining := rem' } else b')
  else
    match matchLoop false incoming.id incoming.price
        (incoming.remaining + sideSize b.buy + 1) incoming.remaining b.buy b.orders_by_id with
    | none => none
    | some (ts, rem', buy', idx') =>
      let b' : OrderBook := { b with buy := buy', orders_by_id := idx' }
      some (ts, if 0 < rem' then add_to_book b' { incoming with remaining := rem' } else b')

/-! ## Snapshot -/

/-- `OrderBook.snapshot`: clean both heaps, then materialize the top `depth`
price-set entries of each side (bids descending, asks ascending) with their
volume-map quantities.  Returns the mutated book together with the two
lists. -/
def snapshot (b : OrderBook) (depth : Nat) :
    OrderBook × List (ℚ × Int) × List (ℚ × Int) :=
  let b2 := clean_sell_heap (clean_buy_heap b)
  let buyPrices := ((List.insertionSort (· ≤ ·) b2.buy.pset).reverse).take depth
  let sellPrices := (List.insertionSort (· ≤ ·) b2.sell.pset).take depth
  (b2, buyPrices.map (fun p => (p, (alookup p b2.buy.vol).getD 0)),
    sellPrices.map (fun p => (p, (alookup p b2.sell.vol).getD 0)))

/-! ## Event dispatcher (`engine/main.py`, `_process_redis_message`) -/

inductive Event where
  | place (order_id : Nat) (side : Int) (price : ℚ) (quantity : Nat)
  | cancel (order_id : Nat)
  | modify (order_id : Nat) (price : ℚ)
deriving DecidableEq, Repr

/-- One dispatcher step: `place` normalizes the price, builds the incoming
order with `remaining = quantity` and matches it; `cancel` and `modify`
return their ack flag.  The dispatcher normalizes the modify price once more
before `OrderBook.modify` does. -/
def processEvent (b : OrderBook) : Event → Option (OrderBook × List Trade × Option Bool)
  | .place oid side price qty =>
    (matchOrder b ⟨oid, side, norm_price price, qty, qty⟩).map fun r => (r.2, r.1, none)
  | .cancel oid =>
    let r := b.cancel oid
    some (r.2, [], some r.1)
  | .modify oid price =>
    let r := b.modify oid (norm_price price)
    some (r.2, [], some r.1)

/-- Run a sequence of events, accumulating all emitted trades in order. -/
def runEvents : OrderBook → List Event → Option (OrderBook × List Trade)
  | b, [] => some (b, [])
  | b, e :: es =>
    match processEvent b e with
    | none => none
    | some (b', ts, _) => (runEvents b' es).map fun r => (r.1, ts ++ r.2)

/-- Run events on the initially empty book. -/
def run (es : List Event) : Option (OrderBook × List Trade) :=
  runEvents OrderBook.empty es

/-! ## Derived notions used by the specification claims -/

/-- Total number of orders resting in a levels mapping. -/
def levelsSize (l : List (ℚ × List Order)) : Nat := (l.map fun e => e.2.length).sum

/-- All orders resting in a levels mapping. -/
def ordersOfLevels (l : List (ℚ × List Order)) : List Order := (l.map fun e => e.2).flatten

/-- A price whose level is absent or empty (the condition under which the
lazy heap cleanup discards it). -/
def deadLevel (l : List (ℚ × List Order)) (p : ℚ) : Prop :=
  alookup p l = none ∨ alookup p l = some []

/-- The keys of an association list are pairwise distinct (true of every
Python dict). -/
def keysNodup {κ α : Type} (l : List (κ × α)) : Prop := (l.map Prod.fst).Nodup

/-- Structural well-formedness of one side of the book, maintained by every
operation: no empty level is stored, level keys are distinct, every level's
price and every price-set member is represented in the heap, the heap is
sorted, and the price set has no duplicates. -/
def SideInv (neg : Bool) (sb : SideBook) : Prop :=
  (∀ e ∈ sb.levels, e.2 ≠ []) ∧
  keysNodup sb.levels ∧
  (∀ e ∈ sb.levels, keyOf neg e.1 ∈ sb.heap) ∧
  sb.heap.Sorted (· ≤ ·) ∧
  sb.pset.Nodup ∧
  (∀ p ∈ sb.pset, keyOf neg p ∈ sb.heap)

/-- The book does not cross: every stored bid level price is below every
stored ask level price. -/
def NoCross (b : OrderBook) : Prop :=
  ∀ eb ∈ b.buy.levels, ∀ es ∈ b.sell.levels, eb.1 < es.1

/-- Both side invariants together with the no-cross property. -/
def BookInv (b : OrderBook) : Prop :=
  SideInv true b.buy ∧ SideInv false b.sell ∧ NoCross b

/-- An event sequence free of modifies. -/
def placeCancelOnly : List Event → Prop
  | [] => True
  | .modify _ _ :: _ => False
  | _ :: es => placeCancelOnly es

/-- Does a trade name the given order id on its bid or its ask side? -/
def tradeInvolves (id : Nat) (t : Trade) : Bool :=
  decide (t.bid_order_id = id) || decide (t.ask_order_id = id)

/-- Total traded quantity attributed to an order id: the sum of the
quantities of the trades in which the id appears as `bid_order_id` or
`ask_order_id` (the quantity of the conservation claim). -/
def tq (id : Nat) (tr : List Trade) : Nat :=
  ((tr.filter (tradeInvolves id)).map Trade.qty).sum

/-- Total quantity of a trade list. -/
def sumQty (ts : List Trade) : Nat := (ts.map Trade.qty).sum

/-- The order ids carried by the `place` events of a sequence. -/
def placeIds : List Event → List Nat
  | [] => []
  | .place oid _ _ _ :: es => oid :: placeIds es
  | _ :: es => placeIds es

/-- Ids of the orders resting in a side's levels, in book order. -/
def levelIds (sb : SideBook) : List Nat := (ordersOfLevels sb.levels).map Order.id

/-- Every order stored in a side's levels is on the stated side, lies at its
level's price, and coincides with its entry of the order index — the latter
is the aliasing of the shared `Order` object between the level deque and
`orders_by_id` in the source. -/
def AlignSide (buySide : Bool) (sb : SideBook) (idx : List (Nat × Order)) : Prop :=
  ∀ e ∈ sb.levels, ∀ o ∈ e.2,
    (if buySide then o.side = 1 else ¬o.side = 1) ∧ o.price = e.1 ∧ alookup o.id idx = some o

/-- Conservation invariant of the whole book relative to the ids placed so
far and the trades emitted so far: the index is keyed consistently and only
by placed ids, every indexed order satisfies the conservation equation,
every past trade names placed ids, both sides alias the index, the resting
order ids are pairwise distinct across the whole book, and both sides are
structurally well-formed. -/
structure ConsInv (b : OrderBook) (placed : List Nat) (trP : List Trade) : Prop where
  idFun : ∀ id o, alookup id b.orders_by_id = some o → o.id = id
  idxNodup : keysNodup b.orders_by_id
  dom : ∀ id o, alookup id b.orders_by_id = some o → id ∈ placed
  conserv : ∀ id o, alookup id b.orders_by_id = some o →
    o.remaining + tq id trP = o.orig_qty
  tids : ∀ t ∈ trP, t.bid_order_id ∈ placed ∧ t.ask_order_id ∈ placed
  alignB : AlignSide true b.buy b.orders_by_id
  alignS : AlignSide false b.sell b.orders_by_id
  uniq : (levelIds b.buy ++ levelIds b.sell).Nodup
  invB : SideInv true b.buy
  invS : SideInv false b.sell

/-- Aggregate remaining quantity of a level queue (the value tracked by the
`*_volume` maps). -/
def sumRem (dq : List Order) : Int := (dq.map fun o => (o.remaining : Int)).sum

/-- Volume-map correctness of one side: every stored level's volume entry is
its aggregate remaining, every tracked price without a level has volume
absent or zero, and the volume keys are distinct. -/
def VolInv (sb : SideBook) : Prop :=
  (∀ p dq, alookup p sb.levels = some dq → alookup p sb.vol = some (sumRem dq)) ∧
  (∀ p ∈ sb.pset, alookup p sb.levels = none →
    alookup p sb.vol = none ∨ alookup p sb.vol = some 0) ∧
  keysNodup sb.vol

/-- Structural plus volume invariants of the whole book, preserved by every
event (unlike `NoCross`, which `modify` breaks). -/
def StInv (b : OrderBook) : Prop :=
  SideInv true b.buy ∧ SideInv false b.sell ∧ VolInv b.buy ∧ VolInv b.sell

/-! ## Basic lemmas -/

theorem sideSize_eq (sb : SideBook) : sideSize sb = levelsSize sb.levels := rfl

section DictLemmas

variable {κ α : Type} [DecidableEq κ]

theorem alookup_aset_self (k : κ) (v : α) (l : List (κ × α)) :
    alookup k (aset k v l) = some v := by
  induction l with
  | nil => simp [aset, alookup]
  | cons e t ih =>
    obtain ⟨k', v'⟩ := e
    by_cases h : k' = k
    · simp [aset, h, alookup]
    · simp [aset, h, alookup, ih]

theorem alookup_aset_ne {k' k : κ} (v : α) (l : List (κ × α)) (h : k' ≠ k) :
    alookup k (aset k' v l) = alookup k l := by
  induction l with
  | nil => simp [aset, alookup, h]
  | cons e t ih =>
    obtain ⟨k₀, v₀⟩ := e
    by_cases h0 : k₀ = k'
    · simp [aset, h0, alookup, h]
    · by_cases h1 : k₀ = k <;> simp [aset, h0, alookup, h1, ih, Ne.symm h]

theorem alookup_apop_ne {k' k : κ} (l : List (κ × α)) (h : k' ≠ k) :
    alookup k (apop k' l) = alookup k l := by
  induction l with
  | nil => simp [apop]
  | cons e t ih =>
    obtain ⟨k₀, v₀⟩ := e
    by_cases h0 : k₀ = k'
    · subst h0; simp [apop, alookup, h]
    · by_cases h1 : k₀ = k <;> simp [apop, h0, alookup, h1, ih, Ne.symm h]

theorem apop_of_alookup_none {k : κ} {l : List (κ × α)} (h : alookup k l = none) :
    apop k l = l := by
  induction l with
  | nil => simp [apop]
  | cons e t ih =>
    obtain ⟨k₀, v₀⟩ := e
    by_cases h0 : k₀ = k
    · simp [alookup, h0] at h
    · simp [alookup, h0] at h
      simp [apop, h0, ih h]

theorem alookup_mem {k : κ} {v : α} {l : List (κ × α)} (h : alookup k l = some v) :
    (k, v) ∈ l := by
  induction l with
  | nil => simp [alookup] at h
  | cons e t ih =>
    obtain ⟨k₀, v₀⟩ := e
    by_cases h0 : k₀ = k
    · subst h0
      simp [alookup] at h
      simp [h]
    · simp [alookup, h0] at h
      exact List.mem_cons_of_mem _ (ih h)

theorem mem_aset {k : κ} {v : α} {e : κ × α} {l : List (κ × α)}
    (h : e ∈ aset k v l) : e = (k, v) ∨ e ∈ l := by
  induction l with
  | nil => simpa [aset] using h
  | cons e0 t ih =>
    obtain ⟨k₀, v₀⟩ := e0
    by_cases h0 : k₀ = k
    · simp only [aset, if_pos h0, List.mem_cons] at h
      rcases h with h | h
      · exact Or.inl h
      · exact Or.inr (List.mem_cons_of_mem _ h)
    · simp only [aset, if_neg h0, List.mem_cons] at h
      rcases h with h | h
      · exact Or.inr (List.mem_cons.mpr (Or.inl h))
      · rcases ih h with h | h
        · exact Or.inl h
        · exact Or.inr (List.mem_cons_of_mem _ h)

theorem mem_apop {k : κ} {e : κ × α} {l : List (κ × α)} (h : e ∈ apop k l) : e ∈ l := by
  induction l with
  | nil => simpa [apop] using h
  | cons e0 t ih =>
    obtain ⟨k₀, v₀⟩ := e0
    by_cases h0 : k₀ = k
    · simp only [apop, if_pos h0] at h
      exact List.mem_cons_of_mem _ h
    · simp only [apop, if_neg h0, List.mem_cons] at h
      rcases h with h | h
      · exact List.mem_cons.mpr (Or.inl h)
      · exact List.mem_cons_of_mem _ (ih h)

theorem keysNodup_aset (k : κ) (v : α) {l : List (κ × α)} (h : keysNodup l) :
    keysNodup (aset k v l) := by
  induction l with
  | nil => simp [aset, keysNodup]
  | cons e0 t ih =>
    obtain ⟨k₀, v₀⟩ := e0
    simp only [keysNodup, List.map_cons, List.nodup_cons] at h
    by_cases h0 : k₀ = k
    · subst h0
      simp only [aset, eq_self_iff_true, if_true, keysNodup, List.map_cons, List.nodup_cons]
      exact h
    · simp only [aset, if_neg h0, keysNodup, List.map_cons, List.nodup_cons]
      refine ⟨?_, ih h.2⟩
      intro hmem
      rcases List.mem_map.mp hmem with ⟨e1, he1, hk1⟩
      rcases mem_aset he1 with rfl | he1
      · exact h0 (by simpa using hk1.symm)
      · exact h.1 (List.mem_map.mpr ⟨e1, he1, hk1⟩)

theorem keysNodup_apop (k : κ) {l : List (κ × α)} (h : keysNodup l) :
    keysNodup (apop k l) := by
  induction l with
  | nil => simpa [apop] using h
  | cons e0 t ih =>
    obtain ⟨k₀, v₀⟩ := e0
    simp only [keysNodup, List.map_cons, List.nodup_cons] at h
    by_cases h0 : k₀ = k
    · simp only [apop, if_pos h0]
      exact h.2
    · simp only [apop, if_neg h0, keysNodup, List.map_cons, List.nodup_cons]
      refine ⟨?_, ih h.2⟩
      intro hmem
      rcases List.mem_map.mp hmem with ⟨e1, he1, hk1⟩
      exact h.1 (List.mem_map.mpr ⟨e1, mem_apop he1, hk1⟩)

/-- With distinct keys, updating a key removes the old entry: every entry of
the result is the new pair or an old entry at a different key. -/
theorem mem_aset_nodup {k : κ} {v : α} {e : κ × α} :
    ∀ {l : List (κ × α)}, keysNodup l → e ∈ aset k v l → e = (k, v) ∨ (e ∈ l ∧ e.1 ≠ k)
  | [], _, h => by
    simp only [aset, List.mem_cons, List.not_mem_nil, or_false] at h
    exact Or.inl h
  | (k₀, v₀) :: t, hnd, h => by
    have hnd' : k₀ ∉ List.map Prod.fst t ∧ keysNodup t := by
      simpa [keysNodup] using hnd
    by_cases h0 : k₀ = k
    · subst h0
      simp only [aset, eq_self_iff_true, if_true, List.mem_cons] at h
      rcases h with h | h
      · exact Or.inl h
      · refine Or.inr ⟨List.mem_cons_of_mem _ h, ?_⟩
        intro hk
        exact hnd'.1 (List.mem_map.mpr ⟨e, h, hk⟩)
    · simp only [aset, if_neg h0, List.mem_cons] at h
      rcases h with h | h
      · subst h
        exact Or.inr ⟨List.mem_cons.mpr (Or.inl rfl), h0⟩
      · rcases mem_aset_nodup hnd'.2 h with h | ⟨h1, h2⟩
        · exact Or.inl h
        · exact Or.inr ⟨List.mem_cons_of_mem _ h1, h2⟩

/-- Every stored entry is found by a lookup (at some value). -/
theorem alookup_isSome_of_mem {e : κ × α} :
    ∀ {l : List (κ × α)}, e ∈ l → ∃ v, alookup e.1 l = some v
  | [], h => by simp at h
  | (k₀, v₀) :: t, h => by
    by_cases h0 : k₀ = e.1
    · exact ⟨v₀, by simp [alookup, h0]⟩
    · rcases List.mem_cons.mp h with rfl | hmem
      · exact absurd rfl h0
      · obtain ⟨v, hv⟩ := alookup_isSome_of_mem hmem
        exact ⟨v, by simp [alookup, h0, hv]⟩

/-- With distinct keys a stored entry is exactly what lookup finds. -/
theorem alookup_eq_of_mem_nodup {e : κ × α} :
    ∀ {l : List (κ × α)}, keysNodup l → e ∈ l → alookup e.1 l = some e.2
  | [], _, h => by simp at h
  | (k₀, v₀) :: t, hnd, h => by
    have hnd' : k₀ ∉ List.map Prod.fst t ∧ keysNodup t := by
      simpa [keysNodup] using hnd
    rcases List.mem_cons.mp h with rfl | hmem
    · simp [alookup]
    · have hne : k₀ ≠ e.1 := by
        intro hk
        exact hnd'.1 (List.mem_map.mpr ⟨e, hmem, hk.symm⟩)
      simp only [alookup, if_neg hne]
      exact alookup_eq_of_mem_nodup hnd'.2 hmem

end DictLemmas

theorem levelsSize_aset {p : ℚ} {dq0 : List Order} {l : List (ℚ × List Order)}
    (h : alookup p l = some dq0) (dq : List Order) :
    levelsSize (aset p dq l) + dq0.length = levelsSize l + dq.length := by
  induction l with
  | nil => simp [alookup] at h
  | cons e t ih =>
    obtain ⟨k₀, v₀⟩ := e
    by_cases h0 : k₀ = p
    · subst h0
      simp [alookup] at h
      subst h
      simp [aset, levelsSize]
      omega
    · simp [alookup, h0] at h
      have := ih h
      simp [aset, h0, levelsSize] at this ⊢
      omega

theorem levelsSize_apop {p : ℚ} {dq0 : List Order} {l : List (ℚ × List Order)}
    (h : alookup p l = some dq0) :
    levelsSize (apop p l) + dq0.length = levelsSize l := by
  induction l with
  | nil => simp [alookup] at h
  | cons e t ih =>
    obtain ⟨k₀, v₀⟩ := e
    by_cases h0 : k₀ = p
    · subst h0
      simp [alookup] at h
      subst h
      simp [apop, levelsSize]
      omega
    · simp [alookup, h0] at h
      have := ih h
      simp [apop, h0, levelsSize] at this ⊢
      omega

theorem levelsSize_dead_apop {p : ℚ} {l : List (ℚ × List Order)}
    (h : deadLevel l p) : levelsSize (apop p l) = levelsSize l := by
  rcases h with h | h
  · rw [apop_of_alookup_none h]
  · have := levelsSize_apop h
    simpa using this

theorem ordersOfLevels_cons (k : ℚ) (v : List Order) (t : List (ℚ × List Order)) :
    ordersOfLevels ((k, v) :: t) = v ++ ordersOfLevels t := by
  simp [ordersOfLevels]

theorem mem_ordersOfLevels_apop {o : Order} {p : ℚ} {l : List (ℚ × List Order)}
    (h : o ∈ ordersOfLevels (apop p l)) : o ∈ ordersOfLevels l := by
  induction l with
  | nil => simpa [apop] using h
  | cons e t ih =>
    obtain ⟨k₀, v₀⟩ := e
    rw [ordersOfLevels_cons, List.mem_append]
    by_cases h0 : k₀ = p
    · simp only [apop, if_pos h0] at h
      exact Or.inr h
    · simp only [apop, if_neg h0, ordersOfLevels_cons, List.mem_append] at h
      rcases h with h | h
      · exact Or.inl h
      · exact Or.inr (ih h)

theorem mem_ordersOfLevels_of_alookup {o : Order} {p : ℚ} {dq : List Order}
    {l : List (ℚ × List Order)} (h : alookup p l = some dq) (ho : o ∈ dq) :
    o ∈ ordersOfLevels l := by
  have hm := alookup_mem h
  simp only [ordersOfLevels, List.mem_flatten]
  exact ⟨dq, List.mem_map.mpr ⟨(p, dq), hm, rfl⟩, ho⟩

theorem ensurePrice_levels (neg : Bool) (sb : SideBook) (p : ℚ) :
    (ensurePrice neg sb p).levels = sb.levels := by
  unfold ensurePrice
  split <;> rfl

theorem ensurePrice_vol (neg : Bool) (sb : SideBook) (p : ℚ) :
    (ensurePrice neg sb p).vol = sb.vol := by
  unfold ensurePrice
  split <;> rfl

/-- `_add_to_book` always appends the order at the tail of its price's
queue, whatever that queue held before. -/
theorem addToSide_appends (neg : Bool) (sb : SideBook) (o : Order) :
    alookup o.price (addToSide neg sb o).levels =
      some ((alookup o.price sb.levels).getD [] ++ [o]) := by
  unfold addToSide
  rcases hl : alookup o.price sb.levels with _ | dq
  · simp only [hl, Option.isNone_none, if_pos]
    rw [alookup_aset_self]
    rw [alookup_aset_self]
    rfl
  · simp only [hl, Option.isNone_some, Bool.false_eq_true, if_neg, not_false_iff]
    rw [alookup_aset_self]

/-! ## Lazy heap cleanup lemmas -/

theorem cleanLoop_cons_live {neg : Bool} {k : ℚ} {rest : List ℚ}
    {l : List (ℚ × List Order)} {s : List ℚ} {v : List (ℚ × Int)}
    {o : Order} {os : List Order} (hl : alookup (priceOf neg k) l = some (o :: os)) :
    cleanLoop neg (k :: rest) l s v = (k :: rest, l, s, v) := by
  simp [cleanLoop, hl]

theorem cleanLoop_cons_dead {neg : Bool} {k : ℚ} {rest : List ℚ}
    {l : List (ℚ × List Order)} {s : List ℚ} {v : List (ℚ × Int)}
    (hl : deadLevel l (priceOf neg k)) :
    cleanLoop neg (k :: rest) l s v =
      cleanLoop neg rest (apop (priceOf neg k) l) (s.erase (priceOf neg k))
        (apop (priceOf neg k) v) := by
  rcases hl with h | h <;> simp [cleanLoop, h]

theorem deadLevel_apop_lift {p0 x : ℚ} {l : List (ℚ × List Order)}
    (hx : deadLevel (apop p0 l) x) (hp0 : deadLevel l p0) : deadLevel l x := by
  by_cases hxp : p0 = x
  · exact hxp ▸ hp0
  · rcases hx with h | h
    · exact Or.inl (by rw [← alookup_apop_ne l hxp]; exact h)
    · exact Or.inr (by rw [← alookup_apop_ne l hxp]; exact h)

/-- Frame facts about the cleanup loop: live levels keep their queue, volume
entry and price-set membership; only prices with an absent or empty level
are discarded from the heap; the surviving heap is a suffix of the original;
the number of resting orders, the orders themselves, and the price set only
shrink. -/
theorem cleanLoop_spec {neg : Bool} :
    ∀ (h : List ℚ) (l : List (ℚ × List Order)) (s : List ℚ) (v : List (ℚ × Int))
      {h' : List ℚ} {l' : List (ℚ × List Order)} {s' : List ℚ} {v' : List (ℚ × Int)},
      cleanLoop neg h l s v = (h', l', s', v') →
      (∀ p dq, alookup p l = some dq → dq ≠ [] →
          alookup p l' = some dq ∧ alookup p v' = alookup p v ∧ (p ∈ s → p ∈ s')) ∧
      (∀ k', k' ∈ h → k' ∉ h' → deadLevel l (priceOf neg k')) ∧
      h' <:+ h ∧
      levelsSize l' = levelsSize l ∧
      (∀ o, o ∈ ordersOfLevels l' → o ∈ ordersOfLevels l) ∧
      (∀ p, p ∈ s' → p ∈ s)
  | [], l, s, v, h', l', s', v' => by
    intro hcl
    obtain ⟨h1, h2, h3, h4⟩ : [] = h' ∧ l = l' ∧ s = s' ∧ v = v' := by
      simpa [cleanLoop, Prod.ext_iff, and_assoc] using hcl
    subst h1; subst h2; subst h3; subst h4
    refine ⟨fun p dq hp hne => ⟨hp, rfl, id⟩, by simp, List.suffix_refl _, rfl,
      fun o ho => ho, fun p hp => hp⟩
  | k0 :: rest, l, s, v, h', l', s', v' => by
    intro hcl
    by_cases hlive : ∃ o os, alookup (priceOf neg k0) l = some (o :: os)
    · obtain ⟨o, os, hl⟩ := hlive
      rw [cleanLoop_cons_live hl] at hcl
      obtain ⟨f1, f2, f3, f4⟩ :
          (k0 :: rest : List ℚ) = h' ∧ l = l' ∧ s = s' ∧ v = v' := by
        simpa [Prod.ext_iff, and_assoc] using hcl
      subst f1; subst f2; subst f3; subst f4
      exact ⟨fun p dq hp hne => ⟨hp, rfl, id⟩, fun k' hk hk' => absurd hk hk',
        List.suffix_refl _, rfl, fun o ho => ho, fun p hp => hp⟩
    · have hp0 : deadLevel l (priceOf neg k0) := by
        rcases hx : alookup (priceOf neg k0) l with _ | (_ | ⟨o, os⟩)
        · exact Or.inl hx
        · exact Or.inr hx
        · exact absurd ⟨o, os, hx⟩ hlive
      rw [cleanLoop_cons_dead hp0] at hcl
      obtain ⟨F1, F2, F3, F4, F5, F6⟩ := cleanLoop_spec rest _ _ _ hcl
      refine ⟨?_, ?_, ?_, ?_, ?_, ?_⟩
      · intro p dq hp hne
        have hpne : priceOf neg k0 ≠ p := by
          intro he
          rw [he] at hp0
          rcases hp0 with h | h
          · rw [hp] at h; exact Option.noConfusion h
          · rw [hp] at h
            exact hne (Option.some.inj h)
        have hlook2 : alookup p (apop (priceOf neg k0) l) = some dq := by
          rw [alookup_apop_ne l hpne]; exact hp
        obtain ⟨g1, g2, g3⟩ := F1 p dq hlook2 hne
        refine ⟨g1, ?_, ?_⟩
        · rw [g2, alookup_apop_ne v hpne]
        · intro hps
          exact g3 ((List.mem_erase_of_ne (Ne.symm hpne)).mpr hps)
      · intro k' hk hk'
        rcases List.mem_cons.mp hk with rfl | hk
        · exact hp0
        · exact deadLevel_apop_lift (F2 k' hk hk') hp0
      · exact F3.trans (List.suffix_cons k0 rest)
      · rw [F4, levelsSize_dead_apop hp0]
      · intro o ho
        exact mem_ordersOfLevels_apop (F5 o ho)
      · intro p hp
        exact List.mem_of_mem_erase (F6 p hp)
theorem cleanLoop_head_live {neg : Bool} :
    ∀ (h : List ℚ) (l : List (ℚ × List Order)) (s : List ℚ) (v : List (ℚ × Int))
      {k : ℚ} {h2 : List ℚ} {l' : List (ℚ × List Order)} {s' : List ℚ} {v' : List (ℚ × Int)},
      cleanLoop neg h l s v = (k :: h2, l', s', v') →
      ∃ o os, alookup (priceOf neg k) l' = some (o :: os)
  | [], l, s, v, k, h2, l', s', v' => by
    intro hcl
    simp [cleanLoop] at hcl
  | k0 :: rest, l, s, v, k, h2, l', s', v' => by
    intro hcl
    rcases hl : alookup (priceOf neg k0) l with _ | (_ | ⟨o, os⟩)
    · rw [cleanLoop_cons_dead (Or.inl hl)] at hcl
      exact cleanLoop_head_live rest _ _ _ hcl
    · rw [cleanLoop_cons_dead (Or.inr hl)] at hcl
      exact cleanLoop_head_live rest _ _ _ hcl
    · rw [cleanLoop_cons_live hl] at hcl
      obtain ⟨⟨hk, -⟩, hlvl, -, -⟩ : (k0 = k ∧ rest = h2) ∧ l = l' ∧ s = s' ∧ v = v' := by
        simpa [Prod.ext_iff] using hcl
      exact ⟨o, os, by rw [← hlvl, ← hk]; exact hl⟩

theorem norm_price_eq_div (p : ℚ) :
    norm_price p = ((Int.tdiv (p.num * 100) p.den : ℤ) : ℚ) / 100 := by
  rw [norm_price, Rat.mkRat_eq_div]
  norm_num

theorem priceOf_keyOf (neg : Bool) (p : ℚ) : priceOf neg (keyOf neg p) = p := by
  cases neg <;> simp [priceOf, keyOf]

theorem keyOf_priceOf (neg : Bool) (k : ℚ) : keyOf neg (priceOf neg k) = k := by
  cases neg <;> simp [priceOf, keyOf]

/-- On a side whose stored levels are all non-empty, the cleanup loop leaves
the levels untouched, keeps every represented key in the heap, and keeps the
price set duplicate-free with all its keys in the heap. -/
theorem cleanLoop_noEmpty_spec {neg : Bool} :
    ∀ (h : List ℚ) (l : List (ℚ × List Order)) (s : List ℚ) (v : List (ℚ × Int))
      {h' : List ℚ} {l' : List (ℚ × List Order)} {s' : List ℚ} {v' : List (ℚ × Int)},
      cleanLoop neg h l s v = (h', l', s', v') →
      (∀ e ∈ l, e.2 ≠ []) → s.Nodup → (∀ p ∈ s, keyOf neg p ∈ h) →
      l' = l ∧
      (∀ e ∈ l, keyOf neg e.1 ∈ h → keyOf neg e.1 ∈ h') ∧
      s'.Nodup ∧ (∀ p ∈ s', keyOf neg p ∈ h')
  | [], l, s, v, h', l', s', v' => by
    intro hcl hne hnd hps
    obtain ⟨f1, f2, f3, f4⟩ : ([] : List ℚ) = h' ∧ l = l' ∧ s = s' ∧ v = v' := by
      simpa [cleanLoop, Prod.ext_iff, and_assoc] using hcl
    subst f1; subst f2; subst f3; subst f4
    exact ⟨rfl, fun e he hk => hk, hnd, hps⟩
  | k0 :: rest, l, s, v, h', l', s', v' => by
    intro hcl hne hnd hps
    by_cases hlive : ∃ o os, alookup (priceOf neg k0) l = some (o :: os)
    · obtain ⟨o, os, hl⟩ := hlive
      rw [cleanLoop_cons_live hl] at hcl
      obtain ⟨f1, f2, f3, f4⟩ : (k0 :: rest : List ℚ) = h' ∧ l = l' ∧ s = s' ∧ v = v' := by
        simpa [Prod.ext_iff, and_assoc] using hcl
      subst f1; subst f2; subst f3; subst f4
      exact ⟨rfl, fun e he hk => hk, hnd, hps⟩
    · have hnone : alookup (priceOf neg k0) l = none := by
        rcases hx : alookup (priceOf neg k0) l with _ | (_ | ⟨o, os⟩)
        · rfl
        · exact absurd rfl (hne _ (alookup_mem hx))
        · exact absurd ⟨o, os, hx⟩ hlive
      rw [cleanLoop_cons_dead (Or.inl hnone), apop_of_alookup_none hnone] at hcl
      have hps2 : ∀ p ∈ s.erase (priceOf neg k0), keyOf neg p ∈ rest := by
        intro p hp
        obtain ⟨hpne, hpmem⟩ := (List.Nodup.mem_erase_iff hnd).mp hp
        have hk := hps p hpmem
        rcases List.mem_cons.mp hk with he | he
        · exfalso
          apply hpne
          rw [← priceOf_keyOf neg p, he]
        · exact he
      obtain ⟨g1, g2, g3, g4⟩ :=
        cleanLoop_noEmpty_spec rest l (s.erase (priceOf neg k0)) (apop (priceOf neg k0) v)
          hcl hne (hnd.erase _) hps2
      refine ⟨g1, ?_, g3, g4⟩
      intro e he hk
      rcases List.mem_cons.mp hk with hk | hk
      · exfalso
        obtain ⟨w, hw⟩ := alookup_isSome_of_mem he
        rw [show e.1 = priceOf neg k0 from by rw [← priceOf_keyOf neg e.1, hk], hnone] at hw
        exact Option.noConfusion hw
      · exact g2 e he hk

theorem cleanHeap_eq (neg : Bool) (sb : SideBook) :
    cleanLoop neg sb.heap sb.levels sb.pset sb.vol =
      ((cleanHeap neg sb).heap, (cleanHeap neg sb).levels, (cleanHeap neg sb).pset,
        (cleanHeap neg sb).vol) := rfl

theorem cleanHeap_spec (neg : Bool) (sb : SideBook) :
    (∀ p dq, alookup p sb.levels = some dq → dq ≠ [] →
        alookup p (cleanHeap neg sb).levels = some dq ∧
        alookup p (cleanHeap neg sb).vol = alookup p sb.vol ∧
        (p ∈ sb.pset → p ∈ (cleanHeap neg sb).pset)) ∧
    (∀ k', k' ∈ sb.heap → k' ∉ (cleanHeap neg sb).heap →
        deadLevel sb.levels (priceOf neg k')) ∧
    (cleanHeap neg sb).heap <:+ sb.heap ∧
    levelsSize (cleanHeap neg sb).levels = levelsSize sb.levels ∧
    (∀ o, o ∈ ordersOfLevels (cleanHeap neg sb).levels → o ∈ ordersOfLevels sb.levels) ∧
    (∀ p, p ∈ (cleanHeap neg sb).pset → p ∈ sb.pset) :=
  cleanLoop_spec sb.heap sb.levels sb.pset sb.vol (cleanHeap_eq neg sb)

theorem cleanHeap_head_live {neg : Bool} {sb : SideBook} {k : ℚ} {h2 : List ℚ}
    (h : (cleanHeap neg sb).heap = k :: h2) :
    ∃ o os, alookup (priceOf neg k) (cleanHeap neg sb).levels = some (o :: os) := by
  have hr : cleanLoop neg sb.heap sb.levels sb.pset sb.vol =
      (k :: h2, (cleanHeap neg sb).levels, (cleanHeap neg sb).pset, (cleanHeap neg sb).vol) := by
    rw [cleanHeap_eq, h]
  exact cleanLoop_head_live _ _ _ _ hr

/-- `cleanHeap` preserves the side invariant and, on such a side, does not
change the levels at all. -/
theorem cleanHeap_sideInv {neg : Bool} {sb : SideBook} (h : SideInv neg sb) :
    SideInv neg (cleanHeap neg sb) ∧ (cleanHeap neg sb).levels = sb.levels := by
  obtain ⟨n1, n2, n3, n4, n5, n6⟩ := h
  obtain ⟨hl, hk, hs, hps⟩ :=
    cleanLoop_noEmpty_spec sb.heap sb.levels sb.pset sb.vol (cleanHeap_eq neg sb) n1 n5 n6
  have hsuffix := (cleanHeap_spec neg sb).2.2.1
  refine ⟨⟨?_, ?_, ?_, ?_, hs, hps⟩, hl⟩
  · rw [hl]; exact n1
  · rw [hl]; exact n2
  · intro e he
    rw [hl] at he
    exact hk e he (n3 e he)
  · exact List.Pairwise.sublist hsuffix.sublist n4

theorem aset_aset {κ α : Type} [DecidableEq κ] (k : κ) (v v' : α) (l : List (κ × α)) :
    aset k v (aset k v' l) = aset k v l := by
  induction l with
  | nil => simp [aset]
  | cons e t ih =>
    obtain ⟨k₀, v₀⟩ := e
    by_cases h0 : k₀ = k
    · simp [aset, h0]
    · simp [aset, h0, ih]

theorem ensurePrice_inv {neg : Bool} {sb : SideBook} (p : ℚ)
    (h4 : sb.heap.Sorted (· ≤ ·)) (h5 : sb.pset.Nodup)
    (h6 : ∀ q ∈ sb.pset, keyOf neg q ∈ sb.heap) :
    (ensurePrice neg sb p).heap.Sorted (· ≤ ·) ∧
    (ensurePrice neg sb p).pset.Nodup ∧
    (∀ q ∈ (ensurePrice neg sb p).pset, keyOf neg q ∈ (ensurePrice neg sb p).heap) ∧
    keyOf neg p ∈ (ensurePrice neg sb p).heap ∧
    (∀ x ∈ sb.heap, x ∈ (ensurePrice neg sb p).heap) ∧
    (∀ q ∈ (ensurePrice neg sb p).pset, q = p ∨ q ∈ sb.pset) := by
  unfold ensurePrice
  by_cases hp : p ∈ sb.pset
  · rw [if_pos hp]
    exact ⟨h4, h5, h6, h6 p hp, fun x hx => hx, fun q hq => Or.inr hq⟩
  · rw [if_neg hp]
    refine ⟨List.Sorted.orderedInsert _ _ h4, List.nodup_cons.mpr ⟨hp, h5⟩, ?_, ?_, ?_, ?_⟩
    · intro q hq
      rcases List.mem_cons.mp hq with rfl | hq
      · exact (List.mem_orderedInsert _).mpr (Or.inl rfl)
      · exact (List.mem_orderedInsert _).mpr (Or.inr (h6 q hq))
    · exact (List.mem_orderedInsert _).mpr (Or.inl rfl)
    · intro x hx
      exact (List.mem_orderedInsert _).mpr (Or.inr hx)
    · intro q hq
      rcases List.mem_cons.mp hq with rfl | hq
      · exact Or.inl rfl
      · exact Or.inr hq

/-- `_add_to_book`'s side action preserves the side invariant; every
resulting level is at the inserted price or an old price. -/
theorem addToSide_sideInv {neg : Bool} {sb : SideBook} (o : Order) (hinv : SideInv neg sb) :
    SideInv neg (addToSide neg sb o) ∧
    ∀ e ∈ (addToSide neg sb o).levels, e.1 = o.price ∨ ∃ dq, (e.1, dq) ∈ sb.levels := by
  obtain ⟨n1, n2, n3, n4, n5, n6⟩ := hinv
  obtain ⟨e4, e5, e6, ekey, egr, eps⟩ := @ensurePrice_inv neg sb o.price n4 n5 n6
  rcases hl : alookup o.price sb.levels with _ | dq0
  · have hlv : (addToSide neg sb o).levels = aset o.price [o] sb.levels := by
      unfold addToSide
      simp only [hl, Option.isNone_none, if_true]
      rw [ensurePrice_levels, alookup_aset_self, aset_aset]
      rfl
    have hhp : (addToSide neg sb o).heap = (ensurePrice neg sb o.price).heap := by
      unfold addToSide
      simp only [hl, Option.isNone_none, if_true]
    have hpst : (addToSide neg sb o).pset = (ensurePrice neg sb o.price).pset := by
      unfold addToSide
      simp only [hl, Option.isNone_none, if_true]
    refine ⟨⟨?_, ?_, ?_, ?_, ?_, ?_⟩, ?_⟩
    · intro e he
      rw [hlv] at he
      rcases mem_aset_nodup n2 he with rfl | ⟨he, -⟩
      · simp
      · exact n1 e he
    · rw [hlv]
      exact keysNodup_aset _ _ n2
    · intro e he
      rw [hlv] at he
      rw [hhp]
      rcases mem_aset_nodup n2 he with rfl | ⟨he, -⟩
      · exact ekey
      · exact egr _ (n3 e he)
    · rw [hhp]; exact e4
    · rw [hpst]; exact e5
    · intro q hq
      rw [hpst] at hq
      rw [hhp]
      exact e6 q hq
    · intro e he
      rw [hlv] at he
      rcases mem_aset_nodup n2 he with rfl | ⟨he, -⟩
      · exact Or.inl rfl
      · exact Or.inr ⟨e.2, he⟩
  · have hlv : (addToSide neg sb o).levels = aset o.price (dq0 ++ [o]) sb.levels := by
      unfold addToSide
      simp only [hl, Option.isNone_some, Bool.false_eq_true, if_neg, not_false_iff]
      rfl
    have hhp : (addToSide neg sb o).heap = sb.heap := by
      unfold addToSide
      simp only [hl, Option.isNone_some, Bool.false_eq_true, if_neg, not_false_iff]
    have hpst : (addToSide neg sb o).pset = sb.pset := by
      unfold addToSide
      simp only [hl, Option.isNone_some, Bool.false_eq_true, if_neg, not_false_iff]
    have hmem0 : (o.price, dq0) ∈ sb.levels := alookup_mem hl
    refine ⟨⟨?_, ?_, ?_, ?_, ?_, ?_⟩, ?_⟩
    · intro e he
      rw [hlv] at he
      rcases mem_aset_nodup n2 he with rfl | ⟨he, -⟩
      · simp
      · exact n1 e he
    · rw [hlv]
      exact keysNodup_aset _ _ n2
    · intro e he
      rw [hlv] at he
      rw [hhp]
      rcases mem_aset_nodup n2 he with rfl | ⟨he, -⟩
      · exact n3 (o.price, dq0) hmem0
      · exact n3 e he
    · rw [hhp]; exact n4
    · rw [hpst]; exact n5
    · intro q hq
      rw [hpst] at hq
      rw [hhp]
      exact n6 q hq
    · intro e he
      rw [hlv] at he
      rcases mem_aset_nodup n2 he with rfl | ⟨he, -⟩
      · exact Or.inl rfl
      · exact Or.inr ⟨e.2, he⟩

/-- The removal block of `cancel`/`modify` preserves the side invariant,
never touches the heap or price set, and only shrinks the level keys. -/
theorem cancelSide_sideInv {neg : Bool} {sb : SideBook} (o : Order) (hinv : SideInv neg sb) :
    SideInv neg (cancelSide sb o) ∧
    (∀ e ∈ (cancelSide sb o).levels, ∃ dq, (e.1, dq) ∈ sb.levels) ∧
    (cancelSide sb o).heap = sb.heap ∧ (cancelSide sb o).pset = sb.pset := by
  obtain ⟨n1, n2, n3, n4, n5, n6⟩ := hinv
  have base : SideInv neg sb := ⟨n1, n2, n3, n4, n5, n6⟩
  rcases hl : alookup o.price sb.levels with _ | dq
  · have hc : cancelSide sb o = sb := by
      unfold cancelSide
      simp only [hl]
    rw [hc]
    exact ⟨base, fun e he => ⟨e.2, he⟩, rfl, rfl⟩
  · by_cases hdq : dq = []
    · have hc : cancelSide sb o = sb := by
        unfold cancelSide
        simp only [hl, hdq, if_true, eq_self_iff_true]
      rw [hc]
      exact ⟨base, fun e he => ⟨e.2, he⟩, rfl, rfl⟩
    · have hmem0 : (o.price, dq) ∈ sb.levels := alookup_mem hl
      by_cases hmem : o ∈ dq
      · by_cases herase : dq.erase o = []
        · have hc : cancelSide sb o = { sb with
              levels := apop o.price sb.levels
              vol := aset o.price
                (max 0 ((alookup o.price sb.vol).getD 0 - (o.remaining : Int))) sb.vol } := by
            unfold cancelSide
            simp only [hl, if_neg hdq, if_pos hmem, herase, if_true, eq_self_iff_true]
          rw [hc]
          refine ⟨⟨?_, ?_, ?_, n4, n5, n6⟩, ?_, rfl, rfl⟩
          · exact fun e he => n1 e (mem_apop he)
          · exact keysNodup_apop _ n2
          · exact fun e he => n3 e (mem_apop he)
          · exact fun e he => ⟨e.2, mem_apop he⟩
        · have hc : cancelSide sb o = { sb with
              levels := aset o.price (dq.erase o) sb.levels
              vol := aset o.price
                (max 0 ((alookup o.price sb.vol).getD 0 - (o.remaining : Int))) sb.vol } := by
            unfold cancelSide
            simp only [hl, if_neg hdq, if_pos hmem, if_neg herase]
          rw [hc]
          refine ⟨⟨?_, ?_, ?_, n4, n5, n6⟩, ?_, rfl, rfl⟩
          · intro e he
            rcases mem_aset_nodup n2 he with rfl | ⟨he, -⟩
            · exact herase
            · exact n1 e he
          · exact keysNodup_aset _ _ n2
          · intro e he
            rcases mem_aset_nodup n2 he with rfl | ⟨he, -⟩
            · exact n3 (o.price, dq) hmem0
            · exact n3 e he
          · intro e he
            rcases mem_aset_nodup n2 he with rfl | ⟨he, -⟩
            · exact ⟨dq, hmem0⟩
            · exact ⟨e.2, he⟩
      · have hc : cancelSide sb o = { sb with
            levels := aset o.price dq sb.levels
            vol := sb.vol } := by
          unfold cancelSide
          simp only [hl, if_neg hdq, if_neg hmem, if_neg hdq]
        rw [hc]
        refine ⟨⟨?_, ?_, ?_, n4, n5, n6⟩, ?_, rfl, rfl⟩
        · intro e he
          rcases mem_aset_nodup n2 he with rfl | ⟨he, -⟩
          · exact hdq
          · exact n1 e he
        · exact keysNodup_aset _ _ n2
        · intro e he
          rcases mem_aset_nodup n2 he with rfl | ⟨he, -⟩
          · exact n3 (o.price, dq) hmem0
          · exact n3 e he
        · intro e he
          rcases mem_aset_nodup n2 he with rfl | ⟨he, -⟩
          · exact ⟨dq, hmem0⟩
          · exact ⟨e.2, he⟩

/-! ## Matching loop lemmas -/

section MatchLemmas

variable {isBuy : Bool} {incId : Nat} {incPrice : ℚ}

/-- The `KeyError` / `IndexError` branches of the loop body are unreachable:
after a cleanup the heap top always names a live level. -/
theorem matchStep_ne_err (rem : Nat) (opp : SideBook) (idx : List (Nat × Order)) :
    matchStep isBuy incId incPrice rem opp idx ≠ .err := by
  intro h
  simp only [matchStep] at h
  split at h
  · exact StepRes.noConfusion h
  · rename_i k h2 hk
    split at h
    · exact StepRes.noConfusion h
    · obtain ⟨o, os, hlive⟩ := cleanHeap_head_live hk
      split at h
      · rename_i hlook
        rw [hlive] at hlook
        exact Option.noConfusion hlook
      · rename_i hlook
        rw [hlive] at hlook
        simp at hlook
      · exact StepRes.noConfusion h

/-- Inversion for the `stop` outcome: the loop broke on the cleaned book,
either because the opposite heap is exhausted or because its top does not
cross the incoming price. -/
theorem matchStep_stop_inv {rem : Nat} {opp sb1 : SideBook} {idx : List (Nat × Order)}
    (h : matchStep isBuy incId incPrice rem opp idx = .stop sb1) :
    sb1 = cleanHeap (!isBuy) opp ∧
      (sb1.heap = [] ∨ ∃ k h2, sb1.heap = k :: h2 ∧
        noCross isBuy incPrice (priceOf (!isBuy) k) = true) := by
  simp only [matchStep] at h
  split at h
  · rename_i hk
    have hs : cleanHeap (!isBuy) opp = sb1 := (StepRes.stop.injEq ..).mp h
    exact ⟨hs.symm, Or.inl (by rw [← hs]; exact hk)⟩
  · rename_i k h2 hk
    split at h
    · rename_i hc
      have hs : cleanHeap (!isBuy) opp = sb1 := (StepRes.stop.injEq ..).mp h
      exact ⟨hs.symm, Or.inr ⟨k, h2, by rw [← hs]; exact hk, by simpa using hc⟩⟩
    · split at h
      · exact StepRes.noConfusion h
      · exact StepRes.noConfusion h
      · exact StepRes.noConfusion h

/-- Inversion for the `cont` outcome: the full anatomy of one trading
iteration. -/
theorem matchStep_cont_inv {rem : Nat} {opp opp3 : SideBook}
    {idx idx2 : List (Nat × Order)} {tr : Trade} {rem2 : Nat}
    (h : matchStep isBuy incId incPrice rem opp idx = .cont tr rem2 opp3 idx2) :
    ∃ k resting dqrest, ∃ h2 : List ℚ,
      (cleanHeap (!isBuy) opp).heap = k :: h2 ∧
      noCross isBuy incPrice (priceOf (!isBuy) k) = false ∧
      alookup (priceOf (!isBuy) k) (cleanHeap (!isBuy) opp).levels = some (resting :: dqrest) ∧
      tr = mkTrade isBuy resting.price (min rem resting.remaining) incId resting.id ∧
      rem2 = rem - min rem resting.remaining ∧
      opp3 = (let opp1 := cleanHeap (!isBuy) opp
              let best := priceOf (!isBuy) k
              let traded := min rem resting.remaining
              let restRem := resting.remaining - traded
              let opp2 := { opp1 with
                vol := aset best ((alookup best opp1.vol).getD 0 - (traded : Int)) opp1.vol }
              let dq2 := if restRem = 0 then dqrest
                         else { resting with remaining := restRem } :: dqrest
              if dq2 = [] then { opp2 with levels := apop best opp2.levels }
              else { opp2 with levels := aset best dq2 opp2.levels }) ∧
      idx2 = (if resting.remaining - min rem resting.remaining = 0 then apop resting.id idx
              else aset resting.id
                { resting with remaining := resting.remaining - min rem resting.remaining } idx) := by
  simp only [matchStep] at h
  split at h
  · exact StepRes.noConfusion h
  · rename_i k h2 hk
    split at h
    · exact StepRes.noConfusion h
    · rename_i hc
      split at h
      · exact StepRes.noConfusion h
      · exact StepRes.noConfusion h
      · rename_i resting dqrest hlook
        obtain ⟨htr, hrem2, hopp3, hidx2⟩ := (StepRes.cont.injEq ..).mp h
        exact ⟨k, resting, dqrest, h2, hk, by simpa using hc, hlook, htr.symm, hrem2.symm,
          hopp3.symm, hidx2.symm⟩

theorem mkTrade_qty (isBuy : Bool) (p : ℚ) (q : Nat) (a b : Nat) :
    (mkTrade isBuy p q a b).qty = q := by
  cases isBuy <;> rfl

theorem mkTrade_price (isBuy : Bool) (p : ℚ) (q : Nat) (a b : Nat) :
    (mkTrade isBuy p q a b).price = p := by
  cases isBuy <;> rfl

/-- Orders of a level-replaced mapping come from the new queue or the old
mapping. -/
theorem mem_ordersOfLevels_aset {o : Order} {p : ℚ} {dq : List Order}
    {l : List (ℚ × List Order)} (h : o ∈ ordersOfLevels (aset p dq l)) :
    o ∈ dq ∨ o ∈ ordersOfLevels l := by
  induction l with
  | nil =>
    simp only [aset, ordersOfLevels, List.map_cons, List.map_nil, List.flatten] at h
    simp at h
    exact Or.inl h
  | cons e t ih =>
    obtain ⟨k₀, v₀⟩ := e
    rw [ordersOfLevels_cons, List.mem_append]
    by_cases h0 : k₀ = p
    · simp only [aset, if_pos h0, ordersOfLevels_cons, List.mem_append] at h
      rcases h with h | h
      · exact Or.inl h
      · exact Or.inr (Or.inr h)
    · simp only [aset, if_neg h0, ordersOfLevels_cons, List.mem_append] at h
      rcases h with h | h
      · exact Or.inr (Or.inl h)
      · rcases ih h with h | h
        · exact Or.inl h
        · exact Or.inr (Or.inr h)

/-- A trading iteration only shrinks the opposite side: every surviving
order matches some original order in id and price (the partially filled head
keeps both). -/
theorem matchStep_cont_orders_mono {rem : Nat} {opp opp3 : SideBook}
    {idx idx2 : List (Nat × Order)} {tr : Trade} {rem2 : Nat}
    (h : matchStep isBuy incId incPrice rem opp idx = .cont tr rem2 opp3 idx2) :
    ∀ o' ∈ ordersOfLevels opp3.levels, ∃ o, o ∈ ordersOfLevels opp.levels ∧
      o.id = o'.id ∧ o.price = o'.price := by
  obtain ⟨k, resting, dqrest, h2, hk, hc, hlook, htr, hrem2, hopp3, hidx2⟩ := matchStep_cont_inv h
  have hmono : ∀ o, o ∈ ordersOfLevels (cleanHeap (!isBuy) opp).levels →
      o ∈ ordersOfLevels opp.levels := (cleanHeap_spec _ _).2.2.2.2.1
  have hdq2 : ∀ o', (o' ∈ (if resting.remaining - min rem resting.remaining = 0 then dqrest
      else { resting with remaining := resting.remaining - min rem resting.remaining } :: dqrest)) →
      ∃ o, o ∈ ordersOfLevels opp.levels ∧ o.id = o'.id ∧ o.price = o'.price := by
    intro o' ho'
    split at ho'
    · exact ⟨o', hmono o' (mem_ordersOfLevels_of_alookup hlook (List.mem_cons_of_mem _ ho')),
        rfl, rfl⟩
    · rcases List.mem_cons.mp ho' with rfl | ho'
      · exact ⟨resting, hmono resting (mem_ordersOfLevels_of_alookup hlook (List.mem_cons_self ..)),
          rfl, rfl⟩
      · exact ⟨o', hmono o' (mem_ordersOfLevels_of_alookup hlook (List.mem_cons_of_mem _ ho')),
          rfl, rfl⟩
  intro o' ho'
  rw [hopp3] at ho'
  simp only [] at ho'
  by_cases hempty : (if resting.remaining - min rem resting.remaining = 0 then dqrest
      else { resting with remaining := resting.remaining - min rem resting.remaining } :: dqrest) = []
  · rw [if_pos hempty] at ho'
    exact ⟨o', hmono o' (mem_ordersOfLevels_apop ho'), rfl, rfl⟩
  · rw [if_neg hempty] at ho'
    rcases mem_ordersOfLevels_aset ho' with hin | hin
    · exact hdq2 o' hin
    · exact ⟨o', hmono o' hin, rfl, rfl⟩

/-- Every trade emitted by the matching loop is stamped with the price and
id of a resting order of the original opposite side. -/
theorem matchLoop_trades_ref :
    ∀ (fuel rem : Nat) (opp : SideBook) (idx : List (Nat × Order))
      (ts : List Trade) (rem' : Nat) (opp' : SideBook) (idx' : List (Nat × Order)),
      matchLoop isBuy incId incPrice fuel rem opp idx = some (ts, rem', opp', idx') →
      ∀ t ∈ ts, ∃ o, o ∈ ordersOfLevels opp.levels ∧
        t = mkTrade isBuy o.price t.qty incId o.id
  | 0, rem, opp, idx => by
    intro ts rem' opp' idx' h
    exact Option.noConfusion h
  | fuel + 1, 0, opp, idx => by
    intro ts rem' opp' idx' h
    obtain ⟨h1, -⟩ : ([] : List Trade) = ts ∧ ((0 : Nat), opp, idx) = (rem', opp', idx') := by
      simpa [matchLoop, Prod.ext_iff, and_assoc] using h
    subst h1
    simp
  | fuel + 1, rem + 1, opp, idx => by
    intro ts rem' opp' idx' h
    rcases hms : matchStep isBuy incId incPrice (rem + 1) opp idx with
      sb1 | _ | ⟨tr, rem2, opp3, idx2⟩
    · simp only [matchLoop, hms] at h
      obtain ⟨h1, -⟩ : ([] : List Trade) = ts ∧ (rem + 1, sb1, idx) = (rem', opp', idx') := by
        simpa [Prod.ext_iff, and_assoc] using h
      subst h1
      simp
    · simp only [matchLoop, hms] at h
      exact Option.noConfusion h
    · simp only [matchLoop, hms] at h
      rcases hml : matchLoop isBuy incId incPrice fuel rem2 opp3 idx2 with
        _ | ⟨ts0, remF, oppF, idxF⟩
      · rw [hml] at h
        exact Option.noConfusion h
      · rw [hml] at h
        obtain ⟨h1, -⟩ : tr :: ts0 = ts ∧ (remF, oppF, idxF) = (rem', opp', idx') := by
          simpa [Prod.ext_iff, and_assoc] using h
        subst h1
        intro t ht
        rcases List.mem_cons.mp ht with rfl | ht
        · obtain ⟨k, resting, dqrest, h2, hk, hc, hlook, htr, hrem2, hopp3, hidx2⟩ :=
            matchStep_cont_inv hms
          refine ⟨resting, ?_, ?_⟩
          · exact (cleanHeap_spec _ _).2.2.2.2.1 resting
              (mem_ordersOfLevels_of_alookup hlook (List.mem_cons_self ..))
          · rw [htr, mkTrade_qty]
        · obtain ⟨o', ho', hteq⟩ :=
            matchLoop_trades_ref fuel rem2 opp3 idx2 ts0 remF oppF idxF hml t ht
          obtain ⟨o, ho, hid, hp⟩ := matchStep_cont_orders_mono hms o' ho'
          exact ⟨o, ho, hteq.trans (by rw [hid, hp])⟩

/-- Each trading iteration strictly decreases the incoming remaining
quantity plus the number of orders resting on the opposite side. -/
theorem matchStep_cont_size {rem : Nat} {opp opp3 : SideBook}
    {idx idx2 : List (Nat × Order)} {tr : Trade} {rem2 : Nat}
    (h : matchStep isBuy incId incPrice rem opp idx = .cont tr rem2 opp3 idx2)
    (hrem : 0 < rem) :
    rem2 + levelsSize opp3.levels < rem + levelsSize opp.levels := by
  obtain ⟨k, resting, dqrest, h2, hk, hc, hlook, htr, hrem2, hopp3, hidx2⟩ := matchStep_cont_inv h
  have hsz1 : levelsSize (cleanHeap (!isBuy) opp).levels = levelsSize opp.levels :=
    (cleanHeap_spec _ _).2.2.2.1
  have hlen := levelsSize_apop hlook
  by_cases h0 : resting.remaining - min rem resting.remaining = 0
  · by_cases hdq : dqrest = []
    · have hlv : opp3.levels
          = apop (priceOf (!isBuy) k) (cleanHeap (!isBuy) opp).levels := by
        rw [hopp3]; simp [h0, hdq]
      rw [hrem2, hlv]
      simp only [List.length_cons] at hlen
      omega
    · have hlv : opp3.levels
          = aset (priceOf (!isBuy) k) dqrest (cleanHeap (!isBuy) opp).levels := by
        rw [hopp3]; simp [h0, hdq]
      have hlen2 := levelsSize_aset hlook dqrest
      rw [hrem2, hlv]
      simp only [List.length_cons] at hlen2
      omega
  · have hlv : opp3.levels
        = aset (priceOf (!isBuy) k)
            ({ resting with remaining := resting.remaining - min rem resting.remaining } :: dqrest)
            (cleanHeap (!isBuy) opp).levels := by
      rw [hopp3]; simp [h0]
    have hlen2 := levelsSize_aset hlook
      ({ resting with remaining := resting.remaining - min rem resting.remaining } :: dqrest)
    rw [hrem2, hlv]
    simp only [List.length_cons] at hlen2
    omega

/-- With fuel exceeding the remaining quantity plus the opposite side's
order count, the matching loop always completes. -/
theorem matchLoop_isSome :
    ∀ (fuel rem : Nat) (opp : SideBook) (idx : List (Nat × Order)),
      rem + levelsSize opp.levels < fuel →
      (matchLoop isBuy incId incPrice fuel rem opp idx).isSome = true
  | 0, rem, opp, idx => by
    intro hf
    exact absurd hf (Nat.not_lt_zero _)
  | fuel + 1, 0, opp, idx => by
    intro hf
    simp [matchLoop]
  | fuel + 1, rem + 1, opp, idx => by
    intro hf
    rcases hms : matchStep isBuy incId incPrice (rem + 1) opp idx with sb1 | _ | ⟨tr, rem2, opp3, idx2⟩
    · simp [matchLoop, hms]
    · exact absurd hms (matchStep_ne_err _ _ _)
    · have hsz := matchStep_cont_size hms (Nat.succ_pos rem)
      have hrec := matchLoop_isSome fuel rem2 opp3 idx2 (by omega)
      simp only [matchLoop, hms]
      rcases hml : matchLoop isBuy incId incPrice fuel rem2 opp3 idx2 with _ | ⟨ts, remF, oppF, idxF⟩
      · rw [hml] at hrec
        simp at hrec
      · simp [hml]

theorem noCross_true_iff (isBuy : Bool) (incPrice best : ℚ) :
    noCross isBuy incPrice best = true ↔
      (if isBuy then incPrice < best else best < incPrice) := by
  cases isBuy <;> simp [noCross]

/-- A trading iteration preserves the opposite side's invariant and only
shrinks its level keys. -/
theorem matchStep_cont_sideInv {rem : Nat} {opp opp3 : SideBook}
    {idx idx2 : List (Nat × Order)} {tr : Trade} {rem2 : Nat}
    (h : matchStep isBuy incId incPrice rem opp idx = .cont tr rem2 opp3 idx2)
    (hinv : SideInv (!isBuy) opp) :
    SideInv (!isBuy) opp3 ∧ ∀ e ∈ opp3.levels, ∃ dq, (e.1, dq) ∈ opp.levels := by
  obtain ⟨k, resting, dqrest, h2, hk, hc, hlook, htr, hrem2, hopp3, hidx2⟩ := matchStep_cont_inv h
  obtain ⟨hinv1, hlv1⟩ := cleanHeap_sideInv hinv
  obtain ⟨m1, m2, m3, m4, m5, m6⟩ := hinv1
  have hmem1 : (priceOf (!isBuy) k, resting :: dqrest) ∈ (cleanHeap (!isBuy) opp).levels :=
    alookup_mem hlook
  have hkey1 : keyOf (!isBuy) (priceOf (!isBuy) k) ∈ (cleanHeap (!isBuy) opp).heap :=
    m3 _ hmem1
  by_cases h0 : resting.remaining - min rem resting.remaining = 0
  · by_cases hdq : dqrest = []
    · have hlv3 : opp3.levels
          = apop (priceOf (!isBuy) k) (cleanHeap (!isBuy) opp).levels := by
        rw [hopp3]; simp [h0, hdq]
      have hhp3 : opp3.heap = (cleanHeap (!isBuy) opp).heap := by
        rw [hopp3]; simp [h0, hdq]
      have hps3 : opp3.pset = (cleanHeap (!isBuy) opp).pset := by
        rw [hopp3]; simp [h0, hdq]
      refine ⟨⟨?_, ?_, ?_, ?_, ?_, ?_⟩, ?_⟩
      · rw [hlv3]; exact fun e he => m1 e (mem_apop he)
      · rw [hlv3]; exact keysNodup_apop _ m2
      · rw [hlv3, hhp3]; exact fun e he => m3 e (mem_apop he)
      · rw [hhp3]; exact m4
      · rw [hps3]; exact m5
      · rw [hps3, hhp3]; exact m6
      · rw [hlv3]
        intro e he
        exact ⟨e.2, hlv1 ▸ mem_apop he⟩
    · have hlv3 : opp3.levels
          = aset (priceOf (!isBuy) k) dqrest (cleanHeap (!isBuy) opp).levels := by
        rw [hopp3]; simp [h0, hdq]
      have hhp3 : opp3.heap = (cleanHeap (!isBuy) opp).heap := by
        rw [hopp3]; simp [h0, hdq]
      have hps3 : opp3.pset = (cleanHeap (!isBuy) opp).pset := by
        rw [hopp3]; simp [h0, hdq]
      refine ⟨⟨?_, ?_, ?_, ?_, ?_, ?_⟩, ?_⟩
      · rw [hlv3]
        intro e he
        rcases mem_aset_nodup m2 he with rfl | ⟨he, -⟩
        · exact hdq
        · exact m1 e he
      · rw [hlv3]; exact keysNodup_aset _ _ m2
      · rw [hlv3, hhp3]
        intro e he
        rcases mem_aset_nodup m2 he with rfl | ⟨he, -⟩
        · exact hkey1
        · exact m3 e he
      · rw [hhp3]; exact m4
      · rw [hps3]; exact m5
      · rw [hps3, hhp3]; exact m6
      · rw [hlv3]
        intro e he
        rcases mem_aset_nodup m2 he with rfl | ⟨he, -⟩
        · exact ⟨resting :: dqrest, hlv1 ▸ hmem1⟩
        · exact ⟨e.2, hlv1 ▸ he⟩
  · have hlv3 : opp3.levels
        = aset (priceOf (!isBuy) k)
            ({ resting with remaining := resting.remaining - min rem resting.remaining } :: dqrest)
            (cleanHeap (!isBuy) opp).levels := by
      rw [hopp3]; simp [h0]
    have hhp3 : opp3.heap = (cleanHeap (!isBuy) opp).heap := by
      rw [hopp3]; simp [h0]
    have hps3 : opp3.pset = (cleanHeap (!isBuy) opp).pset := by
      rw [hopp3]; simp [h0]
    refine ⟨⟨?_, ?_, ?_, ?_, ?_, ?_⟩, ?_⟩
    · rw [hlv3]
      intro e he
      rcases mem_aset_nodup m2 he with rfl | ⟨he, -⟩
      · simp
      · exact m1 e he
    · rw [hlv3]; exact keysNodup_aset _ _ m2
    · rw [hlv3, hhp3]
      intro e he
      rcases mem_aset_nodup m2 he with rfl | ⟨he, -⟩
      · exact hkey1
      · exact m3 e he
    · rw [hhp3]; exact m4
    · rw [hps3]; exact m5
    · rw [hps3, hhp3]; exact m6
    · rw [hlv3]
      intro e he
      rcases mem_aset_nodup m2 he with rfl | ⟨he, -⟩
      · exact ⟨resting :: dqrest, hlv1 ▸ hmem1⟩
      · exact ⟨e.2, hlv1 ▸ he⟩

/-- The matching loop preserves the opposite side's invariant, only shrinks
its level keys and, whenever it returns with quantity still remaining, every
surviving opposite level fails to cross the incoming price. -/
theorem matchLoop_sideInv :
    ∀ (fuel rem : Nat) (opp : SideBook) (idx : List (Nat × Order))
      (ts : List Trade) (rem' : Nat) (opp' : SideBook) (idx' : List (Nat × Order)),
      matchLoop isBuy incId incPrice fuel rem opp idx = some (ts, rem', opp', idx') →
      SideInv (!isBuy) opp →
      SideInv (!isBuy) opp' ∧
      (∀ e ∈ opp'.levels, ∃ dq, (e.1, dq) ∈ opp.levels) ∧
      (0 < rem' → ∀ e ∈ opp'.levels, if isBuy then incPrice < e.1 else e.1 < incPrice)
  | 0, rem, opp, idx => by
    intro ts rem' opp' idx' h hinv
    exact Option.noConfusion h
  | fuel + 1, 0, opp, idx => by
    intro ts rem' opp' idx' h hinv
    obtain ⟨-, f2, f3, -⟩ :
        ([] : List Trade) = ts ∧ (0 : Nat) = rem' ∧ opp = opp' ∧ idx = idx' := by
      simpa [matchLoop, Prod.ext_iff, and_assoc] using h
    subst f2; subst f3
    exact ⟨hinv, fun e he => ⟨e.2, he⟩, fun h0 => absurd h0 (by simp)⟩
  | fuel + 1, rem + 1, opp, idx => by
    intro ts rem' opp' idx' h hinv
    rcases hms : matchStep isBuy incId incPrice (rem + 1) opp idx with
      sb1 | _ | ⟨tr, rem2, opp3, idx2⟩
    · simp only [matchLoop, hms] at h
      obtain ⟨-, -, f3, -⟩ :
          ([] : List Trade) = ts ∧ rem + 1 = rem' ∧ sb1 = opp' ∧ idx = idx' := by
        simpa [Prod.ext_iff, and_assoc] using h
      subst f3
      obtain ⟨hsb1, hstop⟩ := matchStep_stop_inv hms
      obtain ⟨hinv1, hlv1⟩ := cleanHeap_sideInv hinv
      rw [← hsb1] at hinv1 hlv1
      refine ⟨hinv1, ?_, ?_⟩
      · intro e he
        exact ⟨e.2, hlv1 ▸ he⟩
      · intro hpos e he
        have hkey : keyOf (!isBuy) e.1 ∈ sb1.heap := hinv1.2.2.1 e he
        rcases hstop with hemp | ⟨k, h2, hheq, hcross⟩
        · rw [hemp] at hkey
          simp at hkey
        · rw [hheq] at hkey
          have hsorted : List.Sorted (· ≤ ·) (k :: h2) := hheq ▸ hinv1.2.2.2.1
          have hle : k ≤ keyOf (!isBuy) e.1 := by
            rcases List.mem_cons.mp hkey with heq2 | hmem2
            · rw [heq2]
            · exact List.rel_of_sorted_cons hsorted _ hmem2
          have hcross' := (noCross_true_iff ..).mp hcross
          cases isBuy
          · simp [keyOf, priceOf] at hle hcross' ⊢
            linarith
          · simp [keyOf, priceOf] at hle hcross' ⊢
            linarith
    · simp only [matchLoop, hms] at h
      exact Option.noConfusion h
    · simp only [matchLoop, hms] at h
      rcases hml : matchLoop isBuy incId incPrice fuel rem2 opp3 idx2 with
        _ | ⟨ts0, remF, oppF, idxF⟩
      · rw [hml] at h
        exact Option.noConfusion h
      · rw [hml] at h
        obtain ⟨-, f2, f3, -⟩ :
            tr :: ts0 = ts ∧ remF = rem' ∧ oppF = opp' ∧ idxF = idx' := by
          simpa [Prod.ext_iff, and_assoc] using h
        subst f3
        obtain ⟨hinv3, hkeys3⟩ := matchStep_cont_sideInv hms hinv
        obtain ⟨hinvF, hkeysF, hcrossF⟩ :=
          matchLoop_sideInv fuel rem2 opp3 idx2 ts0 remF oppF idxF hml hinv3
        refine ⟨hinvF, ?_, ?_⟩
        · intro e he
          obtain ⟨dq, hdq⟩ := hkeysF e he
          obtain ⟨dq2, hdq2⟩ := hkeys3 (e.1, dq) hdq
          exact ⟨dq2, hdq2⟩
        · intro hpos
          exact hcrossF (by omega)

end MatchLemmas

/-! ## Claims -/

/-- C8: price normalization is idempotent —
`_norm_price (_norm_price p) = _norm_price p` for every price `p`. -/
theorem norm_price_idem (p : ℚ) : norm_price (norm_price p) = norm_price p := by
  set t : ℤ := Int.tdiv (p.num * 100) p.den with ht
  have hq : norm_price p = (t : ℚ) / 100 := by rw [norm_price_eq_div, ht]
  have hdenQ : ((norm_price p).den : ℚ) ≠ 0 := by
    exact_mod_cast (norm_price p).den_nz
  have h1 : ((norm_price p).num : ℚ) / ((norm_price p).den : ℚ) = (t : ℚ) / 100 := by
    rw [Rat.num_div_den]; exact hq
  have h2 : ((norm_price p).num : ℚ) * 100 = (t : ℚ) * ((norm_price p).den : ℚ) :=
    (div_eq_div_iff hdenQ (by norm_num)).mp h1
  have hcross : (norm_price p).num * 100 = t * ((norm_price p).den : ℤ) := by
    exact_mod_cast h2
  have hdenZ : ((norm_price p).den : ℤ) ≠ 0 := by
    exact_mod_cast (norm_price p).den_nz
  conv_lhs => rw [norm_price]
  rw [hcross, Int.mul_tdiv_cancel _ hdenZ]
  simp only [norm_price, ← ht]

/-- C7: cancelling an order id that is not in the order index returns a
failure ack (`success = false`) and leaves the whole book state unchanged;
the dispatcher emits no trades for it. -/
theorem cancel_unknown_id (b : OrderBook) (oid : Nat)
    (h : alookup oid b.orders_by_id = none) :
    b.cancel oid = (false, b) ∧ processEvent b (.cancel oid) = some (b, [], some false) := by
  have hc : b.cancel oid = (false, b) := by unfold OrderBook.cancel; rw [h]
  exact ⟨hc, by simp [processEvent, hc]⟩

theorem cancel_unknown_id_witness :
    OrderBook.empty.cancel 7 = (false, OrderBook.empty) ∧
      processEvent OrderBook.empty (.cancel 7) = some (OrderBook.empty, [], some false) :=
  cancel_unknown_id OrderBook.empty 7 (by decide)

/-- C1: on an empty book, `place BID id=1 50.00/5; place BID id=2 50.00/3;
place ASK id=3 50.00/6` emits exactly the trades `(50.00, 5, bid 1, ask 3)`
then `(50.00, 1, bid 2, ask 3)` and leaves one BID level at 50.00 of
aggregate quantity 2 holding order 2 with remaining 2, with the ASK side
empty. -/
theorem scenario_two_trades :
    ∃ st : OrderBook,
      run [.place 1 1 50 5, .place 2 1 50 3, .place 3 (-1) 50 6] =
          some (st, [⟨50, 5, 1, 3⟩, ⟨50, 1, 2, 3⟩]) ∧
        st.buy.levels = [(50, [⟨2, 1, 50, 3, 2⟩])] ∧
        alookup 50 st.buy.vol = some 2 ∧
        alookup 2 st.orders_by_id = some ⟨2, 1, 50, 3, 2⟩ ∧
        st.sell.levels = [] ∧ st.sell.heap = [] := by
  refine ⟨⟨⟨[(50, [⟨2, 1, 50, 3, 2⟩])], [-50], [50], [(50, 2)]⟩, ⟨[], [], [], []⟩,
    [(2, ⟨2, 1, 50, 3, 2⟩)]⟩, ?_⟩
  decide

theorem bookInv_empty : BookInv OrderBook.empty := by
  refine ⟨⟨?_, ?_, ?_, ?_, ?_, ?_⟩, ⟨?_, ?_, ?_, ?_, ?_, ?_⟩, ?_⟩ <;>
    simp [OrderBook.empty, keysNodup, NoCross]

/-- A `place` or `cancel` event preserves the book invariant (this is false
for `modify`, which can leave a crossed book). -/
theorem processEvent_bookInv (b : OrderBook) (e : Event) (b' : OrderBook)
    (ts : List Trade) (ack : Option Bool) (hnm : ∀ oid p, e ≠ .modify oid p)
    (h : processEvent b e = some (b', ts, ack)) (hb : BookInv b) : BookInv b' := by
  obtain ⟨hbuy, hsell, hnc⟩ := hb
  cases e with
  | modify oid p => exact absurd rfl (hnm oid p)
  | cancel oid =>
    have hb' : b' = (b.cancel oid).2 := by
      have h2 := Option.some.inj h
      exact (congrArg Prod.fst h2).symm
    subst hb'
    unfold OrderBook.cancel
    rcases hl : alookup oid b.orders_by_id with _ | o
    · exact ⟨hbuy, hsell, hnc⟩
    · simp only [hl]
      by_cases hside : o.side = 1
      · rw [if_pos hside]
        obtain ⟨hinv2, hkeys2, -, -⟩ := @cancelSide_sideInv true b.buy o hbuy
        refine ⟨hinv2, hsell, ?_⟩
        intro eb heb es hes
        obtain ⟨dq, hdq⟩ := hkeys2 eb heb
        exact hnc (eb.1, dq) hdq es hes
      · rw [if_neg hside]
        obtain ⟨hinv2, hkeys2, -, -⟩ := @cancelSide_sideInv false b.sell o hsell
        refine ⟨hbuy, hinv2, ?_⟩
        intro eb heb es hes
        obtain ⟨dq, hdq⟩ := hkeys2 es hes
        exact hnc eb heb (es.1, dq) hdq
  | place oid side price qty =>
    rcases hmo : matchOrder b ⟨oid, side, norm_price price, qty, qty⟩ with _ | ⟨ts0, b2⟩
    · rw [processEvent, hmo] at h
      exact Option.noConfusion h
    · rw [processEvent, hmo] at h
      have hb' : b2 = b' := by
        have h2 := Option.some.inj h
        exact congrArg Prod.fst h2
      subst hb'
      unfold matchOrder at hmo
      by_cases hside : side = (1 : Int)
      · rw [if_pos hside] at hmo
        rcases hml : matchLoop true oid (norm_price price) (qty + sideSize b.sell + 1) qty
            b.sell b.orders_by_id with _ | ⟨ts1, rem1, sell1, idx1⟩
        · rw [hml] at hmo
          exact Option.noConfusion hmo
        · rw [hml] at hmo
          have hb2 : b2 = (if 0 < rem1 then
              add_to_book { b with sell := sell1, orders_by_id := idx1 }
                { id := oid, side := side, price := norm_price price, orig_qty := qty,
                  remaining := rem1 }
              else { b with sell := sell1, orders_by_id := idx1 }) :=
            (congrArg Prod.snd (Option.some.inj hmo)).symm
          obtain ⟨hinvS, hkeysS, hcrossS⟩ :=
            @matchLoop_sideInv true oid (norm_price price)
              (qty + sideSize b.sell + 1) qty b.sell b.orders_by_id ts1 rem1 sell1 idx1 hml hsell
          by_cases hrem : 0 < rem1
          · rw [if_pos hrem] at hb2
            have hadd : b2 = { b with
                buy := addToSide true b.buy
                  { id := oid, side := side, price := norm_price price, orig_qty := qty,
                    remaining := rem1 }
                sell := sell1
                orders_by_id := aset oid
                  { id := oid, side := side, price := norm_price price, orig_qty := qty,
                    remaining := rem1 } idx1 } := by
              rw [hb2]
              unfold add_to_book
              rw [if_pos hside]
            rw [hadd]
            obtain ⟨hinvB, hkeysB⟩ := @addToSide_sideInv true b.buy
              { id := oid, side := side, price := norm_price price, orig_qty := qty,
                remaining := rem1 } hbuy
            refine ⟨hinvB, hinvS, ?_⟩
            intro eb heb es hes
            rcases hkeysB eb heb with heq | ⟨dq, hdq⟩
            · have hx := hcrossS hrem es hes
              simp only [if_true] at hx
              rw [heq]
              exact hx
            · obtain ⟨dq2, hdq2⟩ := hkeysS es hes
              exact hnc (eb.1, dq) hdq (es.1, dq2) hdq2
          · rw [if_neg hrem] at hb2
            rw [hb2]
            refine ⟨hbuy, hinvS, ?_⟩
            intro eb heb es hes
            obtain ⟨dq2, hdq2⟩ := hkeysS es hes
            exact hnc eb heb (es.1, dq2) hdq2
      · rw [if_neg hside] at hmo
        rcases hml : matchLoop false oid (norm_price price) (qty + sideSize b.buy + 1) qty
            b.buy b.orders_by_id with _ | ⟨ts1, rem1, buy1, idx1⟩
        · rw [hml] at hmo
          exact Option.noConfusion hmo
        · rw [hml] at hmo
          have hb2 : b2 = (if 0 < rem1 then
              add_to_book { b with buy := buy1, orders_by_id := idx1 }
                { id := oid, side := side, price := norm_price price, orig_qty := qty,
                  remaining := rem1 }
              else { b with buy := buy1, orders_by_id := idx1 }) :=
            (congrArg Prod.snd (Option.some.inj hmo)).symm
          obtain ⟨hinvB, hkeysB, hcrossB⟩ :=
            @matchLoop_sideInv false oid (norm_price price)
              (qty + sideSize b.buy + 1) qty b.buy b.orders_by_id ts1 rem1 buy1 idx1 hml hbuy
          by_cases hrem : 0 < rem1
          · rw [if_pos hrem] at hb2
            have hadd : b2 = { b with
                sell := addToSide false b.sell
                  { id := oid, side := side, price := norm_price price, orig_qty := qty,
                    remaining := rem1 }
                buy := buy1
                orders_by_id := aset oid
                  { id := oid, side := side, price := norm_price price, orig_qty := qty,
                    remaining := rem1 } idx1 } := by
              rw [hb2]
              unfold add_to_book
              rw [if_neg hside]
            rw [hadd]
            obtain ⟨hinvSa, hkeysSa⟩ := @addToSide_sideInv false b.sell
              { id := oid, side := side, price := norm_price price, orig_qty := qty,
                remaining := rem1 } hsell
            refine ⟨hinvB, hinvSa, ?_⟩
            intro eb heb es hes
            rcases hkeysSa es hes with heq | ⟨dq, hdq⟩
            · have hx := hcrossB hrem eb heb
              simp only [if_false] at hx
              rw [heq]
              exact hx
            · obtain ⟨dq2, hdq2⟩ := hkeysB eb heb
              exact hnc (eb.1, dq2) hdq2 (es.1, dq) hdq
          · rw [if_neg hrem] at hb2
            rw [hb2]
            refine ⟨hinvB, hsell, ?_⟩
            intro eb heb es hes
            obtain ⟨dq2, hdq2⟩ := hkeysB eb heb
            exact hnc (eb.1, dq2) hdq2 es hes

/-- The book invariant holds after any run of places and cancels. -/
theorem runEvents_bookInv :
    ∀ (es : List Event) (b st : OrderBook) (tr : List Trade),
      placeCancelOnly es → runEvents b es = some (st, tr) → BookInv b → BookInv st
  | [], b, st, tr => by
    intro hpc h hb
    have h2 := Option.some.inj h
    exact (show b = st from congrArg Prod.fst h2) ▸ hb
  | e :: es, b, st, tr => by
    intro hpc h hb
    have hnm : ∀ oid p, e ≠ .modify oid p := by
      intro oid p heq
      subst heq
      exact hpc
    have hpc2 : placeCancelOnly es := by
      cases e with
      | place oid side price qty => exact hpc
      | cancel oid => exact hpc
      | modify oid p => exact hpc.elim
    simp only [runEvents] at h
    rcases hpe : processEvent b e with _ | ⟨b1, ts1, ack⟩
    · rw [hpe] at h
      exact Option.noConfusion h
    · simp only [hpe] at h
      rcases hre : runEvents b1 es with _ | ⟨st2, tr2⟩
      · rw [hre] at h
        exact Option.noConfusion h
      · rw [hre] at h
        have hst : st2 = st := congrArg Prod.fst (Option.some.inj h)
        have hb1 : BookInv b1 := processEvent_bookInv b e b1 ts1 ack hnm hpe hb
        exact hst ▸ runEvents_bookInv es b1 st2 tr2 hpc2 hre hb1

/-- C2 corrected: for every finite sequence of `place` and `cancel` events
(no `modify`), the book at rest satisfies no-cross — one side is empty
(its best-price query yields none) or the best bid is strictly below the
best ask.  (`modify` violates this, see `no_cross_cex`.) -/
theorem no_cross_of_place_cancel (es : List Event) (st : OrderBook) (tr : List Trade)
    (hpc : placeCancelOnly es) (hrun : run es = some (st, tr)) :
    (best_buy_price st).2 = none ∨ (best_sell_price st).2 = none ∨
    ∃ bb bs, (best_buy_price st).2 = some bb ∧ (best_sell_price st).2 = some bs ∧ bb < bs := by
  obtain ⟨hbuy, hsell, hnc⟩ :=
    runEvents_bookInv es OrderBook.empty st tr hpc hrun bookInv_empty
  rcases hbh : (cleanHeap true st.buy).heap with _ | ⟨kb, hb2⟩
  · left
    simp [best_buy_price, clean_buy_heap, hbh]
  · rcases hsh : (cleanHeap false st.sell).heap with _ | ⟨ks, hs2⟩
    · right; left
      simp [best_sell_price, clean_sell_heap, hsh]
    · right; right
      refine ⟨priceOf true kb, priceOf false ks, ?_, ?_, ?_⟩
      · simp [best_buy_price, clean_buy_heap, hbh]
      · simp [best_sell_price, clean_sell_heap, hsh]
      · obtain ⟨ob, osb, hlb⟩ := cleanHeap_head_live hbh
        obtain ⟨osl, oss, hls⟩ := cleanHeap_head_live hsh
        rw [(cleanHeap_sideInv hbuy).2] at hlb
        rw [(cleanHeap_sideInv hsell).2] at hls
        exact hnc _ (alookup_mem hlb) _ (alookup_mem hls)

theorem no_cross_of_place_cancel_witness :
    (best_buy_price ⟨⟨[(50, [⟨1, 1, 50, 5, 5⟩])], [-50], [50], [(50, 5)]⟩,
      ⟨[(60, [⟨2, -1, 60, 5, 5⟩])], [60], [60], [(60, 5)]⟩,
      [(1, ⟨1, 1, 50, 5, 5⟩), (2, ⟨2, -1, 60, 5, 5⟩)]⟩).2 = none ∨
    (best_sell_price ⟨⟨[(50, [⟨1, 1, 50, 5, 5⟩])], [-50], [50], [(50, 5)]⟩,
      ⟨[(60, [⟨2, -1, 60, 5, 5⟩])], [60], [60], [(60, 5)]⟩,
      [(1, ⟨1, 1, 50, 5, 5⟩), (2, ⟨2, -1, 60, 5, 5⟩)]⟩).2 = none ∨
    ∃ bb bs,
      (best_buy_price ⟨⟨[(50, [⟨1, 1, 50, 5, 5⟩])], [-50], [50], [(50, 5)]⟩,
        ⟨[(60, [⟨2, -1, 60, 5, 5⟩])], [60], [60], [(60, 5)]⟩,
        [(1, ⟨1, 1, 50, 5, 5⟩), (2, ⟨2, -1, 60, 5, 5⟩)]⟩).2 = some bb ∧
      (best_sell_price ⟨⟨[(50, [⟨1, 1, 50, 5, 5⟩])], [-50], [50], [(50, 5)]⟩,
        ⟨[(60, [⟨2, -1, 60, 5, 5⟩])], [60], [60], [(60, 5)]⟩,
        [(1, ⟨1, 1, 50, 5, 5⟩), (2, ⟨2, -1, 60, 5, 5⟩)]⟩).2 = some bs ∧ bb < bs :=
  no_cross_of_place_cancel [.place 1 1 50 5, .place 2 (-1) 60 5]
    ⟨⟨[(50, [⟨1, 1, 50, 5, 5⟩])], [-50], [50], [(50, 5)]⟩,
      ⟨[(60, [⟨2, -1, 60, 5, 5⟩])], [60], [60], [(60, 5)]⟩,
      [(1, ⟨1, 1, 50, 5, 5⟩), (2, ⟨2, -1, 60, 5, 5⟩)]⟩ []
    (by trivial) (by decide)

/-- C3: passive price rule — every trade returned by `match` carries the
price of the resting order it was matched against (identified by the trade's
resting-side order id), with the incoming order on the other side of the
trade; this holds for every book state and every incoming order. -/
theorem match_passive_price (b : OrderBook) (incoming : Order) (ts : List Trade)
    (b' : OrderBook) (h : matchOrder b incoming = some (ts, b')) :
    ∀ t ∈ ts, ∃ o,
      o ∈ ordersOfLevels (if incoming.side = 1 then b.sell.levels else b.buy.levels) ∧
      t.price = o.price ∧
      (if incoming.side = 1 then t.bid_order_id = incoming.id ∧ t.ask_order_id = o.id
       else t.ask_order_id = incoming.id ∧ t.bid_order_id = o.id) := by
  unfold matchOrder at h
  by_cases hside : incoming.side = 1
  · rw [if_pos hside] at h
    rcases hml : matchLoop true incoming.id incoming.price
        (incoming.remaining + sideSize b.sell + 1) incoming.remaining b.sell b.orders_by_id with
      _ | ⟨ts0, rem2, sell2, idx2⟩
    · rw [hml] at h
      exact Option.noConfusion h
    · rw [hml] at h
      have h1 : ts0 = ts := congrArg Prod.fst (Option.some.inj h)
      subst h1
      intro t ht
      obtain ⟨o, ho, hteq⟩ := matchLoop_trades_ref _ _ _ _ _ _ _ _ hml t ht
      refine ⟨o, by rw [if_pos hside]; exact ho, ?_, ?_⟩
      · rw [hteq, mkTrade_price]
      · rw [if_pos hside]
        exact ⟨by rw [hteq]; rfl, by rw [hteq]; rfl⟩
  · rw [if_neg hside] at h
    rcases hml : matchLoop false incoming.id incoming.price
        (incoming.remaining + sideSize b.buy + 1) incoming.remaining b.buy b.orders_by_id with
      _ | ⟨ts0, rem2, buy2, idx2⟩
    · rw [hml] at h
      exact Option.noConfusion h
    · rw [hml] at h
      have h1 : ts0 = ts := congrArg Prod.fst (Option.some.inj h)
      subst h1
      intro t ht
      obtain ⟨o, ho, hteq⟩ := matchLoop_trades_ref _ _ _ _ _ _ _ _ hml t ht
      refine ⟨o, by rw [if_neg hside]; exact ho, ?_, ?_⟩
      · rw [hteq, mkTrade_price]
      · rw [if_neg hside]
        exact ⟨by rw [hteq]; rfl, by rw [hteq]; rfl⟩

theorem match_passive_price_witness :
    ∃ o, o ∈ ordersOfLevels [((50 : ℚ), [⟨3, -1, 50, 6, 6⟩])] ∧
      (⟨50, 5, 1, 3⟩ : Trade).price = o.price ∧
      ((⟨50, 5, 1, 3⟩ : Trade).bid_order_id = 1 ∧ (⟨50, 5, 1, 3⟩ : Trade).ask_order_id = o.id) := by
  have h := match_passive_price
    ⟨⟨[], [], [], []⟩, ⟨[(50, [⟨3, -1, 50, 6, 6⟩])], [50], [50], [(50, 6)]⟩,
      [(3, ⟨3, -1, 50, 6, 6⟩)]⟩
    ⟨1, 1, 50, 5, 5⟩ [⟨50, 5, 1, 3⟩]
    ⟨⟨[], [], [], []⟩, ⟨[(50, [⟨3, -1, 50, 6, 1⟩])], [50], [50], [(50, 1)]⟩,
      [(3, ⟨3, -1, 50, 6, 1⟩)]⟩
    (by decide) ⟨50, 5, 1, 3⟩ (by simp)
  simpa using h

/-- C4: `modify` on a resident order acks success, reinserts the same order
(same id, same remaining, same side) at the tail of the queue of the new
normalized price level — when the new price equals the old one the order
demonstrably moves behind the rest of its old queue — and the dispatcher
emits no trades for a modify (no re-matching happens). -/
theorem modify_moves_to_tail (b : OrderBook) (oid : Nat) (np : ℚ) (o : Order)
    (dq : List Order) (hidx : alookup oid b.orders_by_id = some o)
    (hlvl : alookup o.price (if o.side = 1 then b.buy.levels else b.sell.levels) = some dq)
    (hmem : o ∈ dq) :
    (b.modify oid np).1 = true ∧
    (∃ prior, alookup (norm_price np)
        (if o.side = 1 then (b.modify oid np).2.buy.levels
         else (b.modify oid np).2.sell.levels) =
      some (prior ++ [{ o with price := norm_price np }])) ∧
    alookup o.id (b.modify oid np).2.orders_by_id = some { o with price := norm_price np } ∧
    ({ o with price := norm_price np }).id = o.id ∧
    ({ o with price := norm_price np }).remaining = o.remaining ∧
    ({ o with price := norm_price np }).side = o.side ∧
    (norm_price np = o.price → dq.erase o ≠ [] →
      alookup (norm_price np)
          (if o.side = 1 then (b.modify oid np).2.buy.levels
           else (b.modify oid np).2.sell.levels) =
        some (dq.erase o ++ [{ o with price := norm_price np }])) ∧
    processEvent b (.modify oid np) = some ((b.modify oid (norm_price np)).2, [], some true) := by
  have hdqnil : dq ≠ [] := List.ne_nil_of_mem hmem
  have htrue : ∀ x : ℚ, (b.modify oid x).1 = true := by
    intro x
    unfold OrderBook.modify
    rw [hidx]
  by_cases hside : o.side = 1
  · rw [if_pos hside] at hlvl
    have hmod : b.modify oid np =
        (true, add_to_book { b with buy := cancelSide b.buy o }
          ({ o with price := norm_price np })) := by
      unfold OrderBook.modify
      simp only [hidx]
      rw [if_pos hside]
    have hadd : add_to_book { b with buy := cancelSide b.buy o }
        ({ o with price := norm_price np }) =
        { b with
          buy := addToSide true (cancelSide b.buy o) ({ o with price := norm_price np })
          orders_by_id := aset o.id ({ o with price := norm_price np }) b.orders_by_id } := by
      unfold add_to_book
      rw [if_pos (show ({ o with price := norm_price np } : Order).side = (1 : Int) from hside)]
    rw [hmod, hadd]
    refine ⟨rfl, ?_, ?_, rfl, rfl, rfl, ?_, ?_⟩
    · rw [if_pos hside]
      exact ⟨_, addToSide_appends true (cancelSide b.buy o) { o with price := norm_price np }⟩
    · rw [alookup_aset_self]
    · intro heq hne
      rw [if_pos hside]
      have hcs : (cancelSide b.buy o).levels = aset o.price (dq.erase o) b.buy.levels := by
        unfold cancelSide
        simp only [hlvl, if_neg hdqnil, if_pos hmem, if_neg hne]
      have h2 := addToSide_appends true (cancelSide b.buy o) { o with price := norm_price np }
      rw [h2]
      have : alookup ({ o with price := norm_price np }).price (cancelSide b.buy o).levels =
          some (dq.erase o) := by
        show alookup (norm_price np) (cancelSide b.buy o).levels = some (dq.erase o)
        rw [hcs, heq, alookup_aset_self]
      rw [this]
      rfl
    · show processEvent b (.modify oid np) =
        some ((b.modify oid (norm_price np)).2, [], some true)
      have : processEvent b (.modify oid np) =
          some ((b.modify oid (norm_price np)).2, [], some (b.modify oid (norm_price np)).1) := rfl
      rw [this, htrue]
  · rw [if_neg hside] at hlvl
    have hmod : b.modify oid np =
        (true, add_to_book { b with sell := cancelSide b.sell o }
          ({ o with price := norm_price np })) := by
      unfold OrderBook.modify
      simp only [hidx]
      rw [if_neg hside]
    have hadd : add_to_book { b with sell := cancelSide b.sell o }
        ({ o with price := norm_price np }) =
        { b with
          sell := addToSide false (cancelSide b.sell o) ({ o with price := norm_price np })
          orders_by_id := aset o.id ({ o with price := norm_price np }) b.orders_by_id } := by
      unfold add_to_book
      rw [if_neg (show ¬({ o with price := norm_price np } : Order).side = (1 : Int) from hside)]
    rw [hmod, hadd]
    refine ⟨rfl, ?_, ?_, rfl, rfl, rfl, ?_, ?_⟩
    · rw [if_neg hside]
      exact ⟨_, addToSide_appends false (cancelSide b.sell o) { o with price := norm_price np }⟩
    · rw [alookup_aset_self]
    · intro heq hne
      rw [if_neg hside]
      have hcs : (cancelSide b.sell o).levels = aset o.price (dq.erase o) b.sell.levels := by
        unfold cancelSide
        simp only [hlvl, if_neg hdqnil, if_pos hmem, if_neg hne]
      have h2 := addToSide_appends false (cancelSide b.sell o) { o with price := norm_price np }
      rw [h2]
      have : alookup ({ o with price := norm_price np }).price (cancelSide b.sell o).levels =
          some (dq.erase o) := by
        show alookup (norm_price np) (cancelSide b.sell o).levels = some (dq.erase o)
        rw [hcs, heq, alookup_aset_self]
      rw [this]
      rfl
    · show processEvent b (.modify oid np) =
        some ((b.modify oid (norm_price np)).2, [], some true)
      have : processEvent b (.modify oid np) =
          some ((b.modify oid (norm_price np)).2, [], some (b.modify oid (norm_price np)).1) := rfl
      rw [this, htrue]

theorem modify_moves_to_tail_witness :
    ((⟨⟨[(10, [⟨1, 1, 10, 5, 5⟩])], [-10], [10], [(10, 5)]⟩, ⟨[], [], [], []⟩,
        [(1, ⟨1, 1, 10, 5, 5⟩)]⟩ : OrderBook).modify 1 11).1 = true :=
  (modify_moves_to_tail
    ⟨⟨[(10, [⟨1, 1, 10, 5, 5⟩])], [-10], [10], [(10, 5)]⟩, ⟨[], [], [], []⟩,
      [(1, ⟨1, 1, 10, 5, 5⟩)]⟩ 1 11 ⟨1, 1, 10, 5, 5⟩ [⟨1, 1, 10, 5, 5⟩] rfl rfl (by simp)).1

/-- C9: the matching loop always terminates — for every book state and
every incoming order the model's fuel of `remaining + (size of the opposite
side) + 1` iterations suffices, because every iteration strictly decreases
the incoming remaining quantity plus the number of resting opposite orders;
so `match` returns a result (never the divergence marker). -/
theorem match_terminates (b : OrderBook) (incoming : Order) :
    (matchOrder b incoming).isSome = true := by
  unfold matchOrder
  by_cases hside : incoming.side = 1
  · rw [if_pos hside]
    have hfuel : incoming.remaining + levelsSize b.sell.levels <
        incoming.remaining + sideSize b.sell + 1 := by
      have : sideSize b.sell = levelsSize b.sell.levels := rfl
      omega
    have h := @matchLoop_isSome true incoming.id incoming.price
      (incoming.remaining + sideSize b.sell + 1) incoming.remaining b.sell b.orders_by_id hfuel
    rcases hml : matchLoop true incoming.id incoming.price
        (incoming.remaining + sideSize b.sell + 1) incoming.remaining b.sell b.orders_by_id with
      _ | ⟨ts, rem2, sell2, idx2⟩
    · rw [hml] at h
      simp at h
    · simp [hml]
  · rw [if_neg hside]
    have hfuel : incoming.remaining + levelsSize b.buy.levels <
        incoming.remaining + sideSize b.buy + 1 := by
      have : sideSize b.buy = levelsSize b.buy.levels := rfl
      omega
    have h := @matchLoop_isSome false incoming.id incoming.price
      (incoming.remaining + sideSize b.buy + 1) incoming.remaining b.buy b.orders_by_id hfuel
    rcases hml : matchLoop false incoming.id incoming.price
        (incoming.remaining + sideSize b.buy + 1) incoming.remaining b.buy b.orders_by_id with
      _ | ⟨ts, rem2, buy2, idx2⟩
    · rw [hml] at h
      simp at h
    · simp [hml]

/-- C10: lazy best-price cleanup never alters book content.  The cleanups
leave `orders_by_id` untouched, preserve every non-empty level's queue and
its volume entry, leave the other side alone, and only discard heap prices
whose level is absent or empty; the best-price queries operate on exactly
these cleaned books, and the snapshot book (both sides cleaned) preserves
every non-empty level as well. -/
theorem clean_heaps_frame (b : OrderBook) :
    (clean_buy_heap b).orders_by_id = b.orders_by_id ∧
    (clean_sell_heap b).orders_by_id = b.orders_by_id ∧
    (snapshot b 5).1.orders_by_id = b.orders_by_id ∧
    (∀ p dq, alookup p b.buy.levels = some dq → dq ≠ [] →
        alookup p (clean_buy_heap b).buy.levels = some dq ∧
        alookup p (clean_buy_heap b).buy.vol = alookup p b.buy.vol) ∧
    (∀ p dq, alookup p b.sell.levels = some dq → dq ≠ [] →
        alookup p (clean_sell_heap b).sell.levels = some dq ∧
        alookup p (clean_sell_heap b).sell.vol = alookup p b.sell.vol) ∧
    (∀ k, k ∈ b.buy.heap → k ∉ (clean_buy_heap b).buy.heap →
        deadLevel b.buy.levels (priceOf true k)) ∧
    (∀ k, k ∈ b.sell.heap → k ∉ (clean_sell_heap b).sell.heap →
        deadLevel b.sell.levels (priceOf false k)) ∧
    (clean_buy_heap b).sell = b.sell ∧
    (clean_sell_heap b).buy = b.buy ∧
    (best_buy_price b).1 = clean_buy_heap b ∧
    (best_sell_price b).1 = clean_sell_heap b ∧
    (∀ p dq, alookup p b.buy.levels = some dq → dq ≠ [] →
        alookup p (snapshot b 5).1.buy.levels = some dq) ∧
    (∀ p dq, alookup p b.sell.levels = some dq → dq ≠ [] →
        alookup p (snapshot b 5).1.sell.levels = some dq) := by
  obtain ⟨B1, B2, -, -, -, -⟩ := cleanHeap_spec true b.buy
  obtain ⟨S1, S2, -, -, -, -⟩ := cleanHeap_spec false b.sell
  refine ⟨rfl, rfl, rfl, ?_, ?_, ?_, ?_, rfl, rfl, rfl, rfl, ?_, ?_⟩
  · intro p dq hp hne
    exact ⟨(B1 p dq hp hne).1, (B1 p dq hp hne).2.1⟩
  · intro p dq hp hne
    exact ⟨(S1 p dq hp hne).1, (S1 p dq hp hne).2.1⟩
  · exact B2
  · exact S2
  · intro p dq hp hne
    have h1 := (B1 p dq hp hne).1
    exact h1
  · intro p dq hp hne
    have h2 : alookup p (clean_buy_heap b).sell.levels = some dq := hp
    obtain ⟨T1, -, -, -, -, -⟩ := cleanHeap_spec false (clean_buy_heap b).sell
    exact (T1 p dq h2 hne).1

theorem clean_heaps_frame_witness :
    alookup 50 (clean_buy_heap
        ⟨⟨[(50, [⟨1, 1, 50, 5, 5⟩])], [-50], [50], [(50, 5)]⟩, ⟨[], [], [], []⟩,
          [(1, ⟨1, 1, 50, 5, 5⟩)]⟩).buy.levels = some [⟨1, 1, 50, 5, 5⟩] :=
  ((clean_heaps_frame
        ⟨⟨[(50, [⟨1, 1, 50, 5, 5⟩])], [-50], [50], [(50, 5)]⟩, ⟨[], [], [], []⟩,
          [(1, ⟨1, 1, 50, 5, 5⟩)]⟩).2.2.2.1 50 [⟨1, 1, 50, 5, 5⟩] rfl (by simp)).1

/-- C2 counterexample: `modify` never re-matches, so after
`place ASK id=1 100.00/5; place BID id=2 99.00/5; modify id=2 → 101.00` the
book is at rest with both sides non-empty and best bid 101.00 above best ask
100.00, refuting the no-cross claim for sequences containing `modify`. -/
theorem no_cross_cex :
    ∃ st : OrderBook,
      run [.place 1 (-1) 100 5, .place 2 1 99 5, .modify 2 101] = some (st, []) ∧
        (best_buy_price st).2 = some 101 ∧ (best_sell_price st).2 = some 100 ∧
        ¬(101 : ℚ) < 100 := by
  refine ⟨⟨⟨[(101, [⟨2, 1, 101, 5, 5⟩])], [-101, -99], [101, 99], [(99, 0), (101, 5)]⟩,
    ⟨[(100, [⟨1, -1, 100, 5, 5⟩])], [100], [100], [(100, 5)]⟩,
    [(1, ⟨1, -1, 100, 5, 5⟩), (2, ⟨2, 1, 101, 5, 5⟩)]⟩, ?_⟩
  refine ⟨by decide, by decide, by decide, by norm_num⟩

/-- C6 counterexample: after `place BID id=1 20.00/5; place BID id=2
10.00/5; cancel id=2` the snapshot materializes the stale price 10.00 with
quantity 0 even though no level lives there, so snapshot entries do not all
correspond to live non-empty levels and the materialized prices are not the
domain of the levels mapping. -/
theorem snapshot_cex :
    ∃ st st' : OrderBook,
      run [.place 1 1 20 5, .place 2 1 10 5, .cancel 2] = some (st, []) ∧
        snapshot st 5 = (st', [(20, 5), (10, 0)], []) ∧
        alookup 10 st'.buy.levels = none := by
  refine ⟨⟨⟨[(20, [⟨1, 1, 20, 5, 5⟩])], [-20, -10], [10, 20], [(20, 5), (10, 0)]⟩,
    ⟨[], [], [], []⟩, [(1, ⟨1, 1, 20, 5, 5⟩)]⟩,
    ⟨⟨[(20, [⟨1, 1, 20, 5, 5⟩])], [-20, -10], [10, 20], [(20, 5), (10, 0)]⟩,
    ⟨[], [], [], []⟩, [(1, ⟨1, 1, 20, 5, 5⟩)]⟩, ?_⟩
  refine ⟨by decide, by decide, by decide⟩

/-! ## Conservation: arithmetic of attributed trade quantities -/

theorem tq_nil (id : Nat) : tq id [] = 0 := rfl

theorem tq_append (id : Nat) (a b : List Trade) :
    tq id (a ++ b) = tq id a + tq id b := by
  simp [tq, List.filter_append]

theorem tq_cons (id : Nat) (t : Trade) (ts : List Trade) :
    tq id (t :: ts) = (if tradeInvolves id t then t.qty else 0) + tq id ts := by
  by_cases h : tradeInvolves id t
  · simp [tq, List.filter_cons, h]
  · simp [tq, List.filter_cons, h]

theorem sumQty_nil : sumQty [] = 0 := rfl

theorem sumQty_cons (t : Trade) (ts : List Trade) :
    sumQty (t :: ts) = t.qty + sumQty ts := by
  simp [sumQty]

theorem tq_eq_zero {id : Nat} {ts : List Trade}
    (h : ∀ t ∈ ts, tradeInvolves id t = false) : tq id ts = 0 := by
  induction ts with
  | nil => rfl
  | cons t ts ih =>
    rw [tq_cons, h t (List.mem_cons_self ..), ih fun t' ht' => h t' (List.mem_cons_of_mem _ ht')]
    simp

theorem tq_eq_sumQty {id : Nat} {ts : List Trade}
    (h : ∀ t ∈ ts, tradeInvolves id t = true) : tq id ts = sumQty ts := by
  induction ts with
  | nil => rfl
  | cons t ts ih =>
    rw [tq_cons, sumQty_cons, h t (List.mem_cons_self ..),
      ih fun t' ht' => h t' (List.mem_cons_of_mem _ ht')]
    simp

theorem tradeInvolves_of_bid {id : Nat} {t : Trade} (h : t.bid_order_id = id) :
    tradeInvolves id t = true := by
  simp [tradeInvolves, h]

theorem tradeInvolves_of_ask {id : Nat} {t : Trade} (h : t.ask_order_id = id) :
    tradeInvolves id t = true := by
  simp [tradeInvolves, h]

theorem tradeInvolves_false {id : Nat} {t : Trade}
    (hb : t.bid_order_id ≠ id) (ha : t.ask_order_id ≠ id) :
    tradeInvolves id t = false := by
  simp [tradeInvolves, hb, ha]

/-! ## Conservation: further association-list lemmas -/

section ConsDict

variable {κ α : Type} [DecidableEq κ]

theorem alookup_apop_self_nodup {k : κ} :
    ∀ {l : List (κ × α)}, keysNodup l → alookup k (apop k l) = none
  | [], _ => rfl
  | (k0, v0) :: t, hn => by
    have hn' : keysNodup t := (List.nodup_cons.mp hn).2
    by_cases h0 : k0 = k
    · subst h0
      have hap : apop k0 ((k0, v0) :: t) = t := by simp [apop]
      rw [hap]
      rcases hx : alookup k0 t with _ | v
      · rfl
      · exact absurd (List.mem_map.mpr ⟨_, alookup_mem hx, rfl⟩) (List.nodup_cons.mp hn).1
    · simp only [apop, if_neg h0, alookup, if_neg h0]
      exact alookup_apop_self_nodup hn'

theorem alookup_apop_nodup {id k : κ} {o : α} {l : List (κ × α)}
    (hn : keysNodup l) (h : alookup id (apop k l) = some o) : alookup id l = some o := by
  by_cases hik : id = k
  · subst hik
    rw [alookup_apop_self_nodup hn] at h
    exact Option.noConfusion h
  · rw [alookup_apop_ne l (Ne.symm hik)] at h
    exact h

theorem mem_apop_of_ne {k : κ} {e : κ × α} :
    ∀ {l : List (κ × α)}, e ∈ l → e.1 ≠ k → e ∈ apop k l
  | (k0, v0) :: t, he, hne => by
    rcases List.mem_cons.mp he with rfl | he
    · simp only [apop, if_neg hne]
      exact List.mem_cons_self ..
    · by_cases h0 : k0 = k
      · simp only [apop, if_pos h0]
        exact he
      · simp only [apop, if_neg h0]
        exact List.mem_cons_of_mem _ (mem_apop_of_ne he hne)

end ConsDict

/-- Decomposition of the resting orders around a stored level: lookup
success splits the book-order list of orders into the parts before and after
that level, and `apop` / `aset` act on the middle part. -/
theorem ordersOfLevels_split {p : ℚ} {dq : List Order} :
    ∀ {l : List (ℚ × List Order)}, alookup p l = some dq →
      ∃ A B, ordersOfLevels l = A ++ dq ++ B ∧
        ordersOfLevels (apop p l) = A ++ B ∧
        ∀ dq', ordersOfLevels (aset p dq' l) = A ++ dq' ++ B
  | (k0, v0) :: t, h => by
    by_cases h0 : k0 = p
    · subst h0
      rw [alookup, if_pos rfl] at h
      obtain rfl : v0 = dq := Option.some.inj h
      refine ⟨[], ordersOfLevels t, by simp [ordersOfLevels_cons], ?_, ?_⟩
      · have hap : apop k0 ((k0, v0) :: t) = t := by simp [apop]
        rw [hap, List.nil_append]
      · intro dq'
        simp [aset, ordersOfLevels_cons]
    · rw [alookup, if_neg h0] at h
      obtain ⟨A, B, h1, h2, h3⟩ := ordersOfLevels_split h
      refine ⟨v0 ++ A, B, ?_, ?_, ?_⟩
      · rw [ordersOfLevels_cons, h1]
        simp
      · rw [apop, if_neg h0, ordersOfLevels_cons, h2]
        simp
      · intro dq'
        rw [aset, if_neg h0, ordersOfLevels_cons, h3 dq']
        simp

/-- `aset` at an absent key appends the new level at the tail. -/
theorem ordersOfLevels_aset_none {p : ℚ} {dq' : List Order} :
    ∀ {l : List (ℚ × List Order)}, alookup p l = none →
      ordersOfLevels (aset p dq' l) = ordersOfLevels l ++ dq'
  | [], _ => by simp [aset, ordersOfLevels]
  | (k0, v0) :: t, h => by
    by_cases h0 : k0 = p
    · rw [alookup, if_pos h0] at h
      exact Option.noConfusion h
    · rw [alookup, if_neg h0] at h
      rw [aset, if_neg h0, ordersOfLevels_cons, ordersOfLevels_cons,
        ordersOfLevels_aset_none h]
      simp

/-- Membership in the flattened list of resting orders. -/
theorem mem_ordersOfLevels_of_mem {o : Order} {e : ℚ × List Order}
    {l : List (ℚ × List Order)} (he : e ∈ l) (ho : o ∈ e.2) :
    o ∈ ordersOfLevels l := by
  simp only [ordersOfLevels, List.mem_flatten]
  exact ⟨e.2, List.mem_map.mpr ⟨e, he, rfl⟩, ho⟩

theorem mem_ordersOfLevels_elim {o : Order} {l : List (ℚ × List Order)}
    (h : o ∈ ordersOfLevels l) : ∃ e ∈ l, o ∈ e.2 := by
  simp only [ordersOfLevels, List.mem_flatten, List.mem_map] at h
  obtain ⟨dq, ⟨e, he, hdq⟩, ho⟩ := h
  exact ⟨e, he, by rw [hdq]; exact ho⟩

/-- Conservation anatomy of one trading iteration: the resting order traded
against is aliased in the index, the trade and the index update are stamped
with its id and quantities, the opposite side's resting ids only shrink, and
the aliasing survives. -/
theorem matchStep_cont_consInv {isBuy : Bool} {incId : Nat} {incPrice : ℚ}
    {rem : Nat} {opp opp3 : SideBook}
    {idx idx2 : List (Nat × Order)} {tr : Trade} {rem2 : Nat}
    (h : matchStep isBuy incId incPrice rem opp idx = .cont tr rem2 opp3 idx2)
    (hinv : SideInv (!isBuy) opp)
    (halign : AlignSide (!isBuy) opp idx)
    (hnodup : (levelIds opp).Nodup) :
    ∃ resting : Order,
      alookup resting.id idx = some resting ∧
      resting.id ∈ levelIds opp ∧
      tr = mkTrade isBuy resting.price (min rem resting.remaining) incId resting.id ∧
      rem2 = rem - min rem resting.remaining ∧
      idx2 = (if resting.remaining - min rem resting.remaining = 0 then apop resting.id idx
        else aset resting.id
          { resting with remaining := resting.remaining - min rem resting.remaining } idx) ∧
      List.Sublist (levelIds opp3) (levelIds opp) ∧
      AlignSide (!isBuy) opp3 idx2 := by
  obtain ⟨k, resting, dqrest, h2, hk, hc, hlook, htr, hrem2, hopp3, hidx2⟩ := matchStep_cont_inv h
  obtain ⟨hinv1, hlv1⟩ := cleanHeap_sideInv hinv
  rw [hlv1] at hlook
  have hkn : keysNodup opp.levels := hinv.2.1
  have hmem0 : (priceOf (!isBuy) k, resting :: dqrest) ∈ opp.levels := alookup_mem hlook
  have halv := halign _ hmem0
  obtain ⟨hrside, hrprice, hridx⟩ := halv resting (List.mem_cons_self ..)
  obtain ⟨A, B, hAB, hapop, haset⟩ := ordersOfLevels_split hlook
  have hnodup2 : (A.map Order.id ++
      (resting.id :: (dqrest.map Order.id ++ B.map Order.id))).Nodup := by
    have : levelIds opp = A.map Order.id ++
        (resting.id :: (dqrest.map Order.id ++ B.map Order.id)) := by
      rw [levelIds, hAB]
      simp [List.map_append]
    rw [this] at hnodup
    exact hnodup
  have hsplit := List.nodup_append.mp hnodup2
  have hnotinA : resting.id ∉ A.map Order.id := fun hm =>
    hsplit.2.2 hm (List.mem_cons_self ..)
  have hnotinDB : resting.id ∉ dqrest.map Order.id ++ B.map Order.id :=
    (List.nodup_cons.mp hsplit.2.1).1
  have hne_of_mid : ∀ o' : Order, o' ∈ A ∨ o' ∈ dqrest ∨ o' ∈ B → o'.id ≠ resting.id := by
    intro o' ho' he
    rcases ho' with ho' | ho' | ho'
    · exact hnotinA (List.mem_map.mpr ⟨o', ho', he.symm ▸ rfl⟩)
    · exact hnotinDB (List.mem_append.mpr (Or.inl (List.mem_map.mpr ⟨o', ho', he.symm ▸ rfl⟩)))
    · exact hnotinDB (List.mem_append.mpr (Or.inr (List.mem_map.mpr ⟨o', ho', he.symm ▸ rfl⟩)))
  have hlookup2 : ∀ o' : Order, o'.id ≠ resting.id → alookup o'.id idx = some o' →
      alookup o'.id idx2 = some o' := by
    intro o' hne hl
    rw [hidx2]
    by_cases h0 : resting.remaining - min rem resting.remaining = 0
    · rw [if_pos h0, alookup_apop_ne idx (Ne.symm hne)]
      exact hl
    · rw [if_neg h0, alookup_aset_ne _ idx (Ne.symm hne)]
      exact hl
  have hmidAB : ∀ o' : Order, o' ∈ ordersOfLevels (apop (priceOf (!isBuy) k) opp.levels) →
      o' ∈ A ∨ o' ∈ dqrest ∨ o' ∈ B := by
    intro o' ho'
    rw [hapop] at ho'
    rcases List.mem_append.mp ho' with ho' | ho'
    · exact Or.inl ho'
    · exact Or.inr (Or.inr ho')
  refine ⟨resting, hridx, ?_, htr, hrem2, hidx2, ?_, ?_⟩
  · exact List.mem_map.mpr ⟨resting,
      mem_ordersOfLevels_of_mem hmem0 (List.mem_cons_self ..), rfl⟩
  · rw [levelIds, levelIds, hAB]
    by_cases h0 : resting.remaining - min rem resting.remaining = 0
    · by_cases hdq : dqrest = []
      · have hlv3 : opp3.levels = apop (priceOf (!isBuy) k) opp.levels := by
          rw [hopp3]
          simp [h0, hdq, hlv1]
        rw [hlv3, hapop, hdq]
        simp only [List.map_append, List.map_cons, List.map_nil, List.nil_append,
          List.append_assoc, List.cons_append]
        exact List.Sublist.append_left (List.sublist_cons_self ..) _
      · have hlv3 : opp3.levels = aset (priceOf (!isBuy) k) dqrest opp.levels := by
          rw [hopp3]
          simp [h0, hdq, hlv1]
        rw [hlv3, haset]
        simp only [List.map_append, List.map_cons, List.append_assoc, List.cons_append]
        exact List.Sublist.append_left (List.sublist_cons_self ..) _
    · have hlv3 : opp3.levels = aset (priceOf (!isBuy) k)
          ({ resting with remaining := resting.remaining - min rem resting.remaining } :: dqrest)
          opp.levels := by
        rw [hopp3]
        simp [h0, hlv1]
      rw [hlv3, haset]
      simp only [List.map_append, List.map_cons]
      exact List.Sublist.refl _
  · intro e he o ho
    by_cases h0 : resting.remaining - min rem resting.remaining = 0
    · by_cases hdq : dqrest = []
      · have hlv3 : opp3.levels = apop (priceOf (!isBuy) k) opp.levels := by
          rw [hopp3]
          simp [h0, hdq, hlv1]
        rw [hlv3] at he
        obtain ⟨hos, hop, hol⟩ := halign e (mem_apop he) o ho
        refine ⟨hos, hop, ?_⟩
        refine hlookup2 o ?_ hol
        exact hne_of_mid o (hmidAB o (mem_ordersOfLevels_of_mem he ho))
      · have hlv3 : opp3.levels = aset (priceOf (!isBuy) k) dqrest opp.levels := by
          rw [hopp3]
          simp [h0, hdq, hlv1]
        rw [hlv3] at he
        rcases mem_aset_nodup hkn he with rfl | ⟨he2, hne2⟩
        · obtain ⟨hos, hop, hol⟩ := halv o (List.mem_cons_of_mem _ ho)
          exact ⟨hos, hop, hlookup2 o (hne_of_mid o (Or.inr (Or.inl ho))) hol⟩
        · obtain ⟨hos, hop, hol⟩ := halign e he2 o ho
          refine ⟨hos, hop, hlookup2 o ?_ hol⟩
          refine hne_of_mid o (hmidAB o ?_)
          exact mem_ordersOfLevels_of_mem (mem_apop_of_ne he2 hne2) ho
    · have hlv3 : opp3.levels = aset (priceOf (!isBuy) k)
          ({ resting with remaining := resting.remaining - min rem resting.remaining } :: dqrest)
          opp.levels := by
        rw [hopp3]
        simp [h0, hlv1]
      rw [hlv3] at he
      rcases mem_aset_nodup hkn he with rfl | ⟨he2, hne2⟩
      · rcases List.mem_cons.mp ho with rfl | ho2
        · refine ⟨hrside, hrprice, ?_⟩
          rw [hidx2, if_neg h0]
          exact alookup_aset_self ..
        · obtain ⟨hos, hop, hol⟩ := halv o (List.mem_cons_of_mem _ ho2)
          exact ⟨hos, hop, hlookup2 o (hne_of_mid o (Or.inr (Or.inl ho2))) hol⟩
      · obtain ⟨hos, hop, hol⟩ := halign e he2 o ho
        refine ⟨hos, hop, hlookup2 o ?_ hol⟩
        refine hne_of_mid o (hmidAB o ?_)
        exact mem_ordersOfLevels_of_mem (mem_apop_of_ne he2 hne2) ho

theorem mkTrade_inc (isBuy : Bool) (p : ℚ) (q i r : Nat) :
    (if isBuy then (mkTrade isBuy p q i r).bid_order_id
     else (mkTrade isBuy p q i r).ask_order_id) = i := by
  cases isBuy <;> rfl

theorem mkTrade_rest (isBuy : Bool) (p : ℚ) (q i r : Nat) :
    (if isBuy then (mkTrade isBuy p q i r).ask_order_id
     else (mkTrade isBuy p q i r).bid_order_id) = r := by
  cases isBuy <;> rfl

theorem mkTrade_involves_rest (isBuy : Bool) (p : ℚ) (q i r : Nat) :
    tradeInvolves r (mkTrade isBuy p q i r) = true := by
  cases isBuy <;> simp [mkTrade, tradeInvolves]

theorem mkTrade_not_involves {id i r : Nat} (isBuy : Bool) (p : ℚ) (q : Nat)
    (hi : id ≠ i) (hr : id ≠ r) :
    tradeInvolves id (mkTrade isBuy p q i r) = false := by
  cases isBuy <;> simp [mkTrade, tradeInvolves, Ne.symm hi, Ne.symm hr]

/-- Conservation through the whole matching loop: trades account exactly for
the lost incoming quantity, each trade names the incoming id on the
incoming's side and a resting opposite id on the other side, the opposite
resting ids only shrink, index entries away from the opposite side are
untouched, every surviving index entry other than the incoming id lost
exactly its attributed trade quantity, and the aliasing, key distinctness
and id-consistency of the index survive. -/
theorem matchLoop_consInv {isBuy : Bool} {incId : Nat} {incPrice : ℚ} :
    ∀ (fuel rem : Nat) (opp : SideBook) (idx : List (Nat × Order))
      (ts : List Trade) (rem' : Nat) (opp' : SideBook) (idx' : List (Nat × Order)),
      matchLoop isBuy incId incPrice fuel rem opp idx = some (ts, rem', opp', idx') →
      SideInv (!isBuy) opp →
      AlignSide (!isBuy) opp idx →
      (levelIds opp).Nodup →
      keysNodup idx →
      (∀ id o, alookup id idx = some o → o.id = id) →
      (rem' + sumQty ts = rem) ∧
      (∀ t ∈ ts, (if isBuy then t.bid_order_id else t.ask_order_id) = incId) ∧
      (∀ t ∈ ts, (if isBuy then t.ask_order_id else t.bid_order_id) ∈ levelIds opp) ∧
      List.Sublist (levelIds opp') (levelIds opp) ∧
      (∀ id, id ∉ levelIds opp → alookup id idx' = alookup id idx) ∧
      (∀ id, id ≠ incId → ∀ o', alookup id idx' = some o' →
        ∃ o0, alookup id idx = some o0 ∧ o'.id = o0.id ∧ o'.side = o0.side ∧
          o'.price = o0.price ∧ o'.orig_qty = o0.orig_qty ∧
          o'.remaining + tq id ts = o0.remaining) ∧
      AlignSide (!isBuy) opp' idx' ∧
      keysNodup idx' ∧
      (∀ id o, alookup id idx' = some o → o.id = id)
  | 0, rem, opp, idx => by
    intro ts rem' opp' idx' h hinv halign hnodup hkidx hidfun
    exact Option.noConfusion h
  | fuel + 1, 0, opp, idx => by
    intro ts rem' opp' idx' h hinv halign hnodup hkidx hidfun
    obtain ⟨f1, f2, f3, f4⟩ :
        ([] : List Trade) = ts ∧ (0 : Nat) = rem' ∧ opp = opp' ∧ idx = idx' := by
      simpa [matchLoop, Prod.ext_iff, and_assoc] using h
    subst f1; subst f2; subst f3; subst f4
    refine ⟨rfl, by simp, by simp, List.Sublist.refl _, fun id _ => rfl, ?_, halign,
      hkidx, hidfun⟩
    intro id hne o' h'
    exact ⟨o', h', rfl, rfl, rfl, rfl, by simp [tq_nil]⟩
  | fuel + 1, rem + 1, opp, idx => by
    intro ts rem' opp' idx' h hinv halign hnodup hkidx hidfun
    rcases hms : matchStep isBuy incId incPrice (rem + 1) opp idx with
      sb1 | _ | ⟨tr, rem2, opp3, idx2⟩
    · simp only [matchLoop, hms] at h
      obtain ⟨f1, f2, f3, f4⟩ :
          ([] : List Trade) = ts ∧ rem + 1 = rem' ∧ sb1 = opp' ∧ idx = idx' := by
        simpa [Prod.ext_iff, and_assoc] using h
      subst f1; subst f2; subst f3; subst f4
      obtain ⟨hsb1, -⟩ := matchStep_stop_inv hms
      have hlvs : sb1.levels = opp.levels := by
        rw [hsb1]
        exact (cleanHeap_sideInv hinv).2
      have hlid : levelIds sb1 = levelIds opp := by
        rw [levelIds, levelIds, hlvs]
      refine ⟨by simp [sumQty_nil], by simp, by simp, by rw [hlid], fun id _ => rfl, ?_, ?_,
        hkidx, hidfun⟩
      · intro id hne o' h'
        exact ⟨o', h', rfl, rfl, rfl, rfl, by simp [tq_nil]⟩
      · intro e he o ho
        rw [hlvs] at he
        exact halign e he o ho
    · simp only [matchLoop, hms] at h
      exact Option.noConfusion h
    · simp only [matchLoop, hms] at h
      rcases hml : matchLoop isBuy incId incPrice fuel rem2 opp3 idx2 with
        _ | ⟨ts0, remF, oppF, idxF⟩
      · rw [hml] at h
        exact Option.noConfusion h
      · rw [hml] at h
        obtain ⟨f1, f2, f3, f4⟩ :
            tr :: ts0 = ts ∧ remF = rem' ∧ oppF = opp' ∧ idxF = idx' := by
          simpa [Prod.ext_iff, and_assoc] using h
        subst f1; subst f2; subst f3; subst f4
        obtain ⟨resting, hridx, hrmem, htr, hrem2, hidx2, hsub3, halign3⟩ :=
          matchStep_cont_consInv hms hinv halign hnodup
        have hinv3 : SideInv (!isBuy) opp3 := (matchStep_cont_sideInv hms hinv).1
        have hnodup3 : (levelIds opp3).Nodup := List.Pairwise.sublist hsub3 hnodup
        have hkidx2 : keysNodup idx2 := by
          rw [hidx2]
          by_cases h0 : resting.remaining - min (rem + 1) resting.remaining = 0
          · rw [if_pos h0]
            exact keysNodup_apop _ hkidx
          · rw [if_neg h0]
            exact keysNodup_aset _ _ hkidx
        have hframe2 : ∀ id, id ≠ resting.id → alookup id idx2 = alookup id idx := by
          intro id hne
          rw [hidx2]
          by_cases h0 : resting.remaining - min (rem + 1) resting.remaining = 0
          · rw [if_pos h0, alookup_apop_ne idx (Ne.symm hne)]
          · rw [if_neg h0, alookup_aset_ne _ idx (Ne.symm hne)]
        have hidfun2 : ∀ id o, alookup id idx2 = some o → o.id = id := by
          intro id o h'
          by_cases hne : id = resting.id
          · subst hne
            rw [hidx2] at h'
            by_cases h0 : resting.remaining - min (rem + 1) resting.remaining = 0
            · rw [if_pos h0, alookup_apop_self_nodup hkidx] at h'
              exact Option.noConfusion h'
            · rw [if_neg h0, alookup_aset_self ..] at h'
              rw [← Option.some.inj h']
          · rw [hframe2 id hne] at h'
            exact hidfun id o h'
        obtain ⟨g1, g2, g3, g4, g5, g6, g7, g8, g9⟩ :=
          matchLoop_consInv fuel rem2 opp3 idx2 ts0 remF oppF idxF hml hinv3 halign3
            hnodup3 hkidx2 hidfun2
        have htrq : tr.qty = min (rem + 1) resting.remaining := by
          rw [htr, mkTrade_qty]
        have hminle : min (rem + 1) resting.remaining ≤ rem + 1 := Nat.min_le_left ..
        have hminler : min (rem + 1) resting.remaining ≤ resting.remaining := Nat.min_le_right ..
        refine ⟨?_, ?_, ?_, g4.trans hsub3, ?_, ?_, g7, g8, g9⟩
        · rw [sumQty_cons, htrq]
          omega
        · intro t ht
          rcases List.mem_cons.mp ht with rfl | ht
          · rw [htr]
            exact mkTrade_inc ..
          · exact g2 t ht
        · intro t ht
          rcases List.mem_cons.mp ht with rfl | ht
          · rw [htr, mkTrade_rest]
            exact hrmem
          · exact hsub3.subset (g3 t ht)
        · intro id hid
          rw [g5 id (fun hm => hid (hsub3.subset hm))]
          exact hframe2 id (fun he => hid (he ▸ hrmem))
        · intro id hne o' h'
          obtain ⟨o1, ho1, e1, e2, e3, e4, e5⟩ := g6 id hne o' h'
          by_cases hrid : id = resting.id
          · subst hrid
            rw [hidx2] at ho1
            by_cases h0 : resting.remaining - min (rem + 1) resting.remaining = 0
            · rw [if_pos h0, alookup_apop_self_nodup hkidx] at ho1
              exact Option.noConfusion ho1
            · rw [if_neg h0, alookup_aset_self ..] at ho1
              obtain rfl := Option.some.inj ho1
              refine ⟨resting, hridx, e1, e2, e3, e4, ?_⟩
              rw [tq_cons, htr, mkTrade_involves_rest]
              simp only [if_true]
              rw [mkTrade_qty]
              simp only at e5
              omega
          · rw [hframe2 id hrid] at ho1
            refine ⟨o1, ho1, e1, e2, e3, e4, ?_⟩
            rw [tq_cons, htr, mkTrade_not_involves isBuy _ _ hne hrid]
            simp only [Bool.false_eq_true, if_false]
            omega

/-- Per-order decomposition of `_add_to_book`'s side action: every order of
the result is the inserted one (at its own price) or an order of the
original side at an unchanged level key, and the resting ids gain exactly
the inserted id. -/
theorem addToSide_orders {neg : Bool} {sb : SideBook} {o : Order}
    (hkn : keysNodup sb.levels) :
    (∀ e' ∈ (addToSide neg sb o).levels, ∀ o' ∈ e'.2,
      (o' = o ∧ e'.1 = o.price) ∨ (∃ e ∈ sb.levels, e.1 = e'.1 ∧ o' ∈ e.2)) ∧
    List.Perm (levelIds (addToSide neg sb o)) (o.id :: levelIds sb) := by
  rcases hl : alookup o.price sb.levels with _ | dq0
  · have hlv : (addToSide neg sb o).levels = aset o.price [o] sb.levels := by
      unfold addToSide
      simp only [hl, Option.isNone_none, if_true]
      rw [ensurePrice_levels, alookup_aset_self, aset_aset]
      rfl
    constructor
    · intro e' he' o' ho'
      rw [hlv] at he'
      rcases mem_aset_nodup hkn he' with rfl | ⟨he2, -⟩
      · obtain rfl : o' = o := by simpa using ho'
        exact Or.inl ⟨rfl, rfl⟩
      · exact Or.inr ⟨e', he2, rfl, ho'⟩
    · have h1 : levelIds (addToSide neg sb o) = levelIds sb ++ [o.id] := by
        rw [levelIds, hlv, ordersOfLevels_aset_none hl, levelIds]
        simp
      rw [h1]
      refine List.Perm.trans (List.perm_append_comm ..) ?_
      simp
  · obtain ⟨A, B, hAB, hapop, haset⟩ := ordersOfLevels_split hl
    have hlv : (addToSide neg sb o).levels = aset o.price (dq0 ++ [o]) sb.levels := by
      unfold addToSide
      simp only [hl, Option.isNone_some, Bool.false_eq_true, if_neg, not_false_iff]
      rfl
    constructor
    · intro e' he' o' ho'
      rw [hlv] at he'
      rcases mem_aset_nodup hkn he' with rfl | ⟨he2, -⟩
      · rcases List.mem_append.mp ho' with ho2 | ho2
        · exact Or.inr ⟨(o.price, dq0), alookup_mem hl, rfl, ho2⟩
        · obtain rfl : o' = o := by simpa using ho2
          exact Or.inl ⟨rfl, rfl⟩
      · exact Or.inr ⟨e', he2, rfl, ho'⟩
    · have h1 : levelIds (addToSide neg sb o) =
          (A.map Order.id ++ dq0.map Order.id) ++ (o.id :: B.map Order.id) := by
        rw [levelIds, hlv, haset]
        simp [List.map_append]
      have h2 : (o.id :: levelIds sb) =
          o.id :: ((A.map Order.id ++ dq0.map Order.id) ++ B.map Order.id) := by
        rw [levelIds, hAB]
        simp [List.map_append]
      rw [h1, h2]
      exact List.perm_middle

/-- Per-order decomposition of the removal block of `cancel`/`modify`: with
distinct level keys, duplicate-free resting ids, and price-aligned levels,
every surviving order differs from the removed one and comes from an
unchanged level key, and the resting ids only shrink. -/
theorem cancelSide_orders {sb : SideBook} {o : Order}
    (hkn : keysNodup sb.levels)
    (hnid : (levelIds sb).Nodup)
    (halp : ∀ e ∈ sb.levels, ∀ o' ∈ e.2, o'.price = e.1) :
    (∀ e' ∈ (cancelSide sb o).levels, ∀ o' ∈ e'.2,
      o' ≠ o ∧ ∃ e ∈ sb.levels, e.1 = e'.1 ∧ o' ∈ e.2) ∧
    List.Sublist (levelIds (cancelSide sb o)) (levelIds sb) := by
  have hnotat : ∀ e ∈ sb.levels, e.1 ≠ o.price → ∀ o' ∈ e.2, o' ≠ o := by
    intro e he hne o' ho' heq
    exact hne (by rw [← halp e he o' ho', heq])
  rcases hl : alookup o.price sb.levels with _ | dq
  · have hc : cancelSide sb o = sb := by
      unfold cancelSide
      simp only [hl]
    rw [hc]
    refine ⟨?_, List.Sublist.refl _⟩
    intro e' he' o' ho'
    refine ⟨?_, e', he', rfl, ho'⟩
    intro heq
    have hp : o'.price = e'.1 := halp e' he' o' ho'
    rw [heq] at hp
    have h2 : alookup e'.1 sb.levels = some e'.2 := alookup_eq_of_mem_nodup hkn he'
    rw [← hp, hl] at h2
    exact Option.noConfusion h2
  · obtain ⟨A, B, hAB, hapop, haset⟩ := ordersOfLevels_split hl
    have hmem0 : (o.price, dq) ∈ sb.levels := alookup_mem hl
    have hNdq : dq.Nodup := by
      have h1 : (levelIds sb).Nodup := hnid
      rw [levelIds, hAB] at h1
      simp only [List.map_append] at h1
      have h2 : (dq.map Order.id).Nodup :=
        (List.Nodup.of_append_left (List.Nodup.of_append_right
          (by simpa [List.append_assoc] using h1)))
      exact h2.of_map _
    by_cases hdq : dq = []
    · have hc : cancelSide sb o = sb := by
        unfold cancelSide
        simp only [hl, hdq, if_true, eq_self_iff_true]
      rw [hc]
      refine ⟨?_, List.Sublist.refl _⟩
      intro e' he' o' ho'
      refine ⟨?_, e', he', rfl, ho'⟩
      intro heq
      by_cases hep : e'.1 = o.price
      · have h2 : alookup e'.1 sb.levels = some e'.2 := alookup_eq_of_mem_nodup hkn he'
        rw [hep, hl] at h2
        obtain rfl := Option.some.inj h2
        rw [hdq] at ho'
        exact (List.not_mem_nil o') ho'
      · exact hnotat e' he' hep o' ho' heq
    · by_cases hmem : o ∈ dq
      · by_cases herase : dq.erase o = []
        · have hc : cancelSide sb o = { sb with
              levels := apop o.price sb.levels
              vol := aset o.price
                (max 0 ((alookup o.price sb.vol).getD 0 - (o.remaining : Int))) sb.vol } := by
            unfold cancelSide
            simp only [hl, if_neg hdq, if_pos hmem, herase, if_true, eq_self_iff_true]
          rw [hc]
          constructor
          · intro e' he' o' ho'
            have he2 : e' ∈ sb.levels := mem_apop he'
            refine ⟨?_, e', he2, rfl, ho'⟩
            intro heq
            by_cases hep : e'.1 = o.price
            · have hkn2 : keysNodup (apop o.price sb.levels) := keysNodup_apop _ hkn
              have h2 : alookup e'.1 (apop o.price sb.levels) = some e'.2 :=
                alookup_eq_of_mem_nodup hkn2 he'
              rw [hep, alookup_apop_self_nodup hkn] at h2
              exact Option.noConfusion h2
            · exact hnotat e' he2 hep o' ho' heq
          · rw [levelIds, levelIds, hapop, hAB]
            simp only [List.map_append]
            refine List.Sublist.append ?_ (List.Sublist.refl _)
            exact List.sublist_append_left ..
        · have hc : cancelSide sb o = { sb with
              levels := aset o.price (dq.erase o) sb.levels
              vol := aset o.price
                (max 0 ((alookup o.price sb.vol).getD 0 - (o.remaining : Int))) sb.vol } := by
            unfold cancelSide
            simp only [hl, if_neg hdq, if_pos hmem, if_neg herase]
          rw [hc]
          constructor
          · intro e' he' o' ho'
            rcases mem_aset_nodup hkn he' with rfl | ⟨he2, hne2⟩
            · refine ⟨?_, (o.price, dq), hmem0, rfl, List.erase_subset _ _ ho'⟩
              intro heq
              subst heq
              exact ((List.Nodup.mem_erase_iff hNdq).mp ho').1 rfl
            · exact ⟨hnotat e' he2 hne2 o' ho', e', he2, rfl, ho'⟩
          · rw [levelIds, levelIds, haset _, hAB]
            simp only [List.map_append]
            refine List.Sublist.append ?_ (List.Sublist.refl _)
            refine List.Sublist.append_left ?_ _
            exact List.Sublist.map _ (List.erase_sublist ..)
      · have hc : cancelSide sb o = { sb with
            levels := aset o.price dq sb.levels
            vol := sb.vol } := by
          unfold cancelSide
          simp only [hl, if_neg hdq, if_neg hmem, if_neg hdq]
        rw [hc]
        constructor
        · intro e' he' o' ho'
          rcases mem_aset_nodup hkn he' with rfl | ⟨he2, hne2⟩
          · refine ⟨?_, (o.price, dq), hmem0, rfl, ho'⟩
            intro heq
            subst heq
            exact hmem ho'
          · exact ⟨hnotat e' he2 hne2 o' ho', e', he2, rfl, ho'⟩
        · rw [levelIds, levelIds, haset _, hAB]


/-- Resting level ids are placed ids: via the aliasing, each resting order
has an index entry, and the index only holds placed ids. -/
theorem levelIds_mem_placed {flag : Bool} {sb : SideBook} {idx : List (Nat × Order)}
    {placed : List Nat}
    (halign : AlignSide flag sb idx)
    (hdom : ∀ id o, alookup id idx = some o → id ∈ placed) :
    ∀ id ∈ levelIds sb, id ∈ placed := by
  intro id hid
  obtain ⟨o, ho, rfl⟩ := List.mem_map.mp hid
  obtain ⟨e, he, hoe⟩ := mem_ordersOfLevels_elim ho
  obtain ⟨-, -, hlk⟩ := halign e he o hoe
  exact hdom o.id o hlk

/-- `cancel` preserves the conservation invariant: it removes the order from
its level and from the index together and emits no trade. -/
theorem cancel_consInv {b : OrderBook} {oid : Nat} {placed : List Nat} {trP : List Trade}
    (hci : ConsInv b placed trP) :
    ConsInv (b.cancel oid).2 placed trP := by
  rcases hl : alookup oid b.orders_by_id with _ | o
  · have hc : (b.cancel oid).2 = b := by
      unfold OrderBook.cancel
      simp only [hl]
    rw [hc]
    exact hci
  · have hoid : o.id = oid := hci.idFun oid o hl
    have hsurvB : ∀ e' ∈ (cancelSide b.buy o).levels, ∀ o2 ∈ e'.2,
        o2 ≠ o ∧ ∃ e ∈ b.buy.levels, e.1 = e'.1 ∧ o2 ∈ e.2 :=
      (cancelSide_orders hci.invB.2.1 (List.Nodup.of_append_left hci.uniq)
        (fun e he o2 ho2 => (hci.alignB e he o2 ho2).2.1)).1
    have hsubB : List.Sublist (levelIds (cancelSide b.buy o)) (levelIds b.buy) :=
      (cancelSide_orders hci.invB.2.1 (List.Nodup.of_append_left hci.uniq)
        (fun e he o2 ho2 => (hci.alignB e he o2 ho2).2.1)).2
    have hsurvS : ∀ e' ∈ (cancelSide b.sell o).levels, ∀ o2 ∈ e'.2,
        o2 ≠ o ∧ ∃ e ∈ b.sell.levels, e.1 = e'.1 ∧ o2 ∈ e.2 :=
      (cancelSide_orders hci.invS.2.1 (List.Nodup.of_append_right hci.uniq)
        (fun e he o2 ho2 => (hci.alignS e he o2 ho2).2.1)).1
    have hsubS : List.Sublist (levelIds (cancelSide b.sell o)) (levelIds b.sell) :=
      (cancelSide_orders hci.invS.2.1 (List.Nodup.of_append_right hci.uniq)
        (fun e he o2 ho2 => (hci.alignS e he o2 ho2).2.1)).2
    have hBne : ∀ e ∈ b.buy.levels, ∀ o2 ∈ e.2, o2 ≠ o → o2.id ≠ oid := by
      intro e he o2 ho2 hne heq
      have hlk := (hci.alignB e he o2 ho2).2.2
      rw [heq, hl] at hlk
      exact hne (Option.some.inj hlk).symm
    have hSne : ∀ e ∈ b.sell.levels, ∀ o2 ∈ e.2, o2 ≠ o → o2.id ≠ oid := by
      intro e he o2 ho2 hne heq
      have hlk := (hci.alignS e he o2 ho2).2.2
      rw [heq, hl] at hlk
      exact hne (Option.some.inj hlk).symm
    by_cases hside : o.side = 1
    · have hSne1 : ∀ e ∈ b.sell.levels, ∀ o2 ∈ e.2, o2.id ≠ oid := by
        intro e he o2 ho2
        refine hSne e he o2 ho2 ?_
        intro heq
        exact (hci.alignS e he o2 ho2).1 (heq ▸ hside)
      have hc : (b.cancel oid).2 = { b with
          buy := cancelSide b.buy o
          orders_by_id := apop oid b.orders_by_id } := by
        unfold OrderBook.cancel
        simp only [hl]
        rw [if_pos hside]
      rw [hc]
      refine ⟨?_, keysNodup_apop _ hci.idxNodup, ?_, ?_, hci.tids, ?_, ?_, ?_,
        (cancelSide_sideInv o hci.invB).1, hci.invS⟩
      · intro id o2 h2
        exact hci.idFun id o2 (alookup_apop_nodup hci.idxNodup h2)
      · intro id o2 h2
        exact hci.dom id o2 (alookup_apop_nodup hci.idxNodup h2)
      · intro id o2 h2
        exact hci.conserv id o2 (alookup_apop_nodup hci.idxNodup h2)
      · intro e' he' o2 ho2
        obtain ⟨hne, e, he, heq1, hmem⟩ := hsurvB e' he' o2 ho2
        obtain ⟨hs, hp, hlk⟩ := hci.alignB e he o2 hmem
        refine ⟨hs, by rw [hp, heq1], ?_⟩
        rw [alookup_apop_ne _ (Ne.symm (hBne e he o2 hmem hne))]
        exact hlk
      · intro e' he' o2 ho2
        obtain ⟨hs, hp, hlk⟩ := hci.alignS e' he' o2 ho2
        refine ⟨hs, hp, ?_⟩
        rw [alookup_apop_ne _ (Ne.symm (hSne1 e' he' o2 ho2))]
        exact hlk
      · exact List.Pairwise.sublist (List.Sublist.append_right hsubB _) hci.uniq
    · have hBne1 : ∀ e ∈ b.buy.levels, ∀ o2 ∈ e.2, o2.id ≠ oid := by
        intro e he o2 ho2
        refine hBne e he o2 ho2 ?_
        intro heq
        exact absurd ((hci.alignB e he o2 ho2).1) (by rw [heq]; exact hside)
      have hc : (b.cancel oid).2 = { b with
          sell := cancelSide b.sell o
          orders_by_id := apop oid b.orders_by_id } := by
        unfold OrderBook.cancel
        simp only [hl]
        rw [if_neg hside]
      rw [hc]
      refine ⟨?_, keysNodup_apop _ hci.idxNodup, ?_, ?_, hci.tids, ?_, ?_, ?_,
        hci.invB, (cancelSide_sideInv o hci.invS).1⟩
      · intro id o2 h2
        exact hci.idFun id o2 (alookup_apop_nodup hci.idxNodup h2)
      · intro id o2 h2
        exact hci.dom id o2 (alookup_apop_nodup hci.idxNodup h2)
      · intro id o2 h2
        exact hci.conserv id o2 (alookup_apop_nodup hci.idxNodup h2)
      · intro e' he' o2 ho2
        obtain ⟨hs, hp, hlk⟩ := hci.alignB e' he' o2 ho2
        refine ⟨hs, hp, ?_⟩
        rw [alookup_apop_ne _ (Ne.symm (hBne1 e' he' o2 ho2))]
        exact hlk
      · intro e' he' o2 ho2
        obtain ⟨hne, e, he, heq1, hmem⟩ := hsurvS e' he' o2 ho2
        obtain ⟨hs, hp, hlk⟩ := hci.alignS e he o2 hmem
        refine ⟨hs, by rw [hp, heq1], ?_⟩
        rw [alookup_apop_ne _ (Ne.symm (hSne e he o2 hmem hne))]
        exact hlk
      · exact List.Pairwise.sublist (List.Sublist.append_left hsubS _) hci.uniq


/-- `modify` preserves the conservation invariant: it removes the order and
reinserts the same order (id, remaining, original quantity) at the new
price, updating level and index together, and emits no trade. -/
theorem modify_consInv {b : OrderBook} {oid : Nat} {np : ℚ} {placed : List Nat}
    {trP : List Trade} (hci : ConsInv b placed trP) :
    ConsInv (b.modify oid np).2 placed trP := by
  rcases hl : alookup oid b.orders_by_id with _ | o
  · have hc : (b.modify oid np).2 = b := by
      unfold OrderBook.modify
      simp only [hl]
    rw [hc]
    exact hci
  · have hoid : o.id = oid := hci.idFun oid o hl
    have hsurvB : ∀ e' ∈ (cancelSide b.buy o).levels, ∀ o2 ∈ e'.2,
        o2 ≠ o ∧ ∃ e ∈ b.buy.levels, e.1 = e'.1 ∧ o2 ∈ e.2 :=
      (cancelSide_orders hci.invB.2.1 (List.Nodup.of_append_left hci.uniq)
        (fun e he o2 ho2 => (hci.alignB e he o2 ho2).2.1)).1
    have hsubB : List.Sublist (levelIds (cancelSide b.buy o)) (levelIds b.buy) :=
      (cancelSide_orders hci.invB.2.1 (List.Nodup.of_append_left hci.uniq)
        (fun e he o2 ho2 => (hci.alignB e he o2 ho2).2.1)).2
    have hsurvS : ∀ e' ∈ (cancelSide b.sell o).levels, ∀ o2 ∈ e'.2,
        o2 ≠ o ∧ ∃ e ∈ b.sell.levels, e.1 = e'.1 ∧ o2 ∈ e.2 :=
      (cancelSide_orders hci.invS.2.1 (List.Nodup.of_append_right hci.uniq)
        (fun e he o2 ho2 => (hci.alignS e he o2 ho2).2.1)).1
    have hsubS : List.Sublist (levelIds (cancelSide b.sell o)) (levelIds b.sell) :=
      (cancelSide_orders hci.invS.2.1 (List.Nodup.of_append_right hci.uniq)
        (fun e he o2 ho2 => (hci.alignS e he o2 ho2).2.1)).2
    have hBne : ∀ e ∈ b.buy.levels, ∀ o2 ∈ e.2, o2 ≠ o → o2.id ≠ oid := by
      intro e he o2 ho2 hne heq
      have hlk := (hci.alignB e he o2 ho2).2.2
      rw [heq, hl] at hlk
      exact hne (Option.some.inj hlk).symm
    have hSne : ∀ e ∈ b.sell.levels, ∀ o2 ∈ e.2, o2 ≠ o → o2.id ≠ oid := by
      intro e he o2 ho2 hne heq
      have hlk := (hci.alignS e he o2 ho2).2.2
      rw [heq, hl] at hlk
      exact hne (Option.some.inj hlk).symm
    have hcBne : ∀ id ∈ levelIds (cancelSide b.buy o), id ≠ oid := by
      intro id hid
      obtain ⟨o2, ho2m, rfl⟩ := List.mem_map.mp hid
      obtain ⟨e', he', hoe⟩ := mem_ordersOfLevels_elim ho2m
      obtain ⟨hne, e, he, -, hmem⟩ := hsurvB e' he' o2 hoe
      exact hBne e he o2 hmem hne
    have hcSne : ∀ id ∈ levelIds (cancelSide b.sell o), id ≠ oid := by
      intro id hid
      obtain ⟨o2, ho2m, rfl⟩ := List.mem_map.mp hid
      obtain ⟨e', he', hoe⟩ := mem_ordersOfLevels_elim ho2m
      obtain ⟨hne, e, he, -, hmem⟩ := hsurvS e' he' o2 hoe
      exact hSne e he o2 hmem hne
    set om : Order := { o with price := norm_price np } with homdef
    have homid : om.id = oid := hoid
    by_cases hside : o.side = 1
    · have hSne1 : ∀ e ∈ b.sell.levels, ∀ o2 ∈ e.2, o2.id ≠ oid := by
        intro e he o2 ho2
        refine hSne e he o2 ho2 ?_
        intro heq
        exact (hci.alignS e he o2 ho2).1 (heq ▸ hside)
      have hc : (b.modify oid np).2 =
          add_to_book { b with buy := cancelSide b.buy o } om := by
        unfold OrderBook.modify
        simp only [hl]
        rw [if_pos hside]
      have hc2 : add_to_book { b with buy := cancelSide b.buy o } om =
          { b with
            buy := addToSide true (cancelSide b.buy o) om
            orders_by_id := aset om.id om b.orders_by_id } := by
        unfold add_to_book
        rw [if_pos (show om.side = 1 from hside)]
      rw [hc, hc2]
      have hknC : keysNodup (cancelSide b.buy o).levels :=
        ((cancelSide_sideInv o hci.invB).1).2.1
      have haddperm := (@addToSide_orders true (cancelSide b.buy o) om hknC).2
      have haddorders := (@addToSide_orders true (cancelSide b.buy o) om hknC).1
      refine ⟨?_, keysNodup_aset _ _ hci.idxNodup, ?_, ?_, hci.tids, ?_, ?_, ?_,
        (addToSide_sideInv om (cancelSide_sideInv o hci.invB).1).1, hci.invS⟩
      · intro id o2 h2
        by_cases hid : id = om.id
        · rw [hid, alookup_aset_self] at h2
          rw [← Option.some.inj h2, hid]
        · rw [alookup_aset_ne _ _ (Ne.symm hid)] at h2
          exact hci.idFun id o2 h2
      · intro id o2 h2
        by_cases hid : id = om.id
        · rw [hid, homid]
          exact hci.dom oid o hl
        · rw [alookup_aset_ne _ _ (Ne.symm hid)] at h2
          exact hci.dom id o2 h2
      · intro id o2 h2
        by_cases hid : id = om.id
        · rw [hid, alookup_aset_self] at h2
          rw [← Option.some.inj h2, hid]
          simpa [homdef, hoid] using hci.conserv oid o hl
        · rw [alookup_aset_ne _ _ (Ne.symm hid)] at h2
          exact hci.conserv id o2 h2
      · intro e' he' o2 ho2
        rcases haddorders e' he' o2 ho2 with ⟨rfl, hep⟩ | ⟨e, he, heq1, hmem⟩
        · exact ⟨hside, hep.symm, by rw [alookup_aset_self]⟩
        · obtain ⟨hne, e0, he0, heq0, hmem0⟩ := hsurvB e he o2 hmem
          obtain ⟨hs, hp, hlk⟩ := hci.alignB e0 he0 o2 hmem0
          refine ⟨hs, by rw [hp, heq0, heq1], ?_⟩
          rw [alookup_aset_ne _ _ (fun h2 =>
            hBne e0 he0 o2 hmem0 hne (by rw [← h2, homid]))]
          exact hlk
      · intro e' he' o2 ho2
        obtain ⟨hs, hp, hlk⟩ := hci.alignS e' he' o2 ho2
        refine ⟨hs, hp, ?_⟩
        rw [alookup_aset_ne _ _ (fun h2 =>
          hSne1 e' he' o2 ho2 (by rw [← h2, homid]))]
        exact hlk
      · have hperm : (levelIds (addToSide true (cancelSide b.buy o) om) ++
            levelIds b.sell).Perm
            (om.id :: (levelIds (cancelSide b.buy o) ++ levelIds b.sell)) :=
          List.Perm.append_right _ haddperm
        refine hperm.nodup_iff.mpr ?_
        refine List.nodup_cons.mpr ⟨?_, ?_⟩
        · intro hmem
          rcases List.mem_append.mp hmem with hmem | hmem
          · exact hcBne om.id hmem homid
          · obtain ⟨o2, ho2m, heq2⟩ := List.mem_map.mp hmem
            obtain ⟨e', he', hoe⟩ := mem_ordersOfLevels_elim ho2m
            exact hSne1 e' he' o2 hoe (by rw [heq2, homid])
        · exact List.Pairwise.sublist (List.Sublist.append_right hsubB _) hci.uniq
    · have hBne1 : ∀ e ∈ b.buy.levels, ∀ o2 ∈ e.2, o2.id ≠ oid := by
        intro e he o2 ho2
        refine hBne e he o2 ho2 ?_
        intro heq
        exact absurd ((hci.alignB e he o2 ho2).1) (by rw [heq]; exact hside)
      have hc : (b.modify oid np).2 =
          add_to_book { b with sell := cancelSide b.sell o } om := by
        unfold OrderBook.modify
        simp only [hl]
        rw [if_neg hside]
      have hc2 : add_to_book { b with sell := cancelSide b.sell o } om =
          { b with
            sell := addToSide false (cancelSide b.sell o) om
            orders_by_id := aset om.id om b.orders_by_id } := by
        unfold add_to_book
        rw [if_neg (show ¬om.side = 1 from hside)]
      rw [hc, hc2]
      have hknC : keysNodup (cancelSide b.sell o).levels :=
        ((cancelSide_sideInv o hci.invS).1).2.1
      have haddperm := (@addToSide_orders false (cancelSide b.sell o) om hknC).2
      have haddorders := (@addToSide_orders false (cancelSide b.sell o) om hknC).1
      refine ⟨?_, keysNodup_aset _ _ hci.idxNodup, ?_, ?_, hci.tids, ?_, ?_, ?_,
        hci.invB, (addToSide_sideInv om (cancelSide_sideInv o hci.invS).1).1⟩
      · intro id o2 h2
        by_cases hid : id = om.id
        · rw [hid, alookup_aset_self] at h2
          rw [← Option.some.inj h2, hid]
        · rw [alookup_aset_ne _ _ (Ne.symm hid)] at h2
          exact hci.idFun id o2 h2
      · intro id o2 h2
        by_cases hid : id = om.id
        · rw [hid, homid]
          exact hci.dom oid o hl
        · rw [alookup_aset_ne _ _ (Ne.symm hid)] at h2
          exact hci.dom id o2 h2
      · intro id o2 h2
        by_cases hid : id = om.id
        · rw [hid, alookup_aset_self] at h2
          rw [← Option.some.inj h2, hid]
          simpa [homdef, hoid] using hci.conserv oid o hl
        · rw [alookup_aset_ne _ _ (Ne.symm hid)] at h2
          exact hci.conserv id o2 h2
      · intro e' he' o2 ho2
        obtain ⟨hs, hp, hlk⟩ := hci.alignB e' he' o2 ho2
        refine ⟨hs, hp, ?_⟩
        rw [alookup_aset_ne _ _ (fun h2 =>
          hBne1 e' he' o2 ho2 (by rw [← h2, homid]))]
        exact hlk
      · intro e' he' o2 ho2
        rcases haddorders e' he' o2 ho2 with ⟨rfl, hep⟩ | ⟨e, he, heq1, hmem⟩
        · exact ⟨hside, hep.symm, by rw [alookup_aset_self]⟩
        · obtain ⟨hne, e0, he0, heq0, hmem0⟩ := hsurvS e he o2 hmem
          obtain ⟨hs, hp, hlk⟩ := hci.alignS e0 he0 o2 hmem0
          refine ⟨hs, by rw [hp, heq0, heq1], ?_⟩
          rw [alookup_aset_ne _ _ (fun h2 =>
            hSne e0 he0 o2 hmem0 hne (by rw [← h2, homid]))]
          exact hlk
      · have hperm : (levelIds b.buy ++
            levelIds (addToSide false (cancelSide b.sell o) om)).Perm
            (levelIds b.buy ++ (om.id :: levelIds (cancelSide b.sell o))) :=
          List.Perm.append_left _ haddperm
        refine hperm.nodup_iff.mpr ?_
        have hperm2 : (levelIds b.buy ++ (om.id :: levelIds (cancelSide b.sell o))).Perm
            (om.id :: (levelIds b.buy ++ levelIds (cancelSide b.sell o))) :=
          List.perm_middle
        refine hperm2.nodup_iff.mpr ?_
        refine List.nodup_cons.mpr ⟨?_, ?_⟩
        · intro hmem
          rcases List.mem_append.mp hmem with hmem | hmem
          · obtain ⟨o2, ho2m, heq2⟩ := List.mem_map.mp hmem
            obtain ⟨e', he', hoe⟩ := mem_ordersOfLevels_elim ho2m
            exact hBne1 e' he' o2 hoe (by rw [heq2, homid])
          · exact hcSne om.id hmem homid
        · exact List.Pairwise.sublist (List.Sublist.append_left hsubS _) hci.uniq


/-- `place` with a fresh order id preserves the conservation invariant: the
emitted trades account exactly for the quantity lost by the incoming order
and decrement the matched resting orders in level and index together, and
any leftover is booked with `remaining = orig_qty - traded`. -/
theorem place_consInv {b : OrderBook} {oid : Nat} {side : Int} {price : ℚ} {qty : Nat}
    {b' : OrderBook} {ts : List Trade} {placed : List Nat} {trP : List Trade}
    (hfresh : oid ∉ placed)
    (hmo : matchOrder b ⟨oid, side, norm_price price, qty, qty⟩ = some (ts, b'))
    (hci : ConsInv b placed trP) :
    ConsInv b' (oid :: placed) (trP ++ ts) := by
  have hplacedS : ∀ id ∈ levelIds b.sell, id ∈ placed :=
    levelIds_mem_placed hci.alignS hci.dom
  have hplacedB : ∀ id ∈ levelIds b.buy, id ∈ placed :=
    levelIds_mem_placed hci.alignB hci.dom
  have hoidS : oid ∉ levelIds b.sell := fun hm => hfresh (hplacedS oid hm)
  have hoidB : oid ∉ levelIds b.buy := fun hm => hfresh (hplacedB oid hm)
  have hoidnone : alookup oid b.orders_by_id = none := by
    rcases hx : alookup oid b.orders_by_id with _ | o0
    · rfl
    · exact absurd (hci.dom oid o0 hx) hfresh
  have hdisj := (List.nodup_append.mp hci.uniq).2.2
  have htrPfree : ∀ t ∈ trP, tradeInvolves oid t = false := by
    intro t ht
    obtain ⟨hb1, ha1⟩ := hci.tids t ht
    exact tradeInvolves_false (fun he => hfresh (he ▸ hb1)) (fun he => hfresh (he ▸ ha1))
  unfold matchOrder at hmo
  by_cases hside : side = (1 : Int)
  · rw [if_pos hside] at hmo
    rcases hml : matchLoop true oid (norm_price price) (qty + sideSize b.sell + 1) qty
        b.sell b.orders_by_id with _ | ⟨ts1, rem1, sell1, idx1⟩
    · rw [hml] at hmo
      exact Option.noConfusion hmo
    · rw [hml] at hmo
      have hts : ts1 = ts := congrArg Prod.fst (Option.some.inj hmo)
      subst hts
      have hb' : b' = (if 0 < rem1 then
          add_to_book { b with sell := sell1, orders_by_id := idx1 }
            { id := oid, side := side, price := norm_price price, orig_qty := qty,
              remaining := rem1 }
          else { b with sell := sell1, orders_by_id := idx1 }) :=
        (congrArg Prod.snd (Option.some.inj hmo)).symm
      obtain ⟨g1, g2, g3, g4, g5, g6, g7, g8, g9⟩ :=
        @matchLoop_consInv true oid (norm_price price)
          (qty + sideSize b.sell + 1) qty b.sell b.orders_by_id ts1 rem1 sell1 idx1 hml
          hci.invS hci.alignS (List.Nodup.of_append_right hci.uniq) hci.idxNodup hci.idFun
      obtain ⟨hinvS1, -, -⟩ :=
        @matchLoop_sideInv true oid (norm_price price)
          (qty + sideSize b.sell + 1) qty b.sell b.orders_by_id ts1 rem1 sell1 idx1 hml
          hci.invS
      have g2' : ∀ t ∈ ts1, t.bid_order_id = oid := by
        intro t ht
        have := g2 t ht
        simpa using this
      have g3' : ∀ t ∈ ts1, t.ask_order_id ∈ levelIds b.sell := by
        intro t ht
        have := g3 t ht
        simpa using this
      have hlookoid : alookup oid idx1 = none := by
        rw [g5 oid hoidS]
        exact hoidnone
      have hconsP : ∀ id o2, alookup id idx1 = some o2 → id ≠ oid →
          o2.remaining + tq id (trP ++ ts1) = o2.orig_qty := by
        intro id o2 h2 hne
        obtain ⟨o0, ho0, e1, e2, e3, e4, e5⟩ := g6 id hne o2 h2
        have hc0 := hci.conserv id o0 ho0
        rw [tq_append, e4]
        omega
      have hdomP : ∀ id o2, alookup id idx1 = some o2 → id ∈ placed := by
        intro id o2 h2
        by_cases hne : id = oid
        · rw [hne, hlookoid] at h2
          exact Option.noConfusion h2
        · obtain ⟨o0, ho0, -⟩ := g6 id hne o2 h2
          exact hci.dom id o0 ho0
      have htidsP : ∀ t ∈ trP ++ ts1,
          t.bid_order_id ∈ oid :: placed ∧ t.ask_order_id ∈ oid :: placed := by
        intro t ht
        rcases List.mem_append.mp ht with ht | ht
        · obtain ⟨hb1, ha1⟩ := hci.tids t ht
          exact ⟨List.mem_cons_of_mem _ hb1, List.mem_cons_of_mem _ ha1⟩
        · refine ⟨?_, ?_⟩
          · rw [g2' t ht]
            exact List.mem_cons_self ..
          · exact List.mem_cons_of_mem _ (hplacedS _ (g3' t ht))
      have halBP : AlignSide true b.buy idx1 := by
        intro e he o2 ho2
        obtain ⟨hs, hp, hlk⟩ := hci.alignB e he o2 ho2
        refine ⟨hs, hp, ?_⟩
        rw [g5 o2.id (fun hm =>
          hdisj (List.mem_map.mpr ⟨o2, mem_ordersOfLevels_of_mem he ho2, rfl⟩) hm)]
        exact hlk
      have huniqP : (levelIds b.buy ++ levelIds sell1).Nodup :=
        List.Pairwise.sublist (List.Sublist.append_left g4 _) hci.uniq
      by_cases hrem : 0 < rem1
      · rw [if_pos hrem] at hb'
        have hadd : b' = { b with
            buy := addToSide true b.buy
              { id := oid, side := side, price := norm_price price, orig_qty := qty,
                remaining := rem1 }
            sell := sell1
            orders_by_id := aset oid
              { id := oid, side := side, price := norm_price price, orig_qty := qty,
                remaining := rem1 } idx1 } := by
          rw [hb']
          unfold add_to_book
          rw [if_pos hside]
        rw [hadd]
        have hknB : keysNodup b.buy.levels := hci.invB.2.1
        have haddperm := (@addToSide_orders true b.buy
          { id := oid, side := side, price := norm_price price, orig_qty := qty,
            remaining := rem1 } hknB).2
        have haddorders := (@addToSide_orders true b.buy
          { id := oid, side := side, price := norm_price price, orig_qty := qty,
            remaining := rem1 } hknB).1
        refine ⟨?_, keysNodup_aset _ _ g8, ?_, ?_, htidsP, ?_, ?_, ?_,
          (addToSide_sideInv _ hci.invB).1, hinvS1⟩
        · intro id o2 h2
          by_cases hid : id = oid
          · rw [hid, alookup_aset_self] at h2
            rw [← Option.some.inj h2, hid]
          · rw [alookup_aset_ne _ _ (Ne.symm hid)] at h2
            exact g9 id o2 h2
        · intro id o2 h2
          by_cases hid : id = oid
          · rw [hid]
            exact List.mem_cons_self ..
          · rw [alookup_aset_ne _ _ (Ne.symm hid)] at h2
            exact List.mem_cons_of_mem _ (hdomP id o2 h2)
        · intro id o2 h2
          by_cases hid : id = oid
          · rw [hid, alookup_aset_self] at h2
            rw [← Option.some.inj h2, hid]
            have hz : tq oid trP = 0 := tq_eq_zero htrPfree
            have hs : tq oid ts1 = sumQty ts1 :=
              tq_eq_sumQty (fun t ht => tradeInvolves_of_bid (g2' t ht))
            rw [tq_append, hz, hs]
            simpa using g1
          · rw [alookup_aset_ne _ _ (Ne.symm hid)] at h2
            exact hconsP id o2 h2 hid
        · intro e' he' o2 ho2
          rcases haddorders e' he' o2 ho2 with ⟨rfl, hep⟩ | ⟨e, he, heq1, hmem⟩
          · refine ⟨hside, hep.symm, ?_⟩
            rw [alookup_aset_self]
          · obtain ⟨hs, hp, hlk⟩ := halBP e he o2 hmem
            refine ⟨hs, by rw [hp, heq1], ?_⟩
            rw [alookup_aset_ne _ _ (fun h2 => hfresh (show oid ∈ placed from by
              rw [h2]
              exact hplacedB o2.id
                (List.mem_map.mpr ⟨o2, mem_ordersOfLevels_of_mem he hmem, rfl⟩)))]
            exact hlk
        · intro e' he' o2 ho2
          obtain ⟨hs, hp, hlk⟩ := g7 e' he' o2 ho2
          refine ⟨hs, hp, ?_⟩
          rw [alookup_aset_ne _ _ (fun h2 => hfresh (show oid ∈ placed from by
            rw [h2]
            exact hplacedS o2.id
              (g4.subset (List.mem_map.mpr ⟨o2, mem_ordersOfLevels_of_mem he' ho2, rfl⟩))))]
          exact hlk
        · have hperm : (levelIds (addToSide true b.buy
              { id := oid, side := side, price := norm_price price, orig_qty := qty,
                remaining := rem1 }) ++ levelIds sell1).Perm
              (oid :: (levelIds b.buy ++ levelIds sell1)) :=
            List.Perm.append_right _ haddperm
          refine hperm.nodup_iff.mpr ?_
          refine List.nodup_cons.mpr ⟨?_, huniqP⟩
          intro hmem
          rcases List.mem_append.mp hmem with hmem | hmem
          · exact hoidB hmem
          · exact hoidS (g4.subset hmem)
      · rw [if_neg hrem] at hb'
        rw [hb']
        refine ⟨g9, g8, ?_, ?_, htidsP, halBP, g7, huniqP, hci.invB, hinvS1⟩
        · intro id o2 h2
          exact List.mem_cons_of_mem _ (hdomP id o2 h2)
        · intro id o2 h2
          by_cases hid : id = oid
          · rw [hid, hlookoid] at h2
            exact Option.noConfusion h2
          · exact hconsP id o2 h2 hid
  · rw [if_neg hside] at hmo
    rcases hml : matchLoop false oid (norm_price price) (qty + sideSize b.buy + 1) qty
        b.buy b.orders_by_id with _ | ⟨ts1, rem1, buy1, idx1⟩
    · rw [hml] at hmo
      exact Option.noConfusion hmo
    · rw [hml] at hmo
      have hts : ts1 = ts := congrArg Prod.fst (Option.some.inj hmo)
      subst hts
      have hb' : b' = (if 0 < rem1 then
          add_to_book { b with buy := buy1, orders_by_id := idx1 }
            { id := oid, side := side, price := norm_price price, orig_qty := qty,
              remaining := rem1 }
          else { b with buy := buy1, orders_by_id := idx1 }) :=
        (congrArg Prod.snd (Option.some.inj hmo)).symm
      obtain ⟨g1, g2, g3, g4, g5, g6, g7, g8, g9⟩ :=
        @matchLoop_consInv false oid (norm_price price)
          (qty + sideSize b.buy + 1) qty b.buy b.orders_by_id ts1 rem1 buy1 idx1 hml
          hci.invB hci.alignB (List.Nodup.of_append_left hci.uniq) hci.idxNodup hci.idFun
      obtain ⟨hinvB1, -, -⟩ :=
        @matchLoop_sideInv false oid (norm_price price)
          (qty + sideSize b.buy + 1) qty b.buy b.orders_by_id ts1 rem1 buy1 idx1 hml
          hci.invB
      have g2' : ∀ t ∈ ts1, t.ask_order_id = oid := by
        intro t ht
        have := g2 t ht
        simpa using this
      have g3' : ∀ t ∈ ts1, t.bid_order_id ∈ levelIds b.buy := by
        intro t ht
        have := g3 t ht
        simpa using this
      have hlookoid : alookup oid idx1 = none := by
        rw [g5 oid hoidB]
        exact hoidnone
      have hconsP : ∀ id o2, alookup id idx1 = some o2 → id ≠ oid →
          o2.remaining + tq id (trP ++ ts1) = o2.orig_qty := by
        intro id o2 h2 hne
        obtain ⟨o0, ho0, e1, e2, e3, e4, e5⟩ := g6 id hne o2 h2
        have hc0 := hci.conserv id o0 ho0
        rw [tq_append, e4]
        omega
      have hdomP : ∀ id o2, alookup id idx1 = some o2 → id ∈ placed := by
        intro id o2 h2
        by_cases hne : id = oid
        · rw [hne, hlookoid] at h2
          exact Option.noConfusion h2
        · obtain ⟨o0, ho0, -⟩ := g6 id hne o2 h2
          exact hci.dom id o0 ho0
      have htidsP : ∀ t ∈ trP ++ ts1,
          t.bid_order_id ∈ oid :: placed ∧ t.ask_order_id ∈ oid :: placed := by
        intro t ht
        rcases List.mem_append.mp ht with ht | ht
        · obtain ⟨hb1, ha1⟩ := hci.tids t ht
          exact ⟨List.mem_cons_of_mem _ hb1, List.mem_cons_of_mem _ ha1⟩
        · refine ⟨?_, ?_⟩
          · exact List.mem_cons_of_mem _ (hplacedB _ (g3' t ht))
          · rw [g2' t ht]
            exact List.mem_cons_self ..
      have halSP : AlignSide false b.sell idx1 := by
        intro e he o2 ho2
        obtain ⟨hs, hp, hlk⟩ := hci.alignS e he o2 ho2
        refine ⟨hs, hp, ?_⟩
        rw [g5 o2.id (fun hm =>
          hdisj hm (List.mem_map.mpr ⟨o2, mem_ordersOfLevels_of_mem he ho2, rfl⟩))]
        exact hlk
      have huniqP : (levelIds buy1 ++ levelIds b.sell).Nodup :=
        List.Pairwise.sublist (List.Sublist.append_right g4 _) hci.uniq
      by_cases hrem : 0 < rem1
      · rw [if_pos hrem] at hb'
        have hadd : b' = { b with
            buy := buy1
            sell := addToSide false b.sell
              { id := oid, side := side, price := norm_price price, orig_qty := qty,
                remaining := rem1 }
            orders_by_id := aset oid
              { id := oid, side := side, price := norm_price price, orig_qty := qty,
                remaining := rem1 } idx1 } := by
          rw [hb']
          unfold add_to_book
          rw [if_neg hside]
        rw [hadd]
        have hknS : keysNodup b.sell.levels := hci.invS.2.1
        have haddperm := (@addToSide_orders false b.sell
          { id := oid, side := side, price := norm_price price, orig_qty := qty,
            remaining := rem1 } hknS).2
        have haddorders := (@addToSide_orders false b.sell
          { id := oid, side := side, price := norm_price price, orig_qty := qty,
            remaining := rem1 } hknS).1
        refine ⟨?_, keysNodup_aset _ _ g8, ?_, ?_, htidsP, ?_, ?_, ?_,
          hinvB1, (addToSide_sideInv _ hci.invS).1⟩
        · intro id o2 h2
          by_cases hid : id = oid
          · rw [hid, alookup_aset_self] at h2
            rw [← Option.some.inj h2, hid]
          · rw [alookup_aset_ne _ _ (Ne.symm hid)] at h2
            exact g9 id o2 h2
        · intro id o2 h2
          by_cases hid : id = oid
          · rw [hid]
            exact List.mem_cons_self ..
          · rw [alookup_aset_ne _ _ (Ne.symm hid)] at h2
            exact List.mem_cons_of_mem _ (hdomP id o2 h2)
        · intro id o2 h2
          by_cases hid : id = oid
          · rw [hid, alookup_aset_self] at h2
            rw [← Option.some.inj h2, hid]
            have hz : tq oid trP = 0 := tq_eq_zero htrPfree
            have hs : tq oid ts1 = sumQty ts1 :=
              tq_eq_sumQty (fun t ht => tradeInvolves_of_ask (g2' t ht))
            rw [tq_append, hz, hs]
            simpa using g1
          · rw [alookup_aset_ne _ _ (Ne.symm hid)] at h2
            exact hconsP id o2 h2 hid
        · intro e' he' o2 ho2
          obtain ⟨hs, hp, hlk⟩ := g7 e' he' o2 ho2
          refine ⟨hs, hp, ?_⟩
          rw [alookup_aset_ne _ _ (fun h2 => hfresh (show oid ∈ placed from by
            rw [h2]
            exact hplacedB o2.id
              (g4.subset (List.mem_map.mpr ⟨o2, mem_ordersOfLevels_of_mem he' ho2, rfl⟩))))]
          exact hlk
        · intro e' he' o2 ho2
          rcases haddorders e' he' o2 ho2 with ⟨rfl, hep⟩ | ⟨e, he, heq1, hmem⟩
          · refine ⟨hside, hep.symm, ?_⟩
            rw [alookup_aset_self]
          · obtain ⟨hs, hp, hlk⟩ := halSP e he o2 hmem
            refine ⟨hs, by rw [hp, heq1], ?_⟩
            rw [alookup_aset_ne _ _ (fun h2 => hfresh (show oid ∈ placed from by
              rw [h2]
              exact hplacedS o2.id
                (List.mem_map.mpr ⟨o2, mem_ordersOfLevels_of_mem he hmem, rfl⟩)))]
            exact hlk
        · have hperm : (levelIds buy1 ++ levelIds (addToSide false b.sell
              { id := oid, side := side, price := norm_price price, orig_qty := qty,
                remaining := rem1 })).Perm
              (levelIds buy1 ++ (oid :: levelIds b.sell)) :=
            List.Perm.append_left _ haddperm
          refine hperm.nodup_iff.mpr ?_
          have hperm2 : (levelIds buy1 ++ (oid :: levelIds b.sell)).Perm
              (oid :: (levelIds buy1 ++ levelIds b.sell)) :=
            List.perm_middle
          refine hperm2.nodup_iff.mpr ?_
          refine List.nodup_cons.mpr ⟨?_, huniqP⟩
          intro hmem
          rcases List.mem_append.mp hmem with hmem | hmem
          · exact hoidB (g4.subset hmem)
          · exact hoidS hmem
      · rw [if_neg hrem] at hb'
        rw [hb']
        refine ⟨g9, g8, ?_, ?_, htidsP, g7, halSP, huniqP, hinvB1, hci.invS⟩
        · intro id o2 h2
          exact List.mem_cons_of_mem _ (hdomP id o2 h2)
        · intro id o2 h2
          by_cases hid : id = oid
          · rw [hid, hlookoid] at h2
            exact Option.noConfusion h2
          · exact hconsP id o2 h2 hid


/-- The conservation invariant holds of the empty book. -/
theorem consInv_empty : ConsInv OrderBook.empty [] [] := by
  refine ⟨?_, ?_, ?_, ?_, ?_, ?_, ?_, ?_, bookInv_empty.1, bookInv_empty.2.1⟩
  · intro id o h
    exact Option.noConfusion h
  · simp [OrderBook.empty, keysNodup]
  · intro id o h
    exact Option.noConfusion h
  · intro id o h
    exact Option.noConfusion h
  · intro t ht
    exact absurd ht (List.not_mem_nil t)
  · intro e he
    exact absurd he (List.not_mem_nil e)
  · intro e he
    exact absurd he (List.not_mem_nil e)
  · simp [OrderBook.empty, levelIds, ordersOfLevels]

/-- The conservation invariant is preserved along any run whose upcoming
place ids avoid the already placed ones and each other. -/
theorem runEvents_consInv :
    ∀ (es : List Event) (b st : OrderBook) (tr : List Trade) (placed : List Nat)
      (trP : List Trade),
      (placed ++ placeIds es).Nodup →
      ConsInv b placed trP →
      runEvents b es = some (st, tr) →
      ∃ placed', ConsInv st placed' (trP ++ tr)
  | [], b, st, tr, placed, trP => by
    intro hnd hci h
    have h2 := Option.some.inj h
    have hst : b = st := congrArg Prod.fst h2
    have htr : ([] : List Trade) = tr := congrArg Prod.snd h2
    refine ⟨placed, ?_⟩
    rw [← hst, ← htr]
    simpa using hci
  | e :: es, b, st, tr, placed, trP => by
    intro hnd hci h
    simp only [runEvents] at h
    rcases hpe : processEvent b e with _ | ⟨b1, ts1, ack⟩
    · rw [hpe] at h
      exact Option.noConfusion h
    · simp only [hpe] at h
      rcases hre : runEvents b1 es with _ | ⟨st2, tr2⟩
      · rw [hre] at h
        exact Option.noConfusion h
      · rw [hre] at h
        have hst : st2 = st := congrArg Prod.fst (Option.some.inj h)
        have htr : ts1 ++ tr2 = tr := congrArg Prod.snd (Option.some.inj h)
        cases e with
        | place oid side price qty =>
          rcases hmo : matchOrder b ⟨oid, side, norm_price price, qty, qty⟩ with _ | ⟨ts0, b2⟩
          · rw [processEvent, hmo] at hpe
            exact Option.noConfusion hpe
          · rw [processEvent, hmo] at hpe
            obtain ⟨hts0, hb2, -⟩ :
                ts0 = ts1 ∧ b2 = b1 ∧ (none : Option Bool) = ack := by
              have h3 := Option.some.inj hpe
              refine ⟨(congrArg (fun r => r.2.1) h3 : ts0 = ts1),
                (congrArg Prod.fst h3 : b2 = b1), (congrArg (fun r => r.2.2) h3)⟩
            rw [hts0, hb2] at hmo
            have hfresh : oid ∉ placed := by
              intro hm
              exact (List.nodup_append.mp hnd).2.2 hm (List.mem_cons_self ..)
            have hci1 : ConsInv b1 (oid :: placed) (trP ++ ts1) :=
              place_consInv hfresh hmo hci
            have hnd1 : ((oid :: placed) ++ placeIds es).Nodup :=
              (List.perm_middle.nodup_iff).mp hnd
            obtain ⟨placed', hci'⟩ :=
              runEvents_consInv es b1 st2 tr2 (oid :: placed) (trP ++ ts1) hnd1 hci1 hre
            refine ⟨placed', ?_⟩
            rw [← hst, ← htr, ← List.append_assoc]
            exact hci'
        | cancel oid =>
          obtain ⟨hb1, hts1, -⟩ :
              (b.cancel oid).2 = b1 ∧ ([] : List Trade) = ts1 ∧
                some (b.cancel oid).1 = ack := by
            have h3 := Option.some.inj hpe
            exact ⟨congrArg Prod.fst h3, congrArg (fun r => r.2.1) h3,
              congrArg (fun r => r.2.2) h3⟩
          have hci1 : ConsInv b1 placed trP := hb1 ▸ cancel_consInv hci
          obtain ⟨placed', hci'⟩ :=
            runEvents_consInv es b1 st2 tr2 placed trP hnd hci1 hre
          refine ⟨placed', ?_⟩
          rw [← hst, ← htr, ← hts1, List.nil_append]
          exact hci'
        | modify oid p =>
          obtain ⟨hb1, hts1, -⟩ :
              (b.modify oid (norm_price p)).2 = b1 ∧ ([] : List Trade) = ts1 ∧
                some (b.modify oid (norm_price p)).1 = ack := by
            have h3 := Option.some.inj hpe
            exact ⟨congrArg Prod.fst h3, congrArg (fun r => r.2.1) h3,
              congrArg (fun r => r.2.2) h3⟩
          have hci1 : ConsInv b1 placed trP := hb1 ▸ modify_consInv hci
          obtain ⟨placed', hci'⟩ :=
            runEvents_consInv es b1 st2 tr2 placed trP hnd hci1 hre
          refine ⟨placed', ?_⟩
          rw [← hst, ← htr, ← hts1, List.nil_append]
          exact hci'

/-- C5 corrected: quantity conservation holds for every finite sequence of
place, cancel and modify events whose `place` events carry pairwise distinct
order ids (fresh ids, as the server generates when the client supplies
none): for every order id present in the final index, its remaining
quantity plus the total quantity of the trades naming it as bid or ask
equals its original quantity.  When a client reuses an order id the trades
of the id's earlier life are attributed to the fresh order and the equation
fails, see `conservation_cex`. -/
theorem conservation_of_fresh_ids (es : List Event) (st : OrderBook) (tr : List Trade)
    (hids : (placeIds es).Nodup) (hrun : run es = some (st, tr)) :
    ∀ id o, alookup id st.orders_by_id = some o →
      o.remaining + tq id tr = o.orig_qty := by
  obtain ⟨placed', hci⟩ :=
    runEvents_consInv es OrderBook.empty st tr [] [] (by simpa using hids)
      consInv_empty hrun
  intro id o h
  have h2 := hci.conserv id o h
  simpa using h2

theorem conservation_of_fresh_ids_witness :
    (placeIds [Event.place 1 1 50 5, Event.place 2 1 50 3,
        Event.place 3 (-1) 50 6]).Nodup ∧
    (⟨2, 1, 50, 3, 2⟩ : Order).remaining +
        tq 2 [⟨50, 5, 1, 3⟩, ⟨50, 1, 2, 3⟩] = (⟨2, 1, 50, 3, 2⟩ : Order).orig_qty :=
  ⟨by decide,
    conservation_of_fresh_ids
      [Event.place 1 1 50 5, Event.place 2 1 50 3, Event.place 3 (-1) 50 6]
      ⟨⟨[(50, [⟨2, 1, 50, 3, 2⟩])], [-50], [50], [(50, 2)]⟩, ⟨[], [], [], []⟩,
        [(2, ⟨2, 1, 50, 3, 2⟩)]⟩
      [⟨50, 5, 1, 3⟩, ⟨50, 1, 2, 3⟩]
      (by decide) (by decide) 2 ⟨2, 1, 50, 3, 2⟩ (by decide)⟩

/-- C5 counterexample: reusing an order id breaks conservation.  Place bid
id 1 (5 at 50.00), fill it completely with ask id 2, then place a fresh
order with the same id 1: the index entry for id 1 has `remaining = 5` and
`orig_qty = 5`, but the earlier trade of quantity 5 is attributed to id 1,
so `remaining + Σ qty = 10 ≠ 5`. -/
theorem conservation_cex :
    ∃ st : OrderBook, ∃ o : Order,
      run [.place 1 1 50 5, .place 2 (-1) 50 5, .place 1 1 50 5] =
          some (st, [⟨50, 5, 1, 2⟩]) ∧
        alookup 1 st.orders_by_id = some o ∧
        ¬ o.remaining + tq 1 [⟨50, 5, 1, 2⟩] = o.orig_qty := by
  exact ⟨⟨⟨[(50, [⟨1, 1, 50, 5, 5⟩])], [-50], [50], [(50, 5)]⟩, ⟨[], [], [], []⟩,
    [(1, ⟨1, 1, 50, 5, 5⟩)]⟩, ⟨1, 1, 50, 5, 5⟩, by decide, by decide, by decide⟩


/-! ## Volume-map lemmas -/

theorem sumRem_nil : sumRem [] = 0 := rfl

theorem sumRem_cons (o : Order) (dq : List Order) :
    sumRem (o :: dq) = (o.remaining : Int) + sumRem dq := by
  simp [sumRem]

theorem sumRem_append (a b : List Order) : sumRem (a ++ b) = sumRem a + sumRem b := by
  simp [sumRem]

theorem sumRem_nonneg (dq : List Order) : 0 ≤ sumRem dq := by
  refine List.sum_nonneg ?_
  intro x hx
  obtain ⟨o, -, rfl⟩ := List.mem_map.mp hx
  exact Int.ofNat_nonneg o.remaining

theorem sumRem_erase {o : Order} {dq : List Order} (h : o ∈ dq) :
    sumRem dq = (o.remaining : Int) + sumRem (dq.erase o) := by
  have hperm : dq.Perm (o :: dq.erase o) := List.perm_cons_erase h
  have h2 : sumRem dq = sumRem (o :: dq.erase o) := by
    unfold sumRem
    exact List.Perm.sum_eq (List.Perm.map _ hperm)
  rw [h2, sumRem_cons]

/-- The cleanup loop keeps the volume keys distinct and only removes volume
entries (a surviving lookup is the original one). -/
theorem cleanLoop_vol_lookup {neg : Bool} :
    ∀ (h : List ℚ) (l : List (ℚ × List Order)) (s : List ℚ) (v : List (ℚ × Int))
      {h' : List ℚ} {l' : List (ℚ × List Order)} {s' : List ℚ} {v' : List (ℚ × Int)},
      cleanLoop neg h l s v = (h', l', s', v') →
      keysNodup v →
      keysNodup v' ∧ ∀ p, alookup p v' = alookup p v ∨ alookup p v' = none
  | [], l, s, v, h', l', s', v' => by
    intro hcl hkv
    obtain ⟨-, -, -, h4⟩ : [] = h' ∧ l = l' ∧ s = s' ∧ v = v' := by
      simpa [cleanLoop, Prod.ext_iff, and_assoc] using hcl
    subst h4
    exact ⟨hkv, fun p => Or.inl rfl⟩
  | k0 :: rest, l, s, v, h', l', s', v' => by
    intro hcl hkv
    by_cases hlive : ∃ o os, alookup (priceOf neg k0) l = some (o :: os)
    · obtain ⟨o, os, hl⟩ := hlive
      rw [cleanLoop_cons_live hl] at hcl
      obtain ⟨-, -, -, h4⟩ : (k0 :: rest : List ℚ) = h' ∧ l = l' ∧ s = s' ∧ v = v' := by
        simpa [Prod.ext_iff, and_assoc] using hcl
      subst h4
      exact ⟨hkv, fun p => Or.inl rfl⟩
    · have hp0 : deadLevel l (priceOf neg k0) := by
        rcases hx : alookup (priceOf neg k0) l with _ | (_ | ⟨o, os⟩)
        · exact Or.inl hx
        · exact Or.inr hx
        · exact absurd ⟨o, os, hx⟩ hlive
      rw [cleanLoop_cons_dead hp0] at hcl
      obtain ⟨hkv', hlk⟩ := cleanLoop_vol_lookup rest _ _ _ hcl (keysNodup_apop _ hkv)
      refine ⟨hkv', ?_⟩
      intro p
      by_cases hpk : p = priceOf neg k0
      · rcases hlk p with h2 | h2
        · rw [h2, hpk, alookup_apop_self_nodup hkv]
          exact Or.inr rfl
        · exact Or.inr h2
      · rcases hlk p with h2 | h2
        · rw [h2, alookup_apop_ne v (fun he => hpk he.symm)]
          exact Or.inl rfl
        · exact Or.inr h2

/-- Heap cleanup preserves the volume invariant on a structurally sound
side. -/
theorem cleanHeap_volInv {neg : Bool} {sb : SideBook} (hinv : SideInv neg sb)
    (hv : VolInv sb) : VolInv (cleanHeap neg sb) := by
  obtain ⟨hv1, hv2, hv3⟩ := hv
  have hlv : (cleanHeap neg sb).levels = sb.levels := (cleanHeap_sideInv hinv).2
  obtain ⟨hkv', hvlk⟩ :=
    cleanLoop_vol_lookup sb.heap sb.levels sb.pset sb.vol (cleanHeap_eq neg sb) hv3
  have hpsub : ∀ p, p ∈ (cleanHeap neg sb).pset → p ∈ sb.pset :=
    (cleanHeap_spec neg sb).2.2.2.2.2
  refine ⟨?_, ?_, hkv'⟩
  · intro p dq hlk
    rw [hlv] at hlk
    have hne : dq ≠ [] := hinv.1 (p, dq) (alookup_mem hlk)
    have := ((cleanHeap_spec neg sb).1 p dq hlk hne).2.1
    rw [this]
    exact hv1 p dq hlk
  · intro p hp hlk
    rw [hlv] at hlk
    rcases hvlk p with h2 | h2
    · rw [h2]
      exact hv2 p (hpsub p hp) hlk
    · exact Or.inl h2


/-- Price-set membership after `_ensure_*_price`: the tracked prices gain at
most the pushed price. -/
theorem ensurePrice_pset_sub (neg : Bool) (sb : SideBook) (price p : ℚ)
    (hp : p ∈ (ensurePrice neg sb price).pset) : p = price ∨ p ∈ sb.pset := by
  unfold ensurePrice at hp
  by_cases h : price ∈ sb.pset
  · rw [if_pos h] at hp
    exact Or.inr hp
  · rw [if_neg h] at hp
    rcases List.mem_cons.mp hp with rfl | hp
    · exact Or.inl rfl
    · exact Or.inr hp

/-- `_add_to_book`'s side action preserves the volume invariant: it adds the
inserted remaining quantity to its level's volume entry (creating both at a
fresh price). -/
theorem addToSide_volInv {neg : Bool} {sb : SideBook} (o : Order) (hv : VolInv sb) :
    VolInv (addToSide neg sb o) := by
  obtain ⟨hv1, hv2, hv3⟩ := hv
  rcases hl : alookup o.price sb.levels with _ | dq0
  · have hlv : (addToSide neg sb o).levels = aset o.price [o] sb.levels := by
      unfold addToSide
      simp only [hl, Option.isNone_none, if_true]
      rw [ensurePrice_levels, alookup_aset_self, aset_aset]
      rfl
    have hvol : (addToSide neg sb o).vol =
        aset o.price ((0 : Int) + (o.remaining : Int)) sb.vol := by
      unfold addToSide
      simp only [hl, Option.isNone_none, if_true]
      rw [alookup_aset_self, Option.getD_some, aset_aset, ensurePrice_vol]
    have hpst : (addToSide neg sb o).pset = (ensurePrice neg sb o.price).pset := by
      unfold addToSide
      simp only [hl, Option.isNone_none, if_true]
    refine ⟨?_, ?_, by rw [hvol]; exact keysNodup_aset _ _ hv3⟩
    · intro p dq hlk
      rw [hlv] at hlk
      rw [hvol]
      by_cases hp : p = o.price
      · subst hp
        rw [alookup_aset_self] at hlk
        obtain rfl := Option.some.inj hlk
        rw [alookup_aset_self]
        have : (0 : Int) + (o.remaining : Int) = sumRem [o] := by
          rw [sumRem_cons, sumRem_nil]
          omega
        rw [this]
      · rw [alookup_aset_ne _ _ (fun he => hp he.symm)] at hlk
        rw [alookup_aset_ne _ _ (fun he => hp he.symm)]
        exact hv1 p dq hlk
    · intro p hp hlk
      rw [hlv] at hlk
      rw [hvol]
      by_cases hpe : p = o.price
      · subst hpe
        rw [alookup_aset_self] at hlk
        exact Option.noConfusion hlk
      · rw [alookup_aset_ne _ _ (fun he => hpe he.symm)] at hlk
        rw [alookup_aset_ne _ _ (fun he => hpe he.symm)]
        rw [hpst] at hp
        rcases ensurePrice_pset_sub neg sb o.price p hp with rfl | hp2
        · exact absurd rfl hpe
        · exact hv2 p hp2 hlk
  · have hlv : (addToSide neg sb o).levels = aset o.price (dq0 ++ [o]) sb.levels := by
      unfold addToSide
      simp only [hl, Option.isNone_some, Bool.false_eq_true, if_neg, not_false_iff]
      rfl
    have hvol : (addToSide neg sb o).vol =
        aset o.price ((alookup o.price sb.vol).getD 0 + (o.remaining : Int)) sb.vol := by
      unfold addToSide
      simp only [hl, Option.isNone_some, Bool.false_eq_true, if_neg, not_false_iff]
    have hpst : (addToSide neg sb o).pset = sb.pset := by
      unfold addToSide
      simp only [hl, Option.isNone_some, Bool.false_eq_true, if_neg, not_false_iff]
    refine ⟨?_, ?_, by rw [hvol]; exact keysNodup_aset _ _ hv3⟩
    · intro p dq hlk
      rw [hlv] at hlk
      rw [hvol]
      by_cases hp : p = o.price
      · subst hp
        rw [alookup_aset_self] at hlk
        obtain rfl := Option.some.inj hlk
        rw [alookup_aset_self, hv1 o.price dq0 hl, Option.getD_some]
        have : sumRem dq0 + (o.remaining : Int) = sumRem (dq0 ++ [o]) := by
          rw [sumRem_append, sumRem_cons, sumRem_nil]
          omega
        rw [this]
      · rw [alookup_aset_ne _ _ (fun he => hp he.symm)] at hlk
        rw [alookup_aset_ne _ _ (fun he => hp he.symm)]
        exact hv1 p dq hlk
    · intro p hp hlk
      rw [hlv] at hlk
      rw [hvol]
      by_cases hpe : p = o.price
      · subst hpe
        rw [alookup_aset_self] at hlk
        exact Option.noConfusion hlk
      · rw [alookup_aset_ne _ _ (fun he => hpe he.symm)] at hlk
        rw [alookup_aset_ne _ _ (fun he => hpe he.symm)]
        rw [hpst] at hp
        exact hv2 p hp hlk


/-- The removal block of `cancel`/`modify` preserves the volume invariant:
the removed order's remaining quantity is subtracted from its level's
volume (clamped at zero), which is exactly the new aggregate. -/
theorem cancelSide_volInv {sb : SideBook} (o : Order) (hkn : keysNodup sb.levels)
    (hv : VolInv sb) : VolInv (cancelSide sb o) := by
  obtain ⟨hv1, hv2, hv3⟩ := hv
  rcases hl : alookup o.price sb.levels with _ | dq
  · have hc : cancelSide sb o = sb := by
      unfold cancelSide
      simp only [hl]
    rw [hc]
    exact ⟨hv1, hv2, hv3⟩
  · by_cases hdq : dq = []
    · have hc : cancelSide sb o = sb := by
        unfold cancelSide
        simp only [hl, hdq, if_true, eq_self_iff_true]
      rw [hc]
      exact ⟨hv1, hv2, hv3⟩
    · have hvolp : alookup o.price sb.vol = some (sumRem dq) := hv1 o.price dq hl
      by_cases hmem : o ∈ dq
      · have hsplit : sumRem dq = (o.remaining : Int) + sumRem (dq.erase o) :=
          sumRem_erase hmem
        have hclamp : max 0 ((alookup o.price sb.vol).getD 0 - (o.remaining : Int)) =
            sumRem (dq.erase o) := by
          rw [hvolp, Option.getD_some]
          have h0 := sumRem_nonneg (dq.erase o)
          omega
        by_cases herase : dq.erase o = []
        · have hc : cancelSide sb o = { sb with
              levels := apop o.price sb.levels
              vol := aset o.price
                (max 0 ((alookup o.price sb.vol).getD 0 - (o.remaining : Int))) sb.vol } := by
            unfold cancelSide
            simp only [hl, if_neg hdq, if_pos hmem, herase, if_true, eq_self_iff_true]
          rw [hc]
          refine ⟨?_, ?_, keysNodup_aset _ _ hv3⟩
          · intro p dq2 hlk
            by_cases hp : p = o.price
            · subst hp
              rw [alookup_apop_self_nodup hkn] at hlk
              exact Option.noConfusion hlk
            · rw [alookup_apop_ne _ (fun he => hp he.symm)] at hlk
              rw [alookup_aset_ne _ _ (fun he => hp he.symm)]
              exact hv1 p dq2 hlk
          · intro p hp hlk
            by_cases hpe : p = o.price
            · subst hpe
              rw [alookup_aset_self, hclamp, herase, sumRem_nil]
              exact Or.inr rfl
            · rw [alookup_apop_ne _ (fun he => hpe he.symm)] at hlk
              rw [alookup_aset_ne _ _ (fun he => hpe he.symm)]
              exact hv2 p hp hlk
        · have hc : cancelSide sb o = { sb with
              levels := aset o.price (dq.erase o) sb.levels
              vol := aset o.price
                (max 0 ((alookup o.price sb.vol).getD 0 - (o.remaining : Int))) sb.vol } := by
            unfold cancelSide
            simp only [hl, if_neg hdq, if_pos hmem, if_neg herase]
          rw [hc]
          refine ⟨?_, ?_, keysNodup_aset _ _ hv3⟩
          · intro p dq2 hlk
            by_cases hp : p = o.price
            · subst hp
              rw [alookup_aset_self] at hlk
              obtain rfl := Option.some.inj hlk
              rw [alookup_aset_self, hclamp]
            · rw [alookup_aset_ne _ _ (fun he => hp he.symm)] at hlk
              rw [alookup_aset_ne _ _ (fun he => hp he.symm)]
              exact hv1 p dq2 hlk
          · intro p hp hlk
            by_cases hpe : p = o.price
            · subst hpe
              rw [alookup_aset_self] at hlk
              exact Option.noConfusion hlk
            · rw [alookup_aset_ne _ _ (fun he => hpe he.symm)] at hlk
              rw [alookup_aset_ne _ _ (fun he => hpe he.symm)]
              exact hv2 p hp hlk
      · have hc : cancelSide sb o = { sb with
            levels := aset o.price dq sb.levels
            vol := sb.vol } := by
          unfold cancelSide
          simp only [hl, if_neg hdq, if_neg hmem, if_neg hdq]
        rw [hc]
        refine ⟨?_, ?_, hv3⟩
        · intro p dq2 hlk
          by_cases hp : p = o.price
          · subst hp
            rw [alookup_aset_self] at hlk
            obtain rfl := Option.some.inj hlk
            exact hvolp
          · rw [alookup_aset_ne _ _ (fun he => hp he.symm)] at hlk
            exact hv1 p dq2 hlk
        · intro p hp hlk
          by_cases hpe : p = o.price
          · subst hpe
            rw [alookup_aset_self] at hlk
            exact Option.noConfusion hlk
          · rw [alookup_aset_ne _ _ (fun he => hpe he.symm)] at hlk
            exact hv2 p hp hlk


/-- One trading iteration preserves the volume invariant: the traded
quantity is subtracted from the best level's volume entry, matching the
decrement of the resting head (or the level's removal). -/
theorem matchStep_cont_volInv {isBuy : Bool} {incId : Nat} {incPrice : ℚ}
    {rem : Nat} {opp opp3 : SideBook}
    {idx idx2 : List (Nat × Order)} {tr : Trade} {rem2 : Nat}
    (h : matchStep isBuy incId incPrice rem opp idx = .cont tr rem2 opp3 idx2)
    (hinv : SideInv (!isBuy) opp) (hv : VolInv opp) : VolInv opp3 := by
  obtain ⟨k, resting, dqrest, h2, hk, hc, hlook, htr, hrem2, hopp3, hidx2⟩ := matchStep_cont_inv h
  obtain ⟨hv1, hv2, hv3⟩ := cleanHeap_volInv hinv hv
  have hinv1 : SideInv (!isBuy) (cleanHeap (!isBuy) opp) := (cleanHeap_sideInv hinv).1
  have hkn1 : keysNodup (cleanHeap (!isBuy) opp).levels := hinv1.2.1
  have hvol_best : alookup (priceOf (!isBuy) k) (cleanHeap (!isBuy) opp).vol =
      some (sumRem (resting :: dqrest)) := hv1 _ _ hlook
  have hminr : min rem resting.remaining ≤ resting.remaining := Nat.min_le_right ..
  by_cases h0 : resting.remaining - min rem resting.remaining = 0
  · by_cases hdq : dqrest = []
    · have hlv3 : opp3.levels = apop (priceOf (!isBuy) k) (cleanHeap (!isBuy) opp).levels := by
        rw [hopp3]; simp [h0, hdq]
      have hvol3 : opp3.vol = aset (priceOf (!isBuy) k)
          ((alookup (priceOf (!isBuy) k) (cleanHeap (!isBuy) opp).vol).getD 0 -
            (min rem resting.remaining : Int))
          (cleanHeap (!isBuy) opp).vol := by
        rw [hopp3]; simp [h0, hdq]
      have hps3 : opp3.pset = (cleanHeap (!isBuy) opp).pset := by
        rw [hopp3]; simp [h0, hdq]
      have hvalz : (alookup (priceOf (!isBuy) k) (cleanHeap (!isBuy) opp).vol).getD 0 -
          (min rem resting.remaining : Int) = 0 := by
        rw [hvol_best, Option.getD_some, hdq, sumRem_cons, sumRem_nil]
        omega
      refine ⟨?_, ?_, by rw [hvol3]; exact keysNodup_aset _ _ hv3⟩
      · intro p dq2 hlk
        rw [hlv3] at hlk
        rw [hvol3]
        by_cases hp : p = priceOf (!isBuy) k
        · subst hp
          rw [alookup_apop_self_nodup hkn1] at hlk
          exact Option.noConfusion hlk
        · rw [alookup_apop_ne _ (fun he => hp he.symm)] at hlk
          rw [alookup_aset_ne _ _ (fun he => hp he.symm)]
          exact hv1 p dq2 hlk
      · intro p hp hlk
        rw [hps3] at hp
        rw [hlv3] at hlk
        rw [hvol3]
        by_cases hpe : p = priceOf (!isBuy) k
        · subst hpe
          rw [alookup_aset_self, hvalz]
          exact Or.inr rfl
        · rw [alookup_apop_ne _ (fun he => hpe he.symm)] at hlk
          rw [alookup_aset_ne _ _ (fun he => hpe he.symm)]
          exact hv2 p hp hlk
    · have hlv3 : opp3.levels = aset (priceOf (!isBuy) k) dqrest
          (cleanHeap (!isBuy) opp).levels := by
        rw [hopp3]; simp [h0, hdq]
      have hvol3 : opp3.vol = aset (priceOf (!isBuy) k)
          ((alookup (priceOf (!isBuy) k) (cleanHeap (!isBuy) opp).vol).getD 0 -
            (min rem resting.remaining : Int))
          (cleanHeap (!isBuy) opp).vol := by
        rw [hopp3]; simp [h0, hdq]
      have hps3 : opp3.pset = (cleanHeap (!isBuy) opp).pset := by
        rw [hopp3]; simp [h0, hdq]
      have hval : (alookup (priceOf (!isBuy) k) (cleanHeap (!isBuy) opp).vol).getD 0 -
          (min rem resting.remaining : Int) = sumRem dqrest := by
        rw [hvol_best, Option.getD_some, sumRem_cons]
        omega
      refine ⟨?_, ?_, by rw [hvol3]; exact keysNodup_aset _ _ hv3⟩
      · intro p dq2 hlk
        rw [hlv3] at hlk
        rw [hvol3]
        by_cases hp : p = priceOf (!isBuy) k
        · subst hp
          rw [alookup_aset_self] at hlk
          obtain rfl := Option.some.inj hlk
          rw [alookup_aset_self, hval]
        · rw [alookup_aset_ne _ _ (fun he => hp he.symm)] at hlk
          rw [alookup_aset_ne _ _ (fun he => hp he.symm)]
          exact hv1 p dq2 hlk
      · intro p hp hlk
        rw [hps3] at hp
        rw [hlv3] at hlk
        rw [hvol3]
        by_cases hpe : p = priceOf (!isBuy) k
        · subst hpe
          rw [alookup_aset_self] at hlk
          exact Option.noConfusion hlk
        · rw [alookup_aset_ne _ _ (fun he => hpe he.symm)] at hlk
          rw [alookup_aset_ne _ _ (fun he => hpe he.symm)]
          exact hv2 p hp hlk
  · have hlv3 : opp3.levels = aset (priceOf (!isBuy) k)
        ({ resting with remaining := resting.remaining - min rem resting.remaining } :: dqrest)
        (cleanHeap (!isBuy) opp).levels := by
      rw [hopp3]; simp [h0]
    have hvol3 : opp3.vol = aset (priceOf (!isBuy) k)
        ((alookup (priceOf (!isBuy) k) (cleanHeap (!isBuy) opp).vol).getD 0 -
          (min rem resting.remaining : Int))
        (cleanHeap (!isBuy) opp).vol := by
      rw [hopp3]; simp [h0]
    have hps3 : opp3.pset = (cleanHeap (!isBuy) opp).pset := by
      rw [hopp3]; simp [h0]
    have hval : (alookup (priceOf (!isBuy) k) (cleanHeap (!isBuy) opp).vol).getD 0 -
        (min rem resting.remaining : Int) =
        sumRem ({ resting with remaining :=
          resting.remaining - min rem resting.remaining } :: dqrest) := by
      rw [hvol_best, Option.getD_some, sumRem_cons, sumRem_cons]
      dsimp only
      omega
    refine ⟨?_, ?_, by rw [hvol3]; exact keysNodup_aset _ _ hv3⟩
    · intro p dq2 hlk
      rw [hlv3] at hlk
      rw [hvol3]
      by_cases hp : p = priceOf (!isBuy) k
      · subst hp
        rw [alookup_aset_self] at hlk
        obtain rfl := Option.some.inj hlk
        rw [alookup_aset_self, hval]
      · rw [alookup_aset_ne _ _ (fun he => hp he.symm)] at hlk
        rw [alookup_aset_ne _ _ (fun he => hp he.symm)]
        exact hv1 p dq2 hlk
    · intro p hp hlk
      rw [hps3] at hp
      rw [hlv3] at hlk
      rw [hvol3]
      by_cases hpe : p = priceOf (!isBuy) k
      · subst hpe
        rw [alookup_aset_self] at hlk
        exact Option.noConfusion hlk
      · rw [alookup_aset_ne _ _ (fun he => hpe he.symm)] at hlk
        rw [alookup_aset_ne _ _ (fun he => hpe he.symm)]
        exact hv2 p hp hlk

/-- The matching loop preserves the volume invariant of the opposite
side. -/
theorem matchLoop_volInv {isBuy : Bool} {incId : Nat} {incPrice : ℚ} :
    ∀ (fuel rem : Nat) (opp : SideBook) (idx : List (Nat × Order))
      (ts : List Trade) (rem' : Nat) (opp' : SideBook) (idx' : List (Nat × Order)),
      matchLoop isBuy incId incPrice fuel rem opp idx = some (ts, rem', opp', idx') →
      SideInv (!isBuy) opp → VolInv opp → VolInv opp'
  | 0, rem, opp, idx => by
    intro ts rem' opp' idx' h hinv hv
    exact Option.noConfusion h
  | fuel + 1, 0, opp, idx => by
    intro ts rem' opp' idx' h hinv hv
    obtain ⟨-, -, f3, -⟩ :
        ([] : List Trade) = ts ∧ (0 : Nat) = rem' ∧ opp = opp' ∧ idx = idx' := by
      simpa [matchLoop, Prod.ext_iff, and_assoc] using h
    subst f3
    exact hv
  | fuel + 1, rem + 1, opp, idx => by
    intro ts rem' opp' idx' h hinv hv
    rcases hms : matchStep isBuy incId incPrice (rem + 1) opp idx with
      sb1 | _ | ⟨tr, rem2, opp3, idx2⟩
    · simp only [matchLoop, hms] at h
      obtain ⟨-, -, f3, -⟩ :
          ([] : List Trade) = ts ∧ rem + 1 = rem' ∧ sb1 = opp' ∧ idx = idx' := by
        simpa [Prod.ext_iff, and_assoc] using h
      subst f3
      obtain ⟨hsb1, -⟩ := matchStep_stop_inv hms
      rw [hsb1]
      exact cleanHeap_volInv hinv hv
    · simp only [matchLoop, hms] at h
      exact Option.noConfusion h
    · simp only [matchLoop, hms] at h
      rcases hml : matchLoop isBuy incId incPrice fuel rem2 opp3 idx2 with
        _ | ⟨ts0, remF, oppF, idxF⟩
      · rw [hml] at h
        exact Option.noConfusion h
      · rw [hml] at h
        obtain ⟨-, -, f3, -⟩ :
            tr :: ts0 = ts ∧ remF = rem' ∧ oppF = opp' ∧ idxF = idx' := by
          simpa [Prod.ext_iff, and_assoc] using h
        subst f3
        exact matchLoop_volInv fuel rem2 opp3 idx2 ts0 remF oppF idxF hml
          (matchStep_cont_sideInv hms hinv).1 (matchStep_cont_volInv hms hinv hv)


theorem stInv_empty : StInv OrderBook.empty := by
  refine ⟨bookInv_empty.1, bookInv_empty.2.1, ⟨?_, ?_, ?_⟩, ⟨?_, ?_, ?_⟩⟩ <;>
    first
      | exact fun p dq h => Option.noConfusion h
      | exact fun p hp h => absurd hp (List.not_mem_nil p)
      | simp [OrderBook.empty, keysNodup]

/-- Every event preserves the structural and volume invariants (including
`modify`, which breaks only the no-cross property). -/
theorem processEvent_stInv (b : OrderBook) (e : Event) (b1 : OrderBook)
    (ts : List Trade) (ack : Option Bool)
    (hpe : processEvent b e = some (b1, ts, ack)) (h : StInv b) : StInv b1 := by
  obtain ⟨hbuy, hsell, hvB, hvS⟩ := h
  cases e with
  | place oid side price qty =>
    rcases hmo : matchOrder b ⟨oid, side, norm_price price, qty, qty⟩ with _ | ⟨ts0, b2⟩
    · rw [processEvent, hmo] at hpe
      exact Option.noConfusion hpe
    · rw [processEvent, hmo] at hpe
      have hb2 : b2 = b1 := congrArg Prod.fst (Option.some.inj hpe)
      subst hb2
      unfold matchOrder at hmo
      by_cases hside : side = (1 : Int)
      · rw [if_pos hside] at hmo
        rcases hml : matchLoop true oid (norm_price price) (qty + sideSize b.sell + 1) qty
            b.sell b.orders_by_id with _ | ⟨ts1, rem1, sell1, idx1⟩
        · rw [hml] at hmo
          exact Option.noConfusion hmo
        · rw [hml] at hmo
          have hb2 : b2 = (if 0 < rem1 then
              add_to_book { b with sell := sell1, orders_by_id := idx1 }
                { id := oid, side := side, price := norm_price price, orig_qty := qty,
                  remaining := rem1 }
              else { b with sell := sell1, orders_by_id := idx1 }) :=
            (congrArg Prod.snd (Option.some.inj hmo)).symm
          obtain ⟨hinvS1, -, -⟩ :=
            @matchLoop_sideInv true oid (norm_price price)
              (qty + sideSize b.sell + 1) qty b.sell b.orders_by_id ts1 rem1 sell1 idx1
              hml hsell
          have hvS1 : VolInv sell1 :=
            @matchLoop_volInv true oid (norm_price price)
              (qty + sideSize b.sell + 1) qty b.sell b.orders_by_id ts1 rem1 sell1 idx1
              hml hsell hvS
          by_cases hrem : 0 < rem1
          · rw [if_pos hrem] at hb2
            have hadd : b2 = { b with
                buy := addToSide true b.buy
                  { id := oid, side := side, price := norm_price price, orig_qty := qty,
                    remaining := rem1 }
                sell := sell1
                orders_by_id := aset oid
                  { id := oid, side := side, price := norm_price price, orig_qty := qty,
                    remaining := rem1 } idx1 } := by
              rw [hb2]
              unfold add_to_book
              rw [if_pos hside]
            rw [hadd]
            exact ⟨(addToSide_sideInv _ hbuy).1, hinvS1, addToSide_volInv _ hvB, hvS1⟩
          · rw [if_neg hrem] at hb2
            rw [hb2]
            exact ⟨hbuy, hinvS1, hvB, hvS1⟩
      · rw [if_neg hside] at hmo
        rcases hml : matchLoop false oid (norm_price price) (qty + sideSize b.buy + 1) qty
            b.buy b.orders_by_id with _ | ⟨ts1, rem1, buy1, idx1⟩
        · rw [hml] at hmo
          exact Option.noConfusion hmo
        · rw [hml] at hmo
          have hb2 : b2 = (if 0 < rem1 then
              add_to_book { b with buy := buy1, orders_by_id := idx1 }
                { id := oid, side := side, price := norm_price price, orig_qty := qty,
                  remaining := rem1 }
              else { b with buy := buy1, orders_by_id := idx1 }) :=
            (congrArg Prod.snd (Option.some.inj hmo)).symm
          obtain ⟨hinvB1, -, -⟩ :=
            @matchLoop_sideInv false oid (norm_price price)
              (qty + sideSize b.buy + 1) qty b.buy b.orders_by_id ts1 rem1 buy1 idx1
              hml hbuy
          have hvB1 : VolInv buy1 :=
            @matchLoop_volInv false oid (norm_price price)
              (qty + sideSize b.buy + 1) qty b.buy b.orders_by_id ts1 rem1 buy1 idx1
              hml hbuy hvB
          by_cases hrem : 0 < rem1
          · rw [if_pos hrem] at hb2
            have hadd : b2 = { b with
                buy := buy1
                sell := addToSide false b.sell
                  { id := oid, side := side, price := norm_price price, orig_qty := qty,
                    remaining := rem1 }
                orders_by_id := aset oid
                  { id := oid, side := side, price := norm_price price, orig_qty := qty,
                    remaining := rem1 } idx1 } := by
              rw [hb2]
              unfold add_to_book
              rw [if_neg hside]
            rw [hadd]
            exact ⟨hinvB1, (addToSide_sideInv _ hsell).1, hvB1, addToSide_volInv _ hvS⟩
          · rw [if_neg hrem] at hb2
            rw [hb2]
            exact ⟨hinvB1, hsell, hvB1, hvS⟩
  | cancel oid =>
    have hb1 : (b.cancel oid).2 = b1 := congrArg Prod.fst (Option.some.inj hpe)
    rw [← hb1]
    unfold OrderBook.cancel
    rcases hl : alookup oid b.orders_by_id with _ | o
    · exact ⟨hbuy, hsell, hvB, hvS⟩
    · simp only [hl]
      by_cases hside : o.side = 1
      · rw [if_pos hside]
        exact ⟨(cancelSide_sideInv o hbuy).1, hsell,
          cancelSide_volInv o hbuy.2.1 hvB, hvS⟩
      · rw [if_neg hside]
        exact ⟨hbuy, (cancelSide_sideInv o hsell).1, hvB,
          cancelSide_volInv o hsell.2.1 hvS⟩
  | modify oid p =>
    have hb1 : (b.modify oid (norm_price p)).2 = b1 := congrArg Prod.fst (Option.some.inj hpe)
    rw [← hb1]
    unfold OrderBook.modify
    rcases hl : alookup oid b.orders_by_id with _ | o
    · exact ⟨hbuy, hsell, hvB, hvS⟩
    · simp only [hl]
      by_cases hside : o.side = 1
      · rw [if_pos hside]
        unfold add_to_book
        by_cases hside2 : ({ o with price := norm_price (norm_price p) } : Order).side = 1
        · rw [if_pos hside2]
          exact ⟨(addToSide_sideInv _ (cancelSide_sideInv o hbuy).1).1, hsell,
            addToSide_volInv _ (cancelSide_volInv o hbuy.2.1 hvB), hvS⟩
        · exact absurd hside hside2
      · rw [if_neg hside]
        unfold add_to_book
        by_cases hside2 : ({ o with price := norm_price (norm_price p) } : Order).side = 1
        · exact absurd hside2 hside
        · rw [if_neg hside2]
          exact ⟨hbuy, (addToSide_sideInv _ (cancelSide_sideInv o hsell).1).1, hvB,
            addToSide_volInv _ (cancelSide_volInv o hsell.2.1 hvS)⟩

/-- The structural and volume invariants hold in every run-reachable
state. -/
theorem runEvents_stInv :
    ∀ (es : List Event) (b st : OrderBook) (tr : List Trade),
      StInv b → runEvents b es = some (st, tr) → StInv st
  | [], b, st, tr => by
    intro hs h
    exact (show b = st from congrArg Prod.fst (Option.some.inj h)) ▸ hs
  | e :: es, b, st, tr => by
    intro hs h
    simp only [runEvents] at h
    rcases hpe : processEvent b e with _ | ⟨b1, ts1, ack⟩
    · rw [hpe] at h
      exact Option.noConfusion h
    · simp only [hpe] at h
      rcases hre : runEvents b1 es with _ | ⟨st2, tr2⟩
      · rw [hre] at h
        exact Option.noConfusion h
      · rw [hre] at h
        have hst : st2 = st := congrArg Prod.fst (Option.some.inj h)
        exact hst ▸ runEvents_stInv es b1 st2 tr2
          (processEvent_stInv b e b1 ts1 ack hpe hs) hre


theorem pairwise_lt_of_sorted_nodup {l : List ℚ}
    (hs : l.Sorted (· ≤ ·)) (hn : l.Nodup) : l.Pairwise (· < ·) := by
  have h2 := List.Pairwise.and hs hn
  exact h2.imp (fun h => lt_of_le_of_ne h.1 h.2)

/-- The snapshot price column of one side: strictly monotone, at most
`depth` long, drawn from the side's (cleaned) price set. -/
theorem snapshot_side_prices (pset : List ℚ) (depth : Nat) (hn : pset.Nodup) :
    ((List.insertionSort (· ≤ ·) pset).take depth).Pairwise (· < ·) ∧
    (((List.insertionSort (· ≤ ·) pset).reverse).take depth).Pairwise (· > ·) ∧
    ((List.insertionSort (· ≤ ·) pset).take depth).length ≤ depth ∧
    (((List.insertionSort (· ≤ ·) pset).reverse).take depth).length ≤ depth ∧
    (∀ p ∈ (List.insertionSort (· ≤ ·) pset).take depth, p ∈ pset) ∧
    (∀ p ∈ ((List.insertionSort (· ≤ ·) pset).reverse).take depth, p ∈ pset) := by
  have hsorted : (List.insertionSort (· ≤ ·) pset).Sorted (· ≤ ·) :=
    List.sorted_insertionSort _ _
  have hperm : (List.insertionSort (· ≤ ·) pset).Perm pset :=
    List.perm_insertionSort _ _
  have hnodup : (List.insertionSort (· ≤ ·) pset).Nodup := hperm.nodup_iff.mpr hn
  have hlt : (List.insertionSort (· ≤ ·) pset).Pairwise (· < ·) :=
    pairwise_lt_of_sorted_nodup hsorted hnodup
  have hgt : ((List.insertionSort (· ≤ ·) pset).reverse).Pairwise (· > ·) :=
    (List.pairwise_reverse).mpr hlt
  refine ⟨List.Pairwise.sublist (List.take_sublist ..) hlt,
    List.Pairwise.sublist (List.take_sublist ..) hgt,
    List.length_take_le .., List.length_take_le .., ?_, ?_⟩
  · intro p hp
    exact hperm.subset ((List.take_sublist ..).subset hp)
  · intro p hp
    exact hperm.subset (List.mem_reverse.mp ((List.take_sublist ..).subset hp))

/-- C6 corrected: in every run-reachable state, `snapshot(depth)` returns at
most `depth` bid and ask entries, bid prices strictly descending and ask
prices strictly ascending; each entry's quantity is the aggregate remaining
of the live level at its price — or `0` for a stale price that no longer has
a level (such phantom entries do occur, see `snapshot_cex`, so the
materialized prices can strictly contain the domain of the levels
mapping). -/
theorem snapshot_spec (es : List Event) (st : OrderBook) (tr : List Trade) (depth : Nat)
    (hrun : run es = some (st, tr)) :
    (snapshot st depth).2.1.length ≤ depth ∧
    (snapshot st depth).2.2.length ≤ depth ∧
    ((snapshot st depth).2.1.map Prod.fst).Pairwise (· > ·) ∧
    ((snapshot st depth).2.2.map Prod.fst).Pairwise (· < ·) ∧
    (∀ e ∈ (snapshot st depth).2.1,
      (∃ dq, alookup e.1 (snapshot st depth).1.buy.levels = some dq ∧ dq ≠ [] ∧
        e.2 = sumRem dq) ∨
      (alookup e.1 (snapshot st depth).1.buy.levels = none ∧ e.2 = 0)) ∧
    (∀ e ∈ (snapshot st depth).2.2,
      (∃ dq, alookup e.1 (snapshot st depth).1.sell.levels = some dq ∧ dq ≠ [] ∧
        e.2 = sumRem dq) ∨
      (alookup e.1 (snapshot st depth).1.sell.levels = none ∧ e.2 = 0)) := by
  obtain ⟨hbuy, hsell, hvB, hvS⟩ :=
    runEvents_stInv es OrderBook.empty st tr stInv_empty hrun
  have hbuy2 : SideInv true (cleanHeap true st.buy) := (cleanHeap_sideInv hbuy).1
  have hsell2 : SideInv false (cleanHeap false st.sell) := (cleanHeap_sideInv hsell).1
  have hvB2 : VolInv (cleanHeap true st.buy) := cleanHeap_volInv hbuy hvB
  have hvS2 : VolInv (cleanHeap false st.sell) := cleanHeap_volInv hsell hvS
  have hb2buy : (snapshot st depth).1.buy = cleanHeap true st.buy := rfl
  have hb2sell : (snapshot st depth).1.sell = cleanHeap false st.sell := rfl
  have hbids : (snapshot st depth).2.1 =
      (((List.insertionSort (· ≤ ·) (cleanHeap true st.buy).pset).reverse).take depth).map
        (fun p => (p, (alookup p (cleanHeap true st.buy).vol).getD 0)) := rfl
  have hasks : (snapshot st depth).2.2 =
      ((List.insertionSort (· ≤ ·) (cleanHeap false st.sell).pset).take depth).map
        (fun p => (p, (alookup p (cleanHeap false st.sell).vol).getD 0)) := rfl
  obtain ⟨-, hgtB, -, hlenB, -, hmemB⟩ :=
    snapshot_side_prices (cleanHeap true st.buy).pset depth hbuy2.2.2.2.2.1
  obtain ⟨hltS, -, hlenS, -, hmemS, -⟩ :=
    snapshot_side_prices (cleanHeap false st.sell).pset depth hsell2.2.2.2.2.1
  have hqty : ∀ (sb : SideBook), SideInv true sb ∨ SideInv false sb → VolInv sb →
      ∀ p ∈ sb.pset,
      (∃ dq, alookup p sb.levels = some dq ∧ dq ≠ [] ∧
        (alookup p sb.vol).getD 0 = sumRem dq) ∨
      (alookup p sb.levels = none ∧ (alookup p sb.vol).getD 0 = 0) := by
    intro sb hinv hv p hp
    rcases hlk : alookup p sb.levels with _ | dq
    · right
      refine ⟨rfl, ?_⟩
      rcases hv.2.1 p hp hlk with h2 | h2
      · rw [h2]
        rfl
      · rw [h2]
        rfl
    · left
      refine ⟨dq, rfl, ?_, ?_⟩
      · rcases hinv with hinv | hinv
        · exact hinv.1 (p, dq) (alookup_mem hlk)
        · exact hinv.1 (p, dq) (alookup_mem hlk)
      · rw [hv.1 p dq hlk]
        rfl
  refine ⟨?_, ?_, ?_, ?_, ?_, ?_⟩
  · rw [hbids, List.length_map]
    exact hlenB
  · rw [hasks, List.length_map]
    exact hlenS
  · rw [hbids]
    have hmap : ((((List.insertionSort (· ≤ ·) (cleanHeap true st.buy).pset).reverse).take
        depth).map (fun p => (p, (alookup p (cleanHeap true st.buy).vol).getD 0))).map
        Prod.fst =
        (((List.insertionSort (· ≤ ·) (cleanHeap true st.buy).pset).reverse).take depth) := by
      rw [List.map_map]
      exact List.map_id ..
    rw [hmap]
    exact hgtB
  · rw [hasks]
    have hmap : (((List.insertionSort (· ≤ ·) (cleanHeap false st.sell).pset).take
        depth).map (fun p => (p, (alookup p (cleanHeap false st.sell).vol).getD 0))).map
        Prod.fst =
        ((List.insertionSort (· ≤ ·) (cleanHeap false st.sell).pset).take depth) := by
      rw [List.map_map]
      exact List.map_id ..
    rw [hmap]
    exact hltS
  · intro e he
    rw [hbids] at he
    obtain ⟨p, hp, rfl⟩ := List.mem_map.mp he
    rw [hb2buy]
    exact hqty (cleanHeap true st.buy) (Or.inl hbuy2) hvB2 p (hmemB p hp)
  · intro e he
    rw [hasks] at he
    obtain ⟨p, hp, rfl⟩ := List.mem_map.mp he
    rw [hb2sell]
    exact hqty (cleanHeap false st.sell) (Or.inr hsell2) hvS2 p (hmemS p hp)

theorem snapshot_spec_witness :
    (snapshot ⟨⟨[(20, [⟨1, 1, 20, 5, 5⟩])], [-20, -10], [10, 20], [(20, 5), (10, 0)]⟩,
        ⟨[], [], [], []⟩, [(1, ⟨1, 1, 20, 5, 5⟩)]⟩ 5).2.1.length ≤ 5 ∧
    (snapshot ⟨⟨[(20, [⟨1, 1, 20, 5, 5⟩])], [-20, -10], [10, 20], [(20, 5), (10, 0)]⟩,
        ⟨[], [], [], []⟩, [(1, ⟨1, 1, 20, 5, 5⟩)]⟩ 5).2.2.length ≤ 5 ∧
    ((snapshot ⟨⟨[(20, [⟨1, 1, 20, 5, 5⟩])], [-20, -10], [10, 20], [(20, 5), (10, 0)]⟩,
        ⟨[], [], [], []⟩, [(1, ⟨1, 1, 20, 5, 5⟩)]⟩ 5).2.1.map Prod.fst).Pairwise (· > ·) ∧
    ((snapshot ⟨⟨[(20, [⟨1, 1, 20, 5, 5⟩])], [-20, -10], [10, 20], [(20, 5), (10, 0)]⟩,
        ⟨[], [], [], []⟩, [(1, ⟨1, 1, 20, 5, 5⟩)]⟩ 5).2.2.map Prod.fst).Pairwise (· < ·) ∧
    (∀ e ∈ (snapshot ⟨⟨[(20, [⟨1, 1, 20, 5, 5⟩])], [-20, -10], [10, 20], [(20, 5), (10, 0)]⟩,
        ⟨[], [], [], []⟩, [(1, ⟨1, 1, 20, 5, 5⟩)]⟩ 5).2.1,
      (∃ dq, alookup e.1 (snapshot ⟨⟨[(20, [⟨1, 1, 20, 5, 5⟩])], [-20, -10], [10, 20],
          [(20, 5), (10, 0)]⟩, ⟨[], [], [], []⟩,
          [(1, ⟨1, 1, 20, 5, 5⟩)]⟩ 5).1.buy.levels = some dq ∧ dq ≠ [] ∧
        e.2 = sumRem dq) ∨
      (alookup e.1 (snapshot ⟨⟨[(20, [⟨1, 1, 20, 5, 5⟩])], [-20, -10], [10, 20],
          [(20, 5), (10, 0)]⟩, ⟨[], [], [], []⟩,
          [(1, ⟨1, 1, 20, 5, 5⟩)]⟩ 5).1.buy.levels = none ∧ e.2 = 0)) ∧
    (∀ e ∈ (snapshot ⟨⟨[(20, [⟨1, 1, 20, 5, 5⟩])], [-20, -10], [10, 20], [(20, 5), (10, 0)]⟩,
        ⟨[], [], [], []⟩, [(1, ⟨1, 1, 20, 5, 5⟩)]⟩ 5).2.2,
      (∃ dq, alookup e.1 (snapshot ⟨⟨[(20, [⟨1, 1, 20, 5, 5⟩])], [-20, -10], [10, 20],
          [(20, 5), (10, 0)]⟩, ⟨[], [], [], []⟩,
          [(1, ⟨1, 1, 20, 5, 5⟩)]⟩ 5).1.sell.levels = some dq ∧ dq ≠ [] ∧
        e.2 = sumRem dq) ∨
      (alookup e.1 (snapshot ⟨⟨[(20, [⟨1, 1, 20, 5, 5⟩])], [-20, -10], [10, 20],
          [(20, 5), (10, 0)]⟩, ⟨[], [], [], []⟩,
          [(1, ⟨1, 1, 20, 5, 5⟩)]⟩ 5).1.sell.levels = none ∧ e.2 = 0)) :=
  snapshot_spec [.place 1 1 20 5, .place 2 1 10 5, .cancel 2]
    ⟨⟨[(20, [⟨1, 1, 20, 5, 5⟩])], [-20, -10], [10, 20], [(20, 5), (10, 0)]⟩,
      ⟨[], [], [], []⟩, [(1, ⟨1, 1, 20, 5, 5⟩)]⟩ [] 5 (by decide)

end Engine
